import Mathlib

/-!
Verification of the ElkDB storage engine against its specification.

The Go sources are shallowly embedded: byte buffers (`[]byte`) become
`List Nat` with every element intended to be `< 256`, in-place writes
become functional buffer updates, `uint16`/`uint64` arithmetic is `Nat`
arithmetic reduced modulo `2^16`/`2^64` exactly where the Go code computes
in those types, and Go slices read past their bounds are modelled by
truncating reads (the claims only evaluate them under well-formedness
bounds that match the Go assertions).
-/

namespace ElkDB

/-! ## Byte buffers

Primitive reads and writes over `List Nat`, mirroring Go's
`binary.LittleEndian` accessors and the builtin `copy`. `copy` in Go
copies `min (len dst - loc) (len src)` bytes; `writeBytes` does the same,
hence it never changes the buffer length.
-/

abbrev Bytes := List Nat

/-- Reduction modulo 2^16, applied wherever the Go code computes in `uint16`. -/
def u16 (x : Nat) : Nat := x % 65536

/-- Reduction modulo 2^64, applied wherever the Go code computes in `uint64`. -/
def u64 (x : Nat) : Nat := x % 18446744073709551616

/-- `copy(b[loc:], src)`: overwrite bytes of `b` from index `loc` with `src`,
truncating at the end of `b`. -/
def writeBytes (b : Bytes) (loc : Nat) (src : Bytes) : Bytes :=
  b.take loc ++ (src.take (b.length - loc)) ++ b.drop (loc + src.length)

/-- `b[loc:][:n]` as a truncating read. -/
def readBytes (b : Bytes) (loc n : Nat) : Bytes :=
  (b.drop loc).take n

/-- Little-endian bytes of a `uint16` value. -/
def u16Bytes (v : Nat) : Bytes := [v % 256, v / 256 % 256]

/-- Little-endian bytes of a `uint64` value. -/
def u64Bytes (v : Nat) : Bytes :=
  [v % 256, v / 256 % 256, v / 256 ^ 2 % 256, v / 256 ^ 3 % 256,
   v / 256 ^ 4 % 256, v / 256 ^ 5 % 256, v / 256 ^ 6 % 256, v / 256 ^ 7 % 256]

/-- `binary.LittleEndian.Uint16(b[loc:])`. -/
def readU16 (b : Bytes) (loc : Nat) : Nat :=
  b.getD loc 0 + 256 * b.getD (loc + 1) 0

/-- `binary.LittleEndian.Uint64(b[loc:])`. -/
def readU64 (b : Bytes) (loc : Nat) : Nat :=
  b.getD loc 0 + 256 * b.getD (loc + 1) 0 + 256 ^ 2 * b.getD (loc + 2) 0 +
  256 ^ 3 * b.getD (loc + 3) 0 + 256 ^ 4 * b.getD (loc + 4) 0 +
  256 ^ 5 * b.getD (loc + 5) 0 + 256 ^ 6 * b.getD (loc + 6) 0 +
  256 ^ 7 * b.getD (loc + 7) 0

/-- `binary.LittleEndian.PutUint16(b[loc:], v)`. -/
def writeU16 (b : Bytes) (loc v : Nat) : Bytes :=
  writeBytes b loc (u16Bytes v)

/-- `binary.LittleEndian.PutUint64(b[loc:], v)`. -/
def writeU64 (b : Bytes) (loc v : Nat) : Bytes :=
  writeBytes b loc (u64Bytes v)

/-! ## Page codec constants (`assert.go` / disk constants) -/

def HEADER : Nat := 4
def POINTER_SIZE : Nat := 8
def OFFSET_SIZE : Nat := 2
def KEY_LENGTH_SIZE : Nat := 2
def VAL_LENGTH_SIZE : Nat := 2
def BTREE_MAX_NODE_SIZE : Nat := 4096
def BTREE_MAX_KEY_SIZE : Nat := 1000
def BTREE_MAX_VAL_SIZE : Nat := 3000
def n_keys : Nat := 2
def BTREE_NODE : Nat := 1
def BTREE_LEAF : Nat := 2

/-! ## Page codec accessors (`BNode` methods)

A `BNode` is a byte buffer. Index and location arithmetic is performed in
`uint16` in Go, hence the `u16` reductions. Go's bounds asserts are not
part of the functional translation; the claims are stated under
well-formedness hypotheses that imply them.
-/

def btype (node : Bytes) : Nat := readU16 node 0

def nkeys (node : Bytes) : Nat := readU16 node 2

def setHeader (node : Bytes) (t n : Nat) : Bytes :=
  writeU16 (writeU16 node 0 t) 2 n

def getPointer (node : Bytes) (idx : Nat) : Nat :=
  readU64 node (u16 (HEADER + POINTER_SIZE * idx))

def setPointer (node : Bytes) (idx val : Nat) : Bytes :=
  writeU64 node (u16 (HEADER + POINTER_SIZE * idx)) val

def offsetLocation (node : Bytes) (idx : Nat) : Nat :=
  u16 (HEADER + POINTER_SIZE * nkeys node + OFFSET_SIZE * (idx - 1))

def getOffset (node : Bytes) (idx : Nat) : Nat :=
  if idx = 0 then 0 else readU16 node (offsetLocation node idx)

def setOffset (node : Bytes) (idx offset : Nat) : Bytes :=
  writeU16 node (offsetLocation node idx) offset

def kvLocation (node : Bytes) (idx : Nat) : Nat :=
  u16 (HEADER + POINTER_SIZE * nkeys node + OFFSET_SIZE * nkeys node + getOffset node idx)

def getKey (node : Bytes) (idx : Nat) : Bytes :=
  let loc := kvLocation node idx
  readBytes node (u16 (loc + KEY_LENGTH_SIZE + VAL_LENGTH_SIZE)) (readU16 node loc)

def getVal (node : Bytes) (idx : Nat) : Bytes :=
  let loc := kvLocation node idx
  let klen := readU16 node loc
  let vlen := readU16 node (u16 (loc + KEY_LENGTH_SIZE))
  readBytes node (u16 (loc + KEY_LENGTH_SIZE + VAL_LENGTH_SIZE + klen)) vlen

def nbytes (node : Bytes) : Nat := kvLocation node (nkeys node)

/-! ## B-tree node construction (`freelist.go`) -/

/-- `bytes.Compare` (lexicographic, shorter prefix first). -/
def bytesCompare : Bytes → Bytes → Ordering
  | [], [] => .eq
  | [], _ :: _ => .lt
  | _ :: _, [] => .gt
  | x :: xs, y :: ys =>
    if x < y then .lt else if y < x then .gt else bytesCompare xs ys

/-- `nodeAppendKV`: write entry `idx` (pointer, lengths, key, value) and the
end offset of entry `idx`. -/
def nodeAppendKV (newNode : Bytes) (idx ptr : Nat) (key val : Bytes) : Bytes :=
  let n1 := setPointer newNode idx ptr
  let loc := kvLocation n1 idx
  let n2 := writeU16 n1 loc key.length
  let n3 := writeU16 n2 (u16 (loc + KEY_LENGTH_SIZE)) val.length
  let n4 := writeBytes n3 (u16 (loc + KEY_LENGTH_SIZE + VAL_LENGTH_SIZE)) key
  let n5 := writeBytes n4 (u16 (loc + KEY_LENGTH_SIZE + VAL_LENGTH_SIZE + key.length)) val
  setOffset n5 (idx + 1)
    (getOffset n5 idx + KEY_LENGTH_SIZE + VAL_LENGTH_SIZE + (key.length + val.length))

/-- The pointer-copying loop of `nodeAppendRange`. -/
def appendRangePtrs (newNode oldNode : Bytes) (dstNew srcOld : Nat) : Nat → Bytes
  | 0 => newNode
  | n + 1 =>
    setPointer (appendRangePtrs newNode oldNode dstNew srcOld n)
      (dstNew + n) (getPointer oldNode (srcOld + n))

/-- The offset-copying loop of `nodeAppendRange`; Go's `i` runs `1..n` and
computes `dstBegin + old.getOffset(srcOld+i) - srcBegin` in `uint16`
(wrapping subtraction, written here as `+ 65536 -`). -/
def appendRangeOffsets (newNode oldNode : Bytes) (dstNew srcOld dstBegin srcBegin : Nat) :
    Nat → Bytes
  | 0 => newNode
  | n + 1 =>
    setOffset (appendRangeOffsets newNode oldNode dstNew srcOld dstBegin srcBegin n)
      (dstNew + (n + 1))
      (u16 (dstBegin + getOffset oldNode (srcOld + (n + 1)) + 65536 - srcBegin))

/-- `nodeAppendRange`: copy entries `[srcOld, srcOld+n)` of `oldNode` to
positions `[dstNew, dstNew+n)` of `newNode`. -/
def nodeAppendRange (newNode oldNode : Bytes) (dstNew srcOld n : Nat) : Bytes :=
  if n = 0 then newNode
  else
    let n1 := appendRangePtrs newNode oldNode dstNew srcOld n
    let dstBegin := getOffset n1 dstNew
    let srcBegin := getOffset oldNode srcOld
    let n2 := appendRangeOffsets n1 oldNode dstNew srcOld dstBegin srcBegin n
    let begin0 := kvLocation oldNode srcOld
    let end0 := kvLocation oldNode (srcOld + n)
    writeBytes n2 (kvLocation n2 dstNew) (readBytes oldNode begin0 (end0 - begin0))

/-- `leafInsert`: new leaf with `key/val` spliced in at position `idx`. -/
def leafInsert (newNode oldNode : Bytes) (idx : Nat) (key val : Bytes) : Bytes :=
  let n0 := setHeader newNode BTREE_LEAF (nkeys oldNode + 1)
  let n1 := nodeAppendRange n0 oldNode 0 0 idx
  let n2 := nodeAppendKV n1 idx 0 key val
  nodeAppendRange n2 oldNode (idx + 1) idx (nkeys oldNode - idx)

/-- `leafUpdate`: new leaf with the entry at `idx` replaced by `key/val`. -/
def leafUpdate (newNode oldNode : Bytes) (idx : Nat) (key val : Bytes) : Bytes :=
  let n0 := setHeader newNode BTREE_LEAF (nkeys oldNode)
  let n1 := nodeAppendRange n0 oldNode 0 0 idx
  let n2 := nodeAppendKV n1 idx 0 key val
  nodeAppendRange n2 oldNode (idx + 1) (idx + 1) (nkeys oldNode - (idx + 1))

/-- `leafDelete`: new leaf with the entry at `idx` removed. -/
def leafDelete (newNode oldNode : Bytes) (idx : Nat) : Bytes :=
  let n0 := setHeader newNode BTREE_LEAF (nkeys oldNode - 1)
  let n1 := nodeAppendRange n0 oldNode 0 0 idx
  nodeAppendRange n1 oldNode idx (idx + 1) (nkeys oldNode - (idx + 1))

/-- `nodeMerge`: concatenate the entries of two nodes. -/
def nodeMerge (newNode left right : Bytes) : Bytes :=
  let n0 := setHeader newNode (btype left) (nkeys left + nkeys right)
  let n1 := nodeAppendRange n0 left 0 0 (nkeys left)
  nodeAppendRange n1 right (nkeys left) 0 (nkeys right)

/-- `nodeReplace2Child`: replace two adjacent links at `idx`, `idx+1` by a
single link `ptr` with separator `key`. -/
def nodeReplace2Child (newNode oldNode : Bytes) (idx ptr : Nat) (key : Bytes) : Bytes :=
  let n0 := setHeader newNode (btype oldNode) (nkeys oldNode - 1)
  let n1 := nodeAppendRange n0 oldNode 0 0 idx
  let n2 := nodeAppendKV n1 idx ptr key []
  nodeAppendRange n2 oldNode (idx + 1) (idx + 2) (nkeys oldNode - (idx + 2))

/-! ## Node search (`nodeLookupLE`) -/

/-- The scan loop of `nodeLookupLE`, indices `i..nkeys-1`.
`cmp ≤ 0` updates `found`; `cmp ≥ 0` breaks. The first argument counts
the remaining iterations (at most `nkeys`), making the recursion
structural. -/
def lookupLoop (node key : Bytes) : Nat → Nat → Nat → Nat
  | 0, _, found => found
  | fuel + 1, i, found =>
    if i < nkeys node then
      match bytesCompare (getKey node i) key with
      | .eq => i
      | .lt => lookupLoop node key fuel (i + 1) i
      | .gt => found
    else found

/-- `nodeLookupLE`: greatest index `≥ 1` whose key is `≤ key`, else 0;
index 0 is skipped (copy of the parent separator). -/
def nodeLookupLE (node key : Bytes) : Nat := lookupLoop node key (nkeys node) 1 0

/-! ## Node splitting -/

/-- Byte size of the left half `[0, nleft)` of `old`, as computed by the
`left_bytes` closure in `nodeSplit2` (in `uint16`). -/
def leftBytes (old : Bytes) (nleft : Nat) : Nat :=
  u16 (HEADER + 8 * nleft + 2 * nleft + getOffset old nleft)

/-- Byte size of the implied right half, as computed by the `right_bytes`
closure in `nodeSplit2` (`old.nbytes() - left_bytes() + HEADER` in
wrapping `uint16` arithmetic). -/
def rightBytes (old : Bytes) (nleft : Nat) : Nat :=
  u16 (nbytes old + HEADER + 65536 - leftBytes old nleft)

/-- The decrement loop of `nodeSplit2`: lower `nleft` while the left half
exceeds `BTREE_MAX_NODE_SIZE`. (The loop always stops: at `nleft = 0` the
left half is just the header.) -/
def split2Dec (old : Bytes) : Nat → Nat
  | 0 => 0
  | nleft + 1 =>
    if BTREE_MAX_NODE_SIZE < leftBytes old (nleft + 1) then split2Dec old nleft
    else nleft + 1

/-- The increment loop of `nodeSplit2`: raise `nleft` while the right half
exceeds `BTREE_MAX_NODE_SIZE`. The Go loop has no bound; `fuel` dominates
the number of iterations actually needed under well-formedness. -/
def split2Inc (old : Bytes) : Nat → Nat → Nat
  | 0, nleft => nleft
  | fuel + 1, nleft =>
    if BTREE_MAX_NODE_SIZE < rightBytes old nleft then split2Inc old fuel (nleft + 1)
    else nleft

/-- The split point `nleft` chosen by `nodeSplit2`. -/
def split2Nleft (old : Bytes) : Nat :=
  split2Inc old (nkeys old) (split2Dec old (nkeys old / 2))

/-- `nodeSplit2`: split `old` into `left ++ right` at `split2Nleft`. -/
def nodeSplit2 (left right old : Bytes) : Bytes × Bytes :=
  let nleft := split2Nleft old
  let nright := nkeys old - nleft
  let l0 := setHeader left (btype old) nleft
  let r0 := setHeader right (btype old) nright
  let l1 := nodeAppendRange l0 old 0 0 nleft
  let r1 := nodeAppendRange r0 old 0 nleft nright
  (l1, r1)

/-- `nodeSplit3`: split an oversized node into 1–3 pages. -/
def nodeSplit3 (old : Bytes) : Nat × List Bytes :=
  if nbytes old ≤ BTREE_MAX_NODE_SIZE then (1, [old.take BTREE_MAX_NODE_SIZE])
  else
    let p := nodeSplit2 (List.replicate (2 * BTREE_MAX_NODE_SIZE) 0)
      (List.replicate BTREE_MAX_NODE_SIZE 0) old
    if nbytes p.1 ≤ BTREE_MAX_NODE_SIZE then (2, [p.1.take BTREE_MAX_NODE_SIZE, p.2])
    else
      let q := nodeSplit2 (List.replicate BTREE_MAX_NODE_SIZE 0)
        (List.replicate BTREE_MAX_NODE_SIZE 0) p.1
      (3, [q.1, q.2, p.2])

/-! ## Pager state and the three tree callbacks (`pager.go`)

The tree issues page reads, allocations and deallocations through the
`get`/`new`/`del` callbacks, implemented by `KV.pageGet`, `KV.pageNew` and
`KV.pageDel` over the pending-update map. The state also records every
callback invocation in `log`, which the frame/safety claims are stated
about. `FreeList.Get`/`FreeList.Len` are not part of the sources;
following the spec ("return the n-th pointer from the top of the list",
"`Len()` is the count of reachable pointers") the consumed view of the
free list is a plain pointer list `freeList`, indexed by `nFree`. -/

inductive Ev where
  | eget (p : Nat)
  | enew (p : Nat)
  | edel (p : Nat)
deriving DecidableEq, Repr

structure TSt where
  mapped : List (Nat × Bytes)
  updates : List (Nat × Option Bytes)
  flushed : Nat
  nAppend : Nat
  freeList : List Nat
  nFree : Nat
  root : Nat
  log : List Ev
deriving Repr

/-- `KV.pageGet`: a pending non-sentinel buffer masks the mapped bytes.
A sentinel (`pageDel`) entry fails Go's `page != nil` assert and a pointer
outside the map is a Go panic; both are modelled as the junk page `[]`
and shown unreachable. -/
def pageGet (st : TSt) (p : Nat) : Bytes × TSt :=
  (match List.lookup p st.updates with
   | some (some page) => page
   | some none => []
   | none => (List.lookup p st.mapped).getD [],
   { st with log := st.log ++ [Ev.eget p] })

/-- `KV.pageNew`: reuse a free-list pointer when available, else claim a
fresh slot past `flushed`; record the buffer as pending. -/
def pageNew (st : TSt) (node : Bytes) : Nat × TSt :=
  if st.nFree < st.freeList.length then
    let p := st.freeList.getD st.nFree 0
    (p, { st with
          nFree := st.nFree + 1
          updates := (p, some node) :: st.updates
          log := st.log ++ [Ev.enew p] })
  else
    let p := st.flushed + st.nAppend
    (p, { st with
          nAppend := st.nAppend + 1
          updates := (p, some node) :: st.updates
          log := st.log ++ [Ev.enew p] })

/-- `KV.pageDel`: record the sentinel marker for `p`. -/
def pageDel (st : TSt) (p : Nat) : TSt :=
  { st with
    updates := (p, none) :: st.updates
    log := st.log ++ [Ev.edel p] }

/-! ## B-tree operations (`freelist.go`)

Recursion through page pointers is not structural, so the recursive
functions take `fuel`; `none` means the fuel ran out (or a `panic("bad
node!")` branch was hit — both are excluded by the claims' hypotheses). -/

/-- Insert request, carrying the `Added` out-flag. -/
structure InsertReq where
  Key : Bytes
  Val : Bytes
  Mode : Nat
  Added : Bool := false
deriving Repr

def MODE_UPSERT : Nat := 0
def MODE_UPDATE_ONLY : Nat := 1
def MODE_INSERT_ONLY : Nat := 2

/-- `nodeGetKey`: descend via `nodeLookupLE`; at a leaf the entry is
returned only on exact key equality. -/
def nodeGetKey (fuel : Nat) (st : TSt) (node key : Bytes) :
    Option (Option Bytes × TSt) :=
  match fuel with
  | 0 => none
  | fuel + 1 =>
    let idx := nodeLookupLE node key
    if btype node = BTREE_LEAF then
      if key = getKey node idx then some (some (getVal node idx), st)
      else some (none, st)
    else if btype node = BTREE_NODE then
      let g := pageGet st (getPointer node idx)
      nodeGetKey fuel g.2 g.1 key
    else none

/-- `BTree.Get`. -/
def btreeGet (fuel : Nat) (st : TSt) (key : Bytes) : Option (Option Bytes × TSt) :=
  if st.root = 0 then some (none, st)
  else
    let g := pageGet st st.root
    nodeGetKey fuel g.2 g.1 key

/-- The child-allocation loop shared by `nodeReplaceNchild` and the
root-split in `InsertImpl`: for each child, allocate it via the `new`
callback and append `(ptr, child.getKey(0), nil)` at successive positions. -/
def appendChilds (st : TSt) (buf : Bytes) (pos : Nat) : List Bytes → Bytes × TSt
  | [] => (buf, st)
  | c :: rest =>
    let a := pageNew st c
    appendChilds a.2 (nodeAppendKV buf pos a.1 (getKey c 0) []) (pos + 1) rest

/-- `nodeReplaceNchild`: replace the single link at `idx` with links to
`childs`, each freshly allocated; with a single child whose first key
equals the old separator, byte-copy the parent and swap the pointer. -/
def nodeReplaceNchild (st : TSt) (newNode oldNode : Bytes) (idx : Nat)
    (childs : List Bytes) : Bytes × TSt :=
  if childs.length = 1 ∧ getKey (childs.getD 0 []) 0 = getKey oldNode idx then
    let copied := writeBytes newNode 0 (readBytes oldNode 0 (nbytes oldNode))
    let a := pageNew st (childs.getD 0 [])
    (setPointer copied idx a.1, a.2)
  else
    let n0 := setHeader newNode BTREE_NODE (nkeys oldNode + childs.length - 1)
    let n1 := nodeAppendRange n0 oldNode 0 0 idx
    let a := appendChilds st n1 idx childs
    (nodeAppendRange a.1 oldNode (idx + childs.length) (idx + 1)
      (nkeys oldNode - (idx + 1)), a.2)

/-- `treeInsert`: insert a KV into the subtree rooted at `node`, returning
the (possibly oversized) replacement page, or `[]` for a no-op. The
internal-node case is `nodeInsert`, inlined so the recursion is
structural on `fuel` (the standalone `nodeInsert` below has the source
shape and is definitionally this branch). -/
def treeInsert : Nat → TSt → InsertReq → Bytes → Option (Bytes × InsertReq × TSt)
  | 0, _, _, _ => none
  | fuel + 1, st, req, node =>
    let newBuf : Bytes := List.replicate (2 * BTREE_MAX_NODE_SIZE) 0
    let idx := nodeLookupLE node req.Key
    if btype node = BTREE_LEAF then
      if req.Key = getKey node idx then
        if req.Mode = MODE_INSERT_ONLY then some ([], req, st)
        else if req.Val = getVal node idx then some ([], req, st)
        else some (leafUpdate newBuf node idx req.Key req.Val, req, st)
      else
        if req.Mode = MODE_UPDATE_ONLY then some ([], req, st)
        else some (leafInsert newBuf node (idx + 1) req.Key req.Val,
          { req with Added := true }, st)
    else if btype node = BTREE_NODE then
      let kptr := getPointer node idx
      let g := pageGet st kptr
      match treeInsert fuel g.2 req g.1 with
      | none => none
      | some (updated, req1, st2) =>
        if updated = [] then some ([], req1, st2)
        else
          let st3 := pageDel st2 kptr
          let s := nodeSplit3 updated
          let r := nodeReplaceNchild st3 newBuf node idx s.2
          some (r.1, req1, r.2)
    else none

/-- `nodeInsert`: recursive insertion into the child at `idx`, then
deallocate the old child, split the result, update the links. -/
def nodeInsert (fuel : Nat) (st : TSt) (req : InsertReq) (new node : Bytes)
    (idx : Nat) : Option (Bytes × InsertReq × TSt) :=
  let kptr := getPointer node idx
  let g := pageGet st kptr
  match treeInsert fuel g.2 req g.1 with
  | none => none
  | some (updated, req1, st2) =>
    if updated = [] then some ([], req1, st2)
    else
      let st3 := pageDel st2 kptr
      let s := nodeSplit3 updated
      let r := nodeReplaceNchild st3 new node idx s.2
      some (r.1, req1, r.2)

/-- `BTree.InsertImpl`. The leading size asserts are Go panics, modelled
as an explicit `none`-with-message outcome below in `btreeInsertImpl`;
here the tree part, assuming they passed. -/
def btreeInsertRoot (fuel : Nat) (st : TSt) (req : InsertReq) :
    Option (InsertReq × TSt) :=
  if st.root = 0 then
    let root0 := setHeader (List.replicate BTREE_MAX_NODE_SIZE 0) BTREE_LEAF n_keys
    let root1 := nodeAppendKV root0 0 0 [] []
    let root2 := nodeAppendKV root1 1 0 req.Key req.Val
    let a := pageNew st root2
    some ({ req with Added := true }, { a.2 with root := a.1 })
  else
    let g := pageGet st st.root
    match treeInsert fuel g.2 req g.1 with
    | none => none
    | some (node, req1, st2) =>
      if node = [] then some (req1, st2)
      else
        let s := nodeSplit3 node
        let st3 := pageDel st2 st.root
        if 1 < s.1 then
          let rootBuf := setHeader (List.replicate BTREE_MAX_NODE_SIZE 0) BTREE_NODE s.1
          let a := appendChilds st3 rootBuf 0 s.2
          let b := pageNew a.2 a.1
          some (req1, { b.2 with root := b.1 })
        else
          let b := pageNew st3 (s.2.getD 0 [])
          some (req1, { b.2 with root := b.1 })

/-- Outcome of a public mutation: normal result, an assertion panic (with
its message and the state at the moment of the panic), or out of fuel. -/
inductive Res (α : Type) where
  | done (a : α)
  | panicked (msg : String) (st : TSt)
  | nofuel
deriving Repr

/-- `BTree.InsertImpl` including its entry asserts (which are Go panics). -/
def btreeInsertImpl (fuel : Nat) (st : TSt) (req : InsertReq) :
    Res (InsertReq × TSt) :=
  if req.Key.length = 0 then .panicked "inserting empty key" st
  else if BTREE_MAX_KEY_SIZE < req.Key.length then
    .panicked "key size exceeds BTREE_MAX_KEY_SIZE" st
  else if BTREE_MAX_VAL_SIZE < req.Val.length then
    .panicked "val size exceeds BTREE_MAX_VAL_SIZE" st
  else
    match btreeInsertRoot fuel st req with
    | none => .nofuel
    | some r => .done r

/-- `BTree.Insert` (UPSERT mode wrapper used by `KV.Set`). -/
def btreeInsert (fuel : Nat) (st : TSt) (key val : Bytes) : Res (Bool × TSt) :=
  match btreeInsertImpl fuel st { Key := key, Val := val, Mode := MODE_UPSERT } with
  | .done (req, st1) => .done (req.Added, st1)
  | .panicked m s => .panicked m s
  | .nofuel => .nofuel

/-- `shouldMerge`'s right-sibling branch. -/
def shouldMergeRight (st : TSt) (node : Bytes) (idx : Nat) (updated : Bytes) :
    Int × Bytes × TSt :=
  if idx + 1 < nkeys node then
    let g := pageGet st (getPointer node (idx + 1))
    if u16 (nbytes g.1 + nbytes updated + 65532) ≤ BTREE_MAX_NODE_SIZE then (1, g.1, g.2)
    else (0, [], g.2)
  else (0, [], st)

/-- `shouldMerge`: decide whether the updated child merges with a sibling
(-1 left, +1 right, 0 none). `sibling.nbytes() + updated.nbytes() - HEADER`
is wrapping `uint16` arithmetic (`+ 65536 - 4` = `+ 65532`). -/
def shouldMerge (st : TSt) (node : Bytes) (idx : Nat) (updated : Bytes) :
    Int × Bytes × TSt :=
  if BTREE_MAX_NODE_SIZE / 4 < nbytes updated then (0, [], st)
  else if 0 < idx then
    let g := pageGet st (getPointer node (idx - 1))
    if u16 (nbytes g.1 + nbytes updated + 65532) ≤ BTREE_MAX_NODE_SIZE then (-1, g.1, g.2)
    else shouldMergeRight g.2 node idx updated
  else shouldMergeRight st node idx updated

/-- `treeDelete`: remove `key` from the subtree at `node`; `[]` for
"not found". The internal-node case is `nodeDelete`, inlined so the
recursion is structural on `fuel` (the standalone `nodeDelete` below has
the source shape and is definitionally this branch). -/
def treeDelete : Nat → TSt → Bytes → Bytes → Option (Bytes × TSt)
  | 0, _, _, _ => none
  | fuel + 1, st, node, key =>
    let idx := nodeLookupLE node key
    if btype node = BTREE_LEAF then
      if idx < nkeys node ∧ key = getKey node idx then
        some (leafDelete (List.replicate BTREE_MAX_NODE_SIZE 0) node idx, st)
      else some ([], st)
    else if btype node = BTREE_NODE then
      let cp := getPointer node idx
      let g := pageGet st cp
      match treeDelete fuel g.2 g.1 key with
      | none => none
      | some (updated, st2) =>
        if updated = [] then some ([], st2)
        else
          let st3 := pageDel st2 cp
          let newBuf : Bytes := List.replicate BTREE_MAX_NODE_SIZE 0
          let m := shouldMerge st3 node idx updated
          if m.1 < 0 then
            let merged := nodeMerge (List.replicate BTREE_MAX_NODE_SIZE 0) m.2.1 updated
            let st5 := pageDel m.2.2 (getPointer node (idx - 1))
            let a := pageNew st5 merged
            some (nodeReplace2Child newBuf node (idx - 1) a.1 (getKey merged 0), a.2)
          else if 0 < m.1 then
            let merged := nodeMerge (List.replicate BTREE_MAX_NODE_SIZE 0) updated m.2.1
            let st5 := pageDel m.2.2 (getPointer node (idx + 1))
            let a := pageNew st5 merged
            some (nodeReplace2Child newBuf node idx a.1 (getKey merged 0), a.2)
          else if nkeys updated = 0 then
            some (setHeader newBuf BTREE_NODE 0, m.2.2)
          else
            let r := nodeReplaceNchild m.2.2 newBuf node idx [updated]
            some (r.1, r.2)
    else none

/-- `nodeDelete`: recursive deletion through an internal node, with
sibling merging decided by `shouldMerge`. -/
def nodeDelete (fuel : Nat) (st : TSt) (node : Bytes) (idx : Nat) (key : Bytes) :
    Option (Bytes × TSt) :=
  let cp := getPointer node idx
  let g := pageGet st cp
  match treeDelete fuel g.2 g.1 key with
  | none => none
  | some (updated, st2) =>
    if updated = [] then some ([], st2)
    else
      let st3 := pageDel st2 cp
      let newBuf : Bytes := List.replicate BTREE_MAX_NODE_SIZE 0
      let m := shouldMerge st3 node idx updated
      if m.1 < 0 then
        let merged := nodeMerge (List.replicate BTREE_MAX_NODE_SIZE 0) m.2.1 updated
        let st5 := pageDel m.2.2 (getPointer node (idx - 1))
        let a := pageNew st5 merged
        some (nodeReplace2Child newBuf node (idx - 1) a.1 (getKey merged 0), a.2)
      else if 0 < m.1 then
        let merged := nodeMerge (List.replicate BTREE_MAX_NODE_SIZE 0) updated m.2.1
        let st5 := pageDel m.2.2 (getPointer node (idx + 1))
        let a := pageNew st5 merged
        some (nodeReplace2Child newBuf node idx a.1 (getKey merged 0), a.2)
      else if nkeys updated = 0 then
        some (setHeader newBuf BTREE_NODE 0, m.2.2)
      else
        let r := nodeReplaceNchild m.2.2 newBuf node idx [updated]
        some (r.1, r.2)

/-- `BTree.Delete` including its entry asserts (which are Go panics). -/
def btreeDelete (fuel : Nat) (st : TSt) (key : Bytes) : Res (Bool × TSt) :=
  if key.length = 0 then .panicked "deleting empty key" st
  else if BTREE_MAX_KEY_SIZE < key.length then .panicked "deleting overflowing key" st
  else if st.root = 0 then .done (false, st)
  else
    let g := pageGet st st.root
    match treeDelete fuel g.2 g.1 key with
    | none => .nofuel
    | some (node, st2) =>
      if node = [] then .done (false, st2)
      else
        let st3 := pageDel st2 st.root
        if btype node = BTREE_NODE ∧ nkeys node = 1 then
          .done (true, { st3 with root := getPointer node 0 })
        else
          let a := pageNew st3 node
          .done (true, { a.2 with root := a.1 })

/-- The pager state right after opening an empty database file:
`flushed = 1` (slot 0 reserved for the meta-page), everything else zero. -/
def emptySt : TSt :=
  { mapped := [], updates := [], flushed := 1, nAppend := 0,
    freeList := [], nFree := 0, root := 0, log := [] }

/-- The `Added` flag of an `InsertImpl` tree-level result. -/
def resultAdded (r : Option (InsertReq × TSt)) : Option Bool :=
  match r with
  | some (q, _) => some q.Added
  | none => none

/-- Literal bytes of a two-entry leaf page: the empty sentinel entry and
the pair `[10] ↦ [20]` (header, 2 zero child pointers, end offsets 4 and
10, then the packed KV region). -/
def leafPageLit : Bytes :=
  [2, 0, 2, 0] ++ List.replicate 16 0 ++ [4, 0, 10, 0] ++
  [0, 0, 0, 0] ++ [1, 0, 1, 0, 10, 20]

/-- A store holding the single committed leaf `leafPageLit` at pointer 1. -/
def oneKeySt : TSt :=
  { mapped := [(1, leafPageLit)], updates := [], flushed := 2, nAppend := 0,
    freeList := [], nFree := 0, root := 1, log := [] }

/-! ## Meta-page management (`pager.go`) -/

/-- `DB_SIG = "ELKDB"` as bytes. -/
def DB_SIG : Bytes := [69, 76, 75, 68, 66]

def DB_SIG_SIZE : Nat := 16
def METAPAGE_SIZE : Nat := 40

/-- The three meta fields the pager persists: `tree.root`, `page.flushed`,
`free.head`. -/
structure Meta where
  root : Nat
  flushed : Nat
  freeHead : Nat
deriving DecidableEq, Repr

/-- `storeMetapage`: 40 zeroed bytes, signature copied at offset 0, then
`root`, `flushed`, `free.head` little-endian at offsets 16, 24, 32. -/
def storeMetapage (m : Meta) : Bytes :=
  writeU64 (writeU64 (writeU64 (writeBytes (List.replicate METAPAGE_SIZE 0) 0 DB_SIG)
    DB_SIG_SIZE m.root) (DB_SIG_SIZE + POINTER_SIZE) m.flushed)
    (DB_SIG_SIZE + POINTER_SIZE + POINTER_SIZE) m.freeHead

/-- `loadMetapage`: an empty file reserves slot 0 (`flushed = 1`);
otherwise parse chunk 0, compare `[]byte(DB_SIG)` against
`data[:DB_SIG_SIZE]` with `bytes.Equal` (length-sensitive), then range
checks. -/
def loadMetapage (fileSize : Nat) (data : Bytes) : Except String Meta :=
  if fileSize = 0 then .ok ⟨0, 1, 0⟩
  else
    let root := readU64 data DB_SIG_SIZE
    let used := readU64 data (DB_SIG_SIZE + POINTER_SIZE)
    let free := readU64 data (DB_SIG_SIZE + POINTER_SIZE + POINTER_SIZE)
    if ¬ DB_SIG = readBytes data 0 DB_SIG_SIZE then .error "bad signature"
    else if ¬ (1 ≤ used ∧ used ≤ fileSize / BTREE_MAX_NODE_SIZE) ∨ ¬ root < used ∨
        ¬ free < used then .error "bad meta page"
    else .ok ⟨root, used, free⟩

/-! ## Free list (`freelist.go` constants; operations modelled from the spec)

Only the `FreeList` struct and its constants are in the sources; `Len`,
`Get` and `Update` are modelled from the spec, §4.3. A free-list page is
`(members, next)` where slot `size-1` (the last member) is the top of the
page; `total` is kept as a state field standing for the head page's
authoritative count. -/

def BNODE_FREE_LIST : Nat := 3
def FREE_LIST_HEADER : Nat := 4 + 8 + 8
def FREE_LIST_CAP : Nat := (BTREE_MAX_NODE_SIZE - FREE_LIST_HEADER) / 8

structure FLSt where
  pages : List (Nat × (List Nat × Nat))
  head : Nat
  total : Nat
  fresh : Nat
deriving Repr

/-- Modelled from the spec: `Len()` — 0 if head is 0, else the head's
`total`. -/
def flLen (st : FLSt) : Nat := if st.head = 0 then 0 else st.total

/-- The members of one page, top (last slot) first. -/
def flPageTop (ms : List Nat) : List Nat := ms.reverse

/-- Modelled from the spec: the LIFO view of the whole list — walk the
chain from `p`, each page's members top-first. `fuel` bounds the walk. -/
def flFlatten (pages : List (Nat × (List Nat × Nat))) : Nat → Nat → List Nat
  | 0, _ => []
  | _, 0 => []
  | fuel + 1, p =>
    match List.lookup p pages with
    | none => []
    | some (ms, nxt) => flPageTop ms ++ flFlatten pages fuel nxt

/-- The page pointers of the chain itself. -/
def flChainPtrs (pages : List (Nat × (List Nat × Nat))) : Nat → Nat → List Nat
  | 0, _ => []
  | _, 0 => []
  | fuel + 1, p =>
    match List.lookup p pages with
    | none => [p]
    | some (_, nxt) => p :: flChainPtrs pages fuel nxt

/-- Modelled from the spec: step 1 of `Update` — walk head pages while the
reuse pool cannot house `freed`; recycle each visited page's own pointer
into `freed`; consume `popn` members from the top; move some remaining
members into `reuse` (top first) and the rest into `freed`. -/
def flUpdateWalk (fuel : Nat) (st : FLSt) (popn : Nat) (freed reuse : List Nat) :
    FLSt × List Nat × List Nat :=
  match fuel with
  | 0 => (st, freed, reuse)
  | fuel + 1 =>
    if st.head = 0 then (st, freed, reuse)
    else if ¬ reuse.length * FREE_LIST_CAP < freed.length then (st, freed, reuse)
    else
      match List.lookup st.head st.pages with
      | none => (st, freed, reuse)
      | some (ms, nxt) =>
        let freed1 := freed ++ [st.head]
        if ms.length ≤ popn then
          flUpdateWalk fuel { st with head := nxt, total := st.total - ms.length }
            (popn - ms.length) freed1 reuse
        else
          let remain := ms.length - popn
          let avail := ms.take remain
          let needReuse := (freed1.length + FREE_LIST_CAP - 1) / FREE_LIST_CAP
          let t := min remain (needReuse - reuse.length)
          let reuse1 := reuse ++ (avail.drop (remain - t)).reverse
          let freed2 := freed1 ++ avail.take (remain - t)
          flUpdateWalk fuel { st with head := nxt, total := st.total - ms.length }
            0 freed2 reuse1

/-- Modelled from the spec: step 2 of `Update` (`freeListPush`) — take up
to `FREE_LIST_CAP` pointers from `freed` per round and build a new head
page with `next` = the current head, placed at a reused pointer when one
is available, else at a fresh appended pointer. -/
def flPush : Nat → FLSt → List Nat → List Nat → FLSt
  | 0, st, _, _ => st
  | fuel + 1, st, freed, reuse =>
    if freed = [] then st
    else
      let chunk := freed.take FREE_LIST_CAP
      let rest := freed.drop FREE_LIST_CAP
      match reuse with
      | r :: rtl =>
        flPush fuel { st with pages := (r, (chunk, st.head)) :: st.pages, head := r } rest rtl
      | [] =>
        flPush fuel { st with
                      pages := (st.fresh, (chunk, st.head)) :: st.pages
                      head := st.fresh
                      fresh := st.fresh + 1 } rest []

/-- Modelled from the spec: `Update(popn, freed)` — pop `popn` members
from the top and push `freed`; the new head's `total` is the running
total plus everything pushed. -/
def flUpdate (st : FLSt) (popn : Nat) (freed : List Nat) : FLSt :=
  if popn = 0 ∧ freed = [] then st
  else
    let w := flUpdateWalk (st.pages.length + 1) st popn freed []
    let st2 := flPush w.2.1.length w.1 w.2.1 w.2.2
    { st2 with total := w.1.total + w.2.1.length }

/-- The LIFO member view of an explicit chain (a list of pages, each a
page pointer with its members): each page's members, top (last slot)
first. -/
def chMembers (ch : List (Nat × List Nat)) : List Nat :=
  ch.flatMap (fun pc => pc.2.reverse)

/-- `ChainRep pages p ch`: starting at pointer `p`, the successive
`List.lookup`s into `pages` traverse exactly the explicit chain `ch` and
end at the null pointer. -/
def ChainRep (pages : List (Nat × (List Nat × Nat))) : Nat → List (Nat × List Nat) → Prop
  | p, [] => p = 0
  | p, (q, ms) :: rest =>
    p = q ∧ q ≠ 0 ∧ ∃ nxt, List.lookup q pages = some (ms, nxt) ∧ ChainRep pages nxt rest

/-! ## Record encoding (`table.go`) -/

def TYPE_ERROR : Nat := 0
def TYPE_BYTES : Nat := 1
def TYPE_INT64 : Nat := 2

/-- Table cell (`Value`): a type tag with the `int64` and `[]byte` fields. -/
structure Value where
  typ : Nat
  i64 : Int := 0
  str : Bytes := []
deriving DecidableEq, Repr

/-- One byte under `escapeString`: `0x00 → 0x01 0x01`, `0x01 → 0x01 0x02`. -/
def escapeByte (c : Nat) : Bytes := if c ≤ 1 then [1, c + 1] else [c]

/-- `escapeString` (the no-escapes shortcut returns the input unchanged,
which equals the escaped form). -/
def escapeString (s : Bytes) : Bytes :=
  if s.count 0 + s.count 1 = 0 then s else s.flatMap escapeByte

/-- `binary.BigEndian.PutUint64`. -/
def bigEndianU64 (u : Nat) : Bytes :=
  [u / 256 ^ 7 % 256, u / 256 ^ 6 % 256, u / 256 ^ 5 % 256, u / 256 ^ 4 % 256,
   u / 256 ^ 3 % 256, u / 256 ^ 2 % 256, u / 256 % 256, u % 256]

/-- `binary.BigEndian.PutUint32`. -/
def bigEndianU32 (u : Nat) : Bytes :=
  [u / 256 ^ 3 % 256, u / 256 ^ 2 % 256, u / 256 % 256, u % 256]

/-- `uint64(v) + (1 << 63)` for an `int64` value: two's-complement
reinterpretation followed by adding `2^63`, in wrapping `uint64`
arithmetic. For `v ∈ [-2^63, 2^63)` this is `v + 2^63`. -/
def int64FlipSign (v : Int) : Nat := ((v + 9223372036854775808).toNat) % 18446744073709551616

/-- `encodeValues`: order-preserving encoding — `int64` big-endian with
the sign bit flipped, strings escaped and null-terminated. The
`panic("unknown type")` branch encodes nothing (claims exclude it). -/
def encodeValues (vals : List Value) : Bytes :=
  vals.flatMap (fun v =>
    if v.typ = TYPE_INT64 then bigEndianU64 (int64FlipSign v.i64)
    else if v.typ = TYPE_BYTES then escapeString v.str ++ [0]
    else [])

/-- `encodeKey`: table prefix (big-endian u32) then the encoded values. -/
def encodeKey (pfx : Nat) (vals : List Value) : Bytes :=
  bigEndianU32 pfx ++ encodeValues vals

/-- Logical comparison of two well-typed cells: `int64` by signed value,
bytes lexicographically. -/
def valueCompare (a b : Value) : Ordering :=
  if a.typ = TYPE_INT64 then compare a.i64 b.i64
  else bytesCompare a.str b.str

/-- Well-typedness of a cell: a tag the encoder accepts, with `int64`
values inside the Go `int64` range. -/
def ValueWT (v : Value) : Prop :=
  (v.typ = TYPE_INT64 ∧ -(2 ^ 63) ≤ v.i64 ∧ v.i64 < 2 ^ 63) ∨ v.typ = TYPE_BYTES

/-- Logical comparison of two same-schema rows, column by column. -/
def valsCompare : List Value → List Value → Ordering
  | [], [] => .eq
  | [], _ :: _ => .lt
  | _ :: _, [] => .gt
  | a :: as0, b :: bs0 =>
    match valueCompare a b with
    | .eq => valsCompare as0 bs0
    | o => o

/-! ## Logical node entries

A `BNode` page logically holds a list of entries (child pointer, key,
value).  `offAt` is the cumulative size of the packed KV area, `encKVs`
its byte contents; `PartialRep node t n es` says a buffer whose header
announces type `t` and `n` keys correctly stores `es` as its first
`es.length ≤ n` entries, and `Rep` that it stores exactly its announced
entries.  `leftSize`/`rightSize` mirror the `left_bytes`/`right_bytes`
closures of `nodeSplit2` on the logical entry list. -/

structure Entry where
  ptr : Nat
  key : Bytes
  val : Bytes

/-- Default entry (for `getD`). -/
def dEntry : Entry := ⟨0, [], []⟩

/-- On-page byte size of one entry. -/
def esize (e : Entry) : Nat :=
  KEY_LENGTH_SIZE + VAL_LENGTH_SIZE + e.key.length + e.val.length

/-- Cumulative KV-area offset of entry `i`. -/
def offAt (es : List Entry) (i : Nat) : Nat := ((es.take i).map esize).sum

/-- Packed bytes of one entry: the two little-endian lengths, key, value. -/
def encEntry (e : Entry) : Bytes :=
  u16Bytes e.key.length ++ u16Bytes e.val.length ++ e.key ++ e.val

/-- Packed bytes of the whole KV area. -/
def encKVs (es : List Entry) : Bytes := es.flatMap encEntry

/-- The entry a reader decodes at index `i`. -/
def entryAt (node : Bytes) (i : Nat) : Entry :=
  ⟨getPointer node i, getKey node i, getVal node i⟩

/-- All entries a reader decodes from a node. -/
def entriesOf (node : Bytes) : List Entry :=
  (List.range (nkeys node)).map (entryAt node)

structure PartialRep (node : Bytes) (t n : Nat) (es : List Entry) : Prop where
  htlt : t < 65536
  hlen : es.length ≤ n
  hroom : HEADER + 10 * n + offAt es es.length ≤ node.length
  hsmall : node.length < 65536
  hty : btype node = t
  hnk : nkeys node = n
  hoff : ∀ i, i ≤ es.length → getOffset node i = offAt es i
  hptr : ∀ i, i < es.length → getPointer node i = (es.getD i dEntry).ptr
  hkv : readBytes node (HEADER + 10 * n) (offAt es es.length) = encKVs es
  hwfp : ∀ e ∈ es, e.ptr < 18446744073709551616

/-- A node stores exactly the entry list `es`. -/
def Rep (node : Bytes) (t : Nat) (es : List Entry) : Prop :=
  PartialRep node t es.length es

/-- The `left_bytes` closure of `nodeSplit2`, on the logical entries. -/
def leftSize (es : List Entry) (k : Nat) : Nat := HEADER + 10 * k + offAt es k

/-- The `right_bytes` closure of `nodeSplit2`, on the logical entries. -/
def rightSize (es : List Entry) (k : Nat) : Nat :=
  HEADER + 10 * (es.length - k) + (offAt es es.length - offAt es k)

/-- Executable check of the `Rep` fields, for concrete nodes. -/
def repCheck (node : Bytes) (t : Nat) (es : List Entry) : Bool :=
  decide (t < 65536) &&
  decide (HEADER + 10 * es.length + offAt es es.length ≤ node.length) &&
  decide (node.length < 65536) &&
  decide (btype node = t) &&
  decide (nkeys node = es.length) &&
  ((List.range (es.length + 1)).all fun i => decide (getOffset node i = offAt es i)) &&
  ((List.range es.length).all fun i =>
    decide (getPointer node i = (es.getD i dEntry).ptr)) &&
  decide (readBytes node (HEADER + 10 * es.length) (offAt es es.length) = encKVs es) &&
  (es.all fun e => decide (e.ptr < 18446744073709551616))

/-- The logical entries of `leafPageLit`. -/
def leafPageEs : List Entry := [⟨0, [], []⟩, ⟨0, [10], [20]⟩]

/-- A four-entry leaf with packed size `nbytes = 8191 ≤ 2·PAGE_SIZE`:
keys/values within the size limits, keys strictly increasing, entry byte
sizes 3996, 78, 4004, 69. -/
def bigEs : List Entry :=
  [⟨0, List.replicate 1000 97, List.replicate 2992 0⟩,
   ⟨0, [98, 98, 98, 98], List.replicate 70 0⟩,
   ⟨0, List.replicate 1000 99, List.replicate 3000 0⟩,
   ⟨0, [100], List.replicate 64 0⟩]

/-- The page image of `bigEs` (leaf header, 4 nil pointers, offsets
3996, 4074, 8078, 8147, then the packed KV area). -/
def bigNode : Bytes :=
  [2, 0, 4, 0] ++ List.replicate 32 0 ++
    (u16Bytes 3996 ++ u16Bytes 4074 ++ u16Bytes 8078 ++ u16Bytes 8147) ++
    encKVs bigEs

theorem length_writeBytes (b : Bytes) (loc : Nat) (src : Bytes) :
    (writeBytes b loc src).length = b.length := by
  simp only [writeBytes, List.length_append, List.length_take, List.length_drop]
  omega

theorem length_writeU16 (b : Bytes) (loc v : Nat) :
    (writeU16 b loc v).length = b.length := length_writeBytes ..

theorem length_writeU64 (b : Bytes) (loc v : Nat) :
    (writeU64 b loc v).length = b.length := length_writeBytes ..

/-- Pointwise description of `writeBytes`. -/
theorem getElem?_writeBytes (b : Bytes) (loc : Nat) (src : Bytes) (i : Nat) :
    (writeBytes b loc src)[i]? =
      if loc ≤ i ∧ i < b.length ∧ i - loc < src.length then src[i - loc]?
      else b[i]? := by
  rcases Nat.lt_or_ge i b.length with hib | hib
  case inr =>
    have h1 : (writeBytes b loc src)[i]? = none :=
      List.getElem?_eq_none (by rw [length_writeBytes]; omega)
    have h2 : b[i]? = none := List.getElem?_eq_none (by omega)
    rw [if_neg (by omega), h1, h2]
  unfold writeBytes
  rw [List.append_assoc]
  rcases Nat.lt_or_ge i loc with hi | hi
  · rw [if_neg (by omega)]
    rw [List.getElem?_append_left (by simp only [List.length_take]; omega),
      List.getElem?_take_of_lt hi]
  · have hlb : loc ≤ b.length := by omega
    rw [List.getElem?_append_right (by simp only [List.length_take]; omega)]
    simp only [List.length_take, Nat.min_eq_left hlb]
    rcases Nat.lt_or_ge (i - loc) src.length with his | his
    · rw [if_pos ⟨hi, hib, his⟩]
      rw [List.getElem?_append_left (by simp only [List.length_take]; omega),
        List.getElem?_take_of_lt (by omega)]
    · rw [if_neg (by omega)]
      have hsl : src.length ≤ b.length - loc := by omega
      rw [List.getElem?_append_right (by simp only [List.length_take]; omega)]
      simp only [List.length_take, Nat.min_eq_left hsl]
      rw [List.getElem?_drop]
      congr 1
      omega

/-- Pointwise description of `writeBytes`, `getD` form. -/
theorem getD_writeBytes (b : Bytes) (loc : Nat) (src : Bytes) (i : Nat) :
    (writeBytes b loc src).getD i 0 =
      if loc ≤ i ∧ i < b.length ∧ i - loc < src.length then src.getD (i - loc) 0
      else b.getD i 0 := by
  simp only [List.getD_eq_getElem?_getD, getElem?_writeBytes]
  split <;> rfl


/-! ## C7: meta-page round trip -/

/-- C7: the claim's round trip fails on the code. With a pager state
satisfying all the claim's hypotheses (`flushed = 2`, file of 2 pages,
`root = 1 < 2`, `free = 1 < 2`), loading the very bytes written by
`storeMetapage` yields the "bad signature" error: `loadMetapage` compares
the 5-byte signature constant with 16 bytes of data using the
length-sensitive `bytes.Equal`, which never succeeds. -/
theorem c7_signature_check_always_fails :
    loadMetapage (2 * BTREE_MAX_NODE_SIZE) (storeMetapage ⟨1, 2, 1⟩) =
      .error "bad signature" := by
  rfl

/-! ## C4: size-limit violations -/

/-- C4 (counterexample): `Set` with an empty key — i.e. `Insert` in UPSERT
mode reaching `InsertImpl` — does not return an error to the caller; it
trips the `assert(len(req.Key) != 0)` panic. -/
theorem c4_empty_key_panics_not_errors :
    btreeInsertImpl 1 emptySt { Key := [], Val := [], Mode := MODE_UPSERT } =
      .panicked "inserting empty key" emptySt := by
  rfl

/-- C4 (amended): a `Set`/`Update` (via `InsertImpl`) or `Delete` call
with an empty key, a key over `BTREE_MAX_KEY_SIZE`, or a value over
`BTREE_MAX_VAL_SIZE` fails the corresponding entry assert and panics with
a message identifying the violated limit, with the store state untouched
(the panic carries the unchanged state); no error value is returned. -/
theorem c4_size_violations_panic (fuel : Nat) (st : TSt) (req : InsertReq)
    (key : Bytes) :
    (req.Key.length = 0 ∨ BTREE_MAX_KEY_SIZE < req.Key.length ∨
        BTREE_MAX_VAL_SIZE < req.Val.length →
      ∃ msg, btreeInsertImpl fuel st req = .panicked msg st) ∧
    (key.length = 0 ∨ BTREE_MAX_KEY_SIZE < key.length →
      ∃ msg, btreeDelete fuel st key = .panicked msg st) := by
  constructor
  · intro h
    simp only [btreeInsertImpl]
    split_ifs with h1 h2 h3
    · exact ⟨_, rfl⟩
    · exact ⟨_, rfl⟩
    · exact ⟨_, rfl⟩
    · exact absurd h (by push_neg; omega)
  · intro h
    simp only [btreeDelete]
    split_ifs with h1 h2 h3
    · exact ⟨_, rfl⟩
    · exact ⟨_, rfl⟩
    · exact absurd h (by push_neg; omega)
    · exact absurd h (by push_neg; omega)

/-- C4 witness: the amended theorem applied to the empty key. -/
theorem c4_size_violations_panic_witness :
    (∃ msg, btreeInsertImpl 1 emptySt { Key := [], Val := [], Mode := 0 } =
      .panicked msg emptySt) ∧
    (∃ msg, btreeDelete 1 emptySt [] = .panicked msg emptySt) := by
  have h := c4_size_violations_panic 1 emptySt { Key := [], Val := [], Mode := 0 } []
  exact ⟨h.1 (Or.inl rfl), h.2 (Or.inl rfl)⟩

/-! ## Ordering lemmas for the record encoding (C8) -/

theorem bytesCompare_self (a : Bytes) : bytesCompare a a = .eq := by
  induction a with
  | nil => rfl
  | cons c tl ih => simp [bytesCompare, ih]

/-- Equal-length prefixes: comparison proceeds on the prefixes first. -/
theorem bytesCompare_append (p1 : Bytes) : ∀ (p2 r1 r2 : Bytes), p1.length = p2.length →
    bytesCompare (p1 ++ r1) (p2 ++ r2) =
      match bytesCompare p1 p2 with
      | .eq => bytesCompare r1 r2
      | o => o := by
  induction p1 with
  | nil =>
    intro p2 r1 r2 h
    cases p2 with
    | nil => simp [bytesCompare]
    | cons d t2 => simp at h
  | cons c t1 ih =>
    intro p2 r1 r2 h
    cases p2 with
    | nil => simp at h
    | cons d t2 =>
      simp only [List.cons_append, bytesCompare]
      rcases Nat.lt_trichotomy c d with hcd | hcd | hcd
      · rw [if_pos hcd, if_pos hcd]
      · subst hcd
        simp only [lt_irrefl, if_false]
        exact ih t2 r1 r2 (by simpa using h)
      · rw [if_neg (by omega), if_pos hcd, if_neg (by omega), if_pos hcd]

/-- A digit below the width is unaffected by reduction mod `256 ^ w`. -/
theorem digit_of_mod_pow (u w k : Nat) (hk : k < w) :
    u % 256 ^ w / 256 ^ k % 256 = u / 256 ^ k % 256 := by
  have h1 : u = u % 256 ^ w + 256 ^ k * (256 ^ (w - k) * (u / 256 ^ w)) := by
    have hs : 256 ^ k * 256 ^ (w - k) = 256 ^ w := by
      rw [← pow_add]; congr 1; omega
    calc u = 256 ^ w * (u / 256 ^ w) + u % 256 ^ w :=
          (Nat.div_add_mod u (256 ^ w)).symm
    _ = u % 256 ^ w + 256 ^ k * (256 ^ (w - k) * (u / 256 ^ w)) := by
          rw [← hs]; ring
  conv_rhs => rw [h1]
  rw [Nat.add_mul_div_left _ _ (by positivity)]
  have h2 : 256 ^ (w - k) * (u / 256 ^ w) = 256 * (256 ^ (w - k - 1) * (u / 256 ^ w)) := by
    rw [← mul_assoc]
    congr 1
    rw [← pow_succ']
    congr 1
    omega
  rw [h2, Nat.add_mul_mod_self_left]

/-- Big-endian digit lists of a fixed width compare like the numbers. -/
theorem bytesCompare_base256 : ∀ (w u v : Nat), u < 256 ^ w → v < 256 ^ w →
    bytesCompare ((List.range w).reverse.map fun k => u / 256 ^ k % 256)
      ((List.range w).reverse.map fun k => v / 256 ^ k % 256) = compare u v := by
  intro w
  induction w with
  | zero =>
    intro u v hu hv
    simp only [pow_zero, Nat.lt_one_iff] at hu hv
    subst hu; subst hv
    simp [bytesCompare, compare_eq_iff_eq.mpr rfl]
  | succ w ih =>
    intro u v hu hv
    have hpos : 0 < 256 ^ w := by positivity
    obtain ⟨qu, ru, hru, rfl⟩ : ∃ q r, r < 256 ^ w ∧ u = 256 ^ w * q + r :=
      ⟨u / 256 ^ w, u % 256 ^ w, Nat.mod_lt _ hpos, (Nat.div_add_mod u _).symm⟩
    obtain ⟨qv, rv, hrv, rfl⟩ : ∃ q r, r < 256 ^ w ∧ v = 256 ^ w * q + r :=
      ⟨v / 256 ^ w, v % 256 ^ w, Nat.mod_lt _ hpos, (Nat.div_add_mod v _).symm⟩
    have hq8 : ∀ q r : Nat, r < 256 ^ w → 256 ^ w * q + r < 256 ^ (w + 1) → q < 256 := by
      intro q r hr hlt
      by_contra hc
      push_neg at hc
      have h1 : 256 ^ w * 256 ≤ 256 ^ w * q := Nat.mul_le_mul_left _ hc
      rw [pow_succ] at hlt
      omega
    have hqu : qu < 256 := hq8 qu ru hru hu
    have hqv : qv < 256 := hq8 qv rv hrv hv
    have hhead : ∀ q r : Nat, q < 256 → r < 256 ^ w →
        (256 ^ w * q + r) / 256 ^ w % 256 = q := by
      intro q r hq hr
      rw [Nat.mul_add_div hpos, Nat.div_eq_of_lt hr, Nat.add_zero, Nat.mod_eq_of_lt hq]
    have htail : ∀ q r : Nat, r < 256 ^ w →
        (List.range w).reverse.map (fun k => (256 ^ w * q + r) / 256 ^ k % 256) =
          (List.range w).reverse.map (fun k => r / 256 ^ k % 256) := by
      intro q r hr
      refine List.map_congr_left fun k hkmem => ?_
      have hk : k < w := by
        simpa [List.mem_reverse, List.mem_range] using hkmem
      have := digit_of_mod_pow (256 ^ w * q + r) w k hk
      rw [Nat.mul_add_mod, Nat.mod_eq_of_lt hr] at this
      exact this.symm
    rw [List.range_succ, List.reverse_append]
    simp only [List.reverse_singleton, List.singleton_append, List.map_cons]
    rw [hhead qu ru hqu hru, hhead qv rv hqv hrv, htail qu ru hru, htail qv rv hrv]
    simp only [bytesCompare]
    rcases Nat.lt_trichotomy qu qv with hd | hd | hd
    · rw [if_pos hd]
      have h1 : 256 ^ w * qu + 256 ^ w ≤ 256 ^ w * qv := by
        have h2 : 256 ^ w * (qu + 1) ≤ 256 ^ w * qv := Nat.mul_le_mul_left _ hd
        rw [Nat.mul_succ] at h2
        exact h2
      exact (compare_lt_iff_lt.mpr (by omega)).symm
    · subst hd
      simp only [lt_irrefl, if_false]
      rw [ih ru rv hru hrv]
      rcases Nat.lt_trichotomy ru rv with hm | hm | hm
      · rw [compare_lt_iff_lt.mpr hm, compare_lt_iff_lt.mpr (by omega)]
      · rw [compare_eq_iff_eq.mpr hm, compare_eq_iff_eq.mpr (by omega)]
      · rw [compare_gt_iff_gt.mpr hm, compare_gt_iff_gt.mpr (by omega)]
    · rw [if_neg (by omega), if_pos hd]
      have h1 : 256 ^ w * qv + 256 ^ w ≤ 256 ^ w * qu := by
        have h2 : 256 ^ w * (qv + 1) ≤ 256 ^ w * qu := Nat.mul_le_mul_left _ hd
        rw [Nat.mul_succ] at h2
        exact h2
      exact (compare_gt_iff_gt.mpr (by omega)).symm

/-- `bigEndianU64` written as a digit list. -/
theorem bigEndianU64_eq_digits (u : Nat) :
    bigEndianU64 u = (List.range 8).reverse.map fun k => u / 256 ^ k % 256 := by
  have h8 : List.range 8 = [0, 1, 2, 3, 4, 5, 6, 7] := by decide
  simp [bigEndianU64, h8]

/-- Big-endian `uint64` encodings compare like the numbers. -/
theorem bigEndianU64_compare (u v : Nat) (hu : u < 2 ^ 64) (hv : v < 2 ^ 64) :
    bytesCompare (bigEndianU64 u) (bigEndianU64 v) = compare u v := by
  rw [bigEndianU64_eq_digits, bigEndianU64_eq_digits]
  have h : (256 : Nat) ^ 8 = 2 ^ 64 := by norm_num
  exact bytesCompare_base256 8 u v (by omega) (by omega)

/-- One unfolding step of `bytesCompare`. -/
theorem bytesCompare_cons (c d : Nat) (xs ys : Bytes) :
    bytesCompare (c :: xs) (d :: ys) =
      if c < d then .lt else if d < c then .gt else bytesCompare xs ys := rfl

/-- With no 0x00/0x01 bytes, escaping is the identity. -/
theorem flatMap_escapeByte_id (s : Bytes) (h0 : 0 ∉ s) (h1 : 1 ∉ s) :
    s.flatMap escapeByte = s := by
  induction s with
  | nil => rfl
  | cons c tl ih =>
    simp only [List.mem_cons, not_or] at h0 h1
    rw [List.flatMap_cons, ih h0.2 h1.2, escapeByte, if_neg (by omega)]
    rfl

/-- `escapeString` always equals the escaped form (the shortcut branch
returns the input, which is already escaped). -/
theorem escapeString_eq_flatMap (s : Bytes) : escapeString s = s.flatMap escapeByte := by
  unfold escapeString
  split
  case isTrue h =>
    exact (flatMap_escapeByte_id s (List.count_eq_zero.mp (by omega))
      (List.count_eq_zero.mp (by omega))).symm
  case isFalse h => rfl

/-- Escaped, null-terminated streams compare like the raw strings, with
any continuations. -/
theorem escaped_compare (a : Bytes) : ∀ (b x y : Bytes),
    bytesCompare (a.flatMap escapeByte ++ 0 :: x) (b.flatMap escapeByte ++ 0 :: y) =
      match bytesCompare a b with
      | .eq => bytesCompare x y
      | o => o := by
  induction a with
  | nil =>
    intro b x y
    cases b with
    | nil => simp [bytesCompare]
    | cons d bs =>
      rw [List.flatMap_nil, List.flatMap_cons, List.nil_append, List.append_assoc]
      by_cases hd : d ≤ 1
      · rw [escapeByte, if_pos hd]
        simp only [List.cons_append]
        rw [bytesCompare_cons, if_pos (by omega)]
        rfl
      · rw [escapeByte, if_neg hd]
        simp only [List.cons_append, List.nil_append]
        rw [bytesCompare_cons, if_pos (by omega)]
        rfl
  | cons c as ih =>
    intro b x y
    cases b with
    | nil =>
      rw [List.flatMap_nil, List.flatMap_cons, List.nil_append, List.append_assoc]
      by_cases hc : c ≤ 1
      · rw [escapeByte, if_pos hc]
        simp only [List.cons_append]
        rw [bytesCompare_cons, if_neg (by omega), if_pos (by omega)]
        rfl
      · rw [escapeByte, if_neg hc]
        simp only [List.cons_append, List.nil_append]
        rw [bytesCompare_cons, if_neg (by omega), if_pos (by omega)]
        rfl
    | cons d bs =>
      rw [List.flatMap_cons, List.flatMap_cons, List.append_assoc, List.append_assoc]
      by_cases hc : c ≤ 1 <;> by_cases hd : d ≤ 1
      · rw [escapeByte, if_pos hc, escapeByte, if_pos hd]
        simp only [List.cons_append, List.nil_append]
        rw [bytesCompare_cons, if_neg (lt_irrefl 1), if_neg (lt_irrefl 1),
          bytesCompare_cons, bytesCompare_cons]
        rcases Nat.lt_trichotomy c d with hcd | hcd | hcd
        · rw [if_pos (by omega), if_pos hcd]
        · subst hcd
          simp only [lt_irrefl, if_false]
          exact ih bs x y
        · rw [if_neg (by omega), if_pos (by omega), if_neg (by omega), if_pos hcd]
      · rw [escapeByte, if_pos hc, escapeByte, if_neg hd]
        simp only [List.cons_append, List.nil_append]
        rw [bytesCompare_cons, if_pos (by omega), bytesCompare_cons, if_pos (by omega)]
      · rw [escapeByte, if_neg hc, escapeByte, if_pos hd]
        simp only [List.cons_append, List.nil_append]
        rw [bytesCompare_cons, if_neg (by omega), if_pos (by omega),
          bytesCompare_cons, if_neg (by omega), if_pos (by omega)]
      · rw [escapeByte, if_neg hc, escapeByte, if_neg hd]
        simp only [List.cons_append, List.nil_append]
        rw [bytesCompare_cons, bytesCompare_cons]
        rcases Nat.lt_trichotomy c d with hcd | hcd | hcd
        · rw [if_pos hcd, if_pos hcd]
        · subst hcd
          simp only [lt_irrefl, if_false]
          exact ih bs x y
        · rw [if_neg (by omega), if_pos hcd, if_neg (by omega), if_pos hcd]

theorem encodeValues_cons (v : Value) (vs : List Value) :
    encodeValues (v :: vs) =
      (if v.typ = TYPE_INT64 then bigEndianU64 (int64FlipSign v.i64)
       else if v.typ = TYPE_BYTES then escapeString v.str ++ [0]
       else []) ++ encodeValues vs := by
  simp [encodeValues]

theorem int64FlipSign_lt_iff (v w : Int) (hv1 : -(2 ^ 63) ≤ v) (hv2 : v < 2 ^ 63)
    (hw1 : -(2 ^ 63) ≤ w) (hw2 : w < 2 ^ 63) :
    int64FlipSign v < int64FlipSign w ↔ v < w := by
  have hp : (2 : Int) ^ 63 = 9223372036854775808 := by norm_num
  rw [hp] at hv1 hv2 hw1 hw2
  unfold int64FlipSign
  omega

theorem int64FlipSign_toNat (v : Int) (hv1 : -(2 ^ 63) ≤ v) (hv2 : v < 2 ^ 63) :
    int64FlipSign v = (v + 2 ^ 63).toNat := by
  have hp : (2 : Int) ^ 63 = 9223372036854775808 := by norm_num
  rw [hp] at hv1 hv2 ⊢
  unfold int64FlipSign
  omega

theorem int64FlipSign_lt_u64 (v : Int) : int64FlipSign v < 2 ^ 64 := by
  unfold int64FlipSign
  omega

/-- Flipped-sign big-endian `int64` encodings compare like the signed
values. -/
theorem compare_int64_encoded (a b : Int) (ha1 : -(2 ^ 63) ≤ a) (ha2 : a < 2 ^ 63)
    (hb1 : -(2 ^ 63) ≤ b) (hb2 : b < 2 ^ 63) :
    bytesCompare (bigEndianU64 (int64FlipSign a)) (bigEndianU64 (int64FlipSign b)) =
      compare a b := by
  rw [bigEndianU64_compare _ _ (int64FlipSign_lt_u64 a) (int64FlipSign_lt_u64 b)]
  rcases lt_trichotomy a b with h | h | h
  · rw [compare_lt_iff_lt.mpr h,
      compare_lt_iff_lt.mpr ((int64FlipSign_lt_iff a b ha1 ha2 hb1 hb2).mpr h)]
  · subst h
    rw [compare_eq_iff_eq.mpr rfl, compare_eq_iff_eq.mpr rfl]
  · rw [compare_gt_iff_gt.mpr h,
      compare_gt_iff_gt.mpr ((int64FlipSign_lt_iff b a hb1 hb2 ha1 ha2).mpr h)]

/-- Same-schema encoded rows with continuations compare like the rows. -/
theorem encodeValues_compare (vs1 : List Value) : ∀ (vs2 : List Value) (r1 r2 : Bytes),
    vs1.map Value.typ = vs2.map Value.typ →
    (∀ u ∈ vs1, ValueWT u) → (∀ u ∈ vs2, ValueWT u) →
    bytesCompare (encodeValues vs1 ++ r1) (encodeValues vs2 ++ r2) =
      match valsCompare vs1 vs2 with
      | .eq => bytesCompare r1 r2
      | o => o := by
  induction vs1 with
  | nil =>
    intro vs2 r1 r2 hschema _ _
    cases vs2 with
    | nil => simp [encodeValues, valsCompare]
    | cons b bs => simp at hschema
  | cons a as ih =>
    intro vs2 r1 r2 hschema hwt1 hwt2
    cases vs2 with
    | nil => simp at hschema
    | cons b bs =>
      simp only [List.map_cons, List.cons.injEq] at hschema
      obtain ⟨hty, htys⟩ := hschema
      have hwa := hwt1 a (List.mem_cons_self a as)
      have hwb := hwt2 b (List.mem_cons_self b bs)
      have hwt1t : ∀ u ∈ as, ValueWT u := fun u hu => hwt1 u (List.mem_cons_of_mem a hu)
      have hwt2t : ∀ u ∈ bs, ValueWT u := fun u hu => hwt2 u (List.mem_cons_of_mem b hu)
      rw [encodeValues_cons, encodeValues_cons, List.append_assoc, List.append_assoc]
      rcases hwa with ⟨hai, ha1, ha2⟩ | hab
      · have hbi : b.typ = TYPE_INT64 := by rw [← hty]; exact hai
        have hbrange : -(2 ^ 63) ≤ b.i64 ∧ b.i64 < 2 ^ 63 := by
          rcases hwb with ⟨_, h1, h2⟩ | hbb
          · exact ⟨h1, h2⟩
          · rw [hbi] at hbb; simp [TYPE_INT64, TYPE_BYTES] at hbb
        rw [if_pos hai, if_pos hbi]
        rw [bytesCompare_append _ _ _ _ (by simp [bigEndianU64])]
        rw [compare_int64_encoded a.i64 b.i64 ha1 ha2 hbrange.1 hbrange.2]
        have hvc : valueCompare a b = compare a.i64 b.i64 := by
          rw [valueCompare, if_pos hai]
        show _ = match valsCompare (a :: as) (b :: bs) with
          | Ordering.eq => bytesCompare r1 r2
          | o => o
        rw [show valsCompare (a :: as) (b :: bs) =
            match valueCompare a b with
            | Ordering.eq => valsCompare as bs
            | o => o from rfl, hvc]
        cases hcmp : compare a.i64 b.i64 with
        | lt => rfl
        | gt => rfl
        | eq => exact ih bs r1 r2 htys hwt1t hwt2t
      · have hbb : b.typ = TYPE_BYTES := by rw [← hty]; exact hab
        have hai : ¬ a.typ = TYPE_INT64 := by
          rw [hab]; simp [TYPE_INT64, TYPE_BYTES]
        have hbi : ¬ b.typ = TYPE_INT64 := by
          rw [hbb]; simp [TYPE_INT64, TYPE_BYTES]
        rw [if_neg hai, if_pos hab, if_neg hbi, if_pos hbb]
        rw [escapeString_eq_flatMap, escapeString_eq_flatMap,
          List.append_assoc, List.append_assoc, List.singleton_append,
          List.singleton_append]
        rw [escaped_compare a.str b.str _ _]
        have hvc : valueCompare a b = bytesCompare a.str b.str := by
          rw [valueCompare, if_neg hai]
        show _ = match valsCompare (a :: as) (b :: bs) with
          | Ordering.eq => bytesCompare r1 r2
          | o => o
        rw [show valsCompare (a :: as) (b :: bs) =
            match valueCompare a b with
            | Ordering.eq => valsCompare as bs
            | o => o from rfl, hvc]
        cases hcmp : bytesCompare a.str b.str with
        | lt => rfl
        | gt => rfl
        | eq => exact ih bs r1 r2 htys hwt1t hwt2t

/-- C8: for same-schema, well-typed rows, the primary keys produced by
`encodeKey` compare lexicographically exactly as the logical rows do;
and the signed-integer encoding is the big-endian bytes of
`uint64(v) + 2^63`, a function monotone in `v`. -/
theorem c8_encodeKey_order_preserving (pfx : Nat) (vs1 vs2 : List Value) (v w : Int)
    (hschema : vs1.map Value.typ = vs2.map Value.typ)
    (h1 : ∀ u ∈ vs1, ValueWT u) (h2 : ∀ u ∈ vs2, ValueWT u)
    (hv1 : -(2 ^ 63) ≤ v) (hv2 : v < 2 ^ 63) (hw1 : -(2 ^ 63) ≤ w) (hw2 : w < 2 ^ 63) :
    bytesCompare (encodeKey pfx vs1) (encodeKey pfx vs2) = valsCompare vs1 vs2 ∧
    int64FlipSign v = (v + 2 ^ 63).toNat ∧
    (int64FlipSign v < int64FlipSign w ↔ v < w) := by
  refine ⟨?_, int64FlipSign_toNat v hv1 hv2, int64FlipSign_lt_iff v w hv1 hv2 hw1 hw2⟩
  unfold encodeKey
  rw [bytesCompare_append _ _ _ _ rfl, bytesCompare_self]
  rw [← List.append_nil (encodeValues vs1), ← List.append_nil (encodeValues vs2)]
  rw [encodeValues_compare vs1 vs2 [] [] hschema h1 h2]
  cases valsCompare vs1 vs2 <;> rfl

/-- C8 witness: the theorem applied to the one-column `int64` schema at
`-5` and `7`. -/
theorem c8_encodeKey_order_preserving_witness :
    bytesCompare (encodeKey 3 [{ typ := TYPE_INT64, i64 := -5 }])
        (encodeKey 3 [{ typ := TYPE_INT64, i64 := 7 }]) =
      valsCompare [{ typ := TYPE_INT64, i64 := -5 }] [{ typ := TYPE_INT64, i64 := 7 }] ∧
    int64FlipSign (-5) = ((-5 : Int) + 2 ^ 63).toNat ∧
    (int64FlipSign (-5) < int64FlipSign 7 ↔ (-5 : Int) < 7) := by
  exact c8_encodeKey_order_preserving 3 _ _ (-5) 7 rfl
    (by intro u hu; simp only [List.mem_singleton] at hu; subst hu
        exact Or.inl ⟨rfl, by norm_num, by norm_num⟩)
    (by intro u hu; simp only [List.mem_singleton] at hu; subst hu
        exact Or.inl ⟨rfl, by norm_num, by norm_num⟩)
    (by norm_num) (by norm_num) (by norm_num) (by norm_num)

/-! ## Read-only descent lemmas (C9, C3) -/

theorem pageGet_snd (st : TSt) (p : Nat) :
    (pageGet st p).2 = { st with log := st.log ++ [Ev.eget p] } := rfl

/-- A `Get` only appends `get` events to the log. -/
theorem nodeGetKey_frame (fuel : Nat) : ∀ (st : TSt) (node key : Bytes) (r : Option Bytes)
    (st' : TSt), nodeGetKey fuel st node key = some (r, st') →
    ∃ gs, st' = { st with log := st.log ++ gs } ∧ ∀ e ∈ gs, ∃ p, e = Ev.eget p := by
  induction fuel with
  | zero => intro st node key r st' h; simp [nodeGetKey] at h
  | succ fuel ih =>
    intro st node key r st' h
    rw [nodeGetKey] at h
    split_ifs at h with h1 h2 h3
    · simp only [Option.some.injEq, Prod.mk.injEq] at h
      exact ⟨[], by simp [← h.2], by simp⟩
    · simp only [Option.some.injEq, Prod.mk.injEq] at h
      exact ⟨[], by simp [← h.2], by simp⟩
    · dsimp only at h
      obtain ⟨gs, hst, hgs⟩ := ih _ _ _ _ _ h
      refine ⟨Ev.eget (getPointer node (nodeLookupLE node key)) :: gs, ?_, ?_⟩
      · rw [hst, pageGet_snd]
        simp [List.append_assoc]
      · intro e he
        rcases List.mem_cons.mp he with rfl | he
        · exact ⟨_, rfl⟩
        · exact hgs e he

/-- A key missed by the `Get` descent is also missed by `treeDelete`:
same path, no mutation, identical final state. -/
theorem treeDelete_of_absent (fuel : Nat) : ∀ (st : TSt) (node key : Bytes) (st' : TSt),
    nodeGetKey fuel st node key = some (none, st') →
    treeDelete fuel st node key = some ([], st') := by
  induction fuel with
  | zero => intro st node key st' h; simp [nodeGetKey] at h
  | succ fuel ih =>
    intro st node key st' h
    rw [nodeGetKey] at h
    rw [treeDelete]
    split_ifs at h with h1 h2 h3
    · simp at h
    · simp only [Option.some.injEq, Prod.mk.injEq] at h
      rw [if_pos h1, if_neg (by intro hc; exact h2 hc.2)]
      rw [h.2]
    · dsimp only at h
      have hd := ih _ _ _ _ h
      rw [if_neg h1, if_pos h3]
      dsimp only
      rw [hd]
      simp

/-- C9: deleting a valid (non-empty, within size limit) key that is absent
from the tree returns `false`, invokes no `new`/`del` callback (the log
grows only by `get` events and the pending-update map, counters and root
are untouched). -/
theorem c9_delete_absent_noop (fuel : Nat) (st : TSt) (key : Bytes) (st' : TSt)
    (hk1 : key ≠ []) (hk2 : key.length ≤ BTREE_MAX_KEY_SIZE)
    (habsent : btreeGet fuel st key = some (none, st')) :
    btreeDelete fuel st key = .done (false, st') ∧
    st'.root = st.root ∧ st'.updates = st.updates ∧ st'.mapped = st.mapped ∧
    st'.nAppend = st.nAppend ∧ st'.nFree = st.nFree ∧
    ∃ gs, st'.log = st.log ++ gs ∧ ∀ e ∈ gs, ∃ p, e = Ev.eget p := by
  unfold btreeGet at habsent
  unfold btreeDelete
  rw [if_neg (by simp [hk1]), if_neg (by omega)]
  by_cases hr : st.root = 0
  · rw [if_pos hr] at habsent ⊢
    simp only [Option.some.injEq, Prod.mk.injEq] at habsent
    rw [← habsent.2]
    exact ⟨rfl, rfl, rfl, rfl, rfl, rfl, [], by simp, by simp⟩
  · rw [if_neg hr] at habsent ⊢
    dsimp only at habsent ⊢
    have hd := treeDelete_of_absent fuel _ _ key _ habsent
    rw [hd]
    obtain ⟨gs, hst, hgs⟩ := nodeGetKey_frame fuel _ _ _ _ _ habsent
    rw [pageGet_snd] at hst
    refine ⟨by simp, ?_, ?_, ?_, ?_, ?_,
      Ev.eget st.root :: gs, ?_, ?_⟩
    · rw [hst]
    · rw [hst]
    · rw [hst]
    · rw [hst]
    · rw [hst]
    · rw [hst]; simp
    · intro e he
      rcases List.mem_cons.mp he with rfl | he
      · exact ⟨_, rfl⟩
      · exact hgs e he

/-- C9 witness: the theorem applied to the freshly opened empty store. -/
theorem c9_delete_absent_noop_witness :
    btreeDelete 1 emptySt [107] = .done (false, emptySt) ∧
    emptySt.root = emptySt.root ∧ emptySt.updates = emptySt.updates ∧
    emptySt.mapped = emptySt.mapped ∧ emptySt.nAppend = emptySt.nAppend ∧
    emptySt.nFree = emptySt.nFree ∧
    ∃ gs, emptySt.log = emptySt.log ++ gs ∧ ∀ e ∈ gs, ∃ p, e = Ev.eget p :=
  c9_delete_absent_noop 1 emptySt [107] emptySt (by decide) (by decide) rfl

/-! ## Length preservation of node builders -/

theorem length_setHeader (b : Bytes) (t n : Nat) :
    (setHeader b t n).length = b.length := by
  simp [setHeader, writeU16, length_writeBytes]

theorem length_setPointer (b : Bytes) (idx v : Nat) :
    (setPointer b idx v).length = b.length := by
  simp [setPointer, writeU64, length_writeBytes]

theorem length_setOffset (b : Bytes) (idx off : Nat) :
    (setOffset b idx off).length = b.length := by
  simp [setOffset, writeU16, length_writeBytes]

theorem length_nodeAppendKV (b : Bytes) (idx ptr : Nat) (key val : Bytes) :
    (nodeAppendKV b idx ptr key val).length = b.length := by
  simp [nodeAppendKV, writeU16, length_setOffset, length_writeBytes, length_setPointer]

theorem length_appendRangePtrs (newNode oldNode : Bytes) (dstNew srcOld : Nat) :
    ∀ n, (appendRangePtrs newNode oldNode dstNew srcOld n).length = newNode.length := by
  intro n
  induction n with
  | zero => rfl
  | succ n ih => rw [appendRangePtrs, length_setPointer, ih]

theorem length_appendRangeOffsets (newNode oldNode : Bytes)
    (dstNew srcOld dstBegin srcBegin : Nat) :
    ∀ n, (appendRangeOffsets newNode oldNode dstNew srcOld dstBegin srcBegin n).length =
      newNode.length := by
  intro n
  induction n with
  | zero => rfl
  | succ n ih => rw [appendRangeOffsets, length_setOffset, ih]

theorem length_nodeAppendRange (newNode oldNode : Bytes) (dstNew srcOld n : Nat) :
    (nodeAppendRange newNode oldNode dstNew srcOld n).length = newNode.length := by
  rw [nodeAppendRange]
  split_ifs
  · rfl
  · rw [length_writeBytes, length_appendRangeOffsets, length_appendRangePtrs]

theorem length_leafInsert (newNode oldNode : Bytes) (idx : Nat) (key val : Bytes) :
    (leafInsert newNode oldNode idx key val).length = newNode.length := by
  rw [leafInsert, length_nodeAppendRange, length_nodeAppendKV, length_nodeAppendRange,
    length_setHeader]

theorem length_leafUpdate (newNode oldNode : Bytes) (idx : Nat) (key val : Bytes) :
    (leafUpdate newNode oldNode idx key val).length = newNode.length := by
  rw [leafUpdate, length_nodeAppendRange, length_nodeAppendKV, length_nodeAppendRange,
    length_setHeader]

theorem length_leafDelete (newNode oldNode : Bytes) (idx : Nat) :
    (leafDelete newNode oldNode idx).length = newNode.length := by
  rw [leafDelete, length_nodeAppendRange, length_nodeAppendRange, length_setHeader]

theorem length_nodeMerge (newNode l r : Bytes) :
    (nodeMerge newNode l r).length = newNode.length := by
  rw [nodeMerge, length_nodeAppendRange, length_nodeAppendRange, length_setHeader]

theorem length_nodeReplace2Child (newNode oldNode : Bytes) (idx ptr : Nat) (key : Bytes) :
    (nodeReplace2Child newNode oldNode idx ptr key).length = newNode.length := by
  rw [nodeReplace2Child, length_nodeAppendRange, length_nodeAppendKV,
    length_nodeAppendRange, length_setHeader]

theorem length_appendChilds (childs : List Bytes) :
    ∀ (st : TSt) (buf : Bytes) (pos : Nat),
      (appendChilds st buf pos childs).1.length = buf.length := by
  induction childs with
  | nil => intro st buf pos; rfl
  | cons c rest ih =>
    intro st buf pos
    rw [appendChilds, ih, length_nodeAppendKV]

theorem length_nodeReplaceNchild (st : TSt) (newNode oldNode : Bytes) (idx : Nat)
    (childs : List Bytes) :
    (nodeReplaceNchild st newNode oldNode idx childs).1.length = newNode.length := by
  rw [nodeReplaceNchild]
  split_ifs
  · rw [length_setPointer, length_writeBytes]
  · rw [length_nodeAppendRange, length_appendChilds, length_nodeAppendRange,
      length_setHeader]

/-! ## Log monotonicity -/

theorem pageNew_log (st : TSt) (node : Bytes) :
    (pageNew st node).2.log = st.log ++ [Ev.enew (pageNew st node).1] := by
  rw [pageNew]
  split_ifs <;> rfl

theorem pageNew_fields (st : TSt) (node : Bytes) :
    (pageNew st node).2.mapped = st.mapped ∧ (pageNew st node).2.root = st.root := by
  rw [pageNew]
  split_ifs <;> exact ⟨rfl, rfl⟩

theorem appendChilds_log (childs : List Bytes) :
    ∀ (st : TSt) (buf : Bytes) (pos : Nat),
      ∃ gs, (appendChilds st buf pos childs).2.log = st.log ++ gs := by
  induction childs with
  | nil => intro st buf pos; exact ⟨[], by simp [appendChilds]⟩
  | cons c rest ih =>
    intro st buf pos
    rw [appendChilds]
    obtain ⟨gs, hgs⟩ := ih (pageNew st c).2 (nodeAppendKV buf pos (pageNew st c).1 (getKey c 0) []) (pos + 1)
    exact ⟨[Ev.enew (pageNew st c).1] ++ gs, by rw [hgs, pageNew_log]; simp⟩

theorem nodeReplaceNchild_log (st : TSt) (newNode oldNode : Bytes) (idx : Nat)
    (childs : List Bytes) :
    ∃ gs, (nodeReplaceNchild st newNode oldNode idx childs).2.log = st.log ++ gs := by
  rw [nodeReplaceNchild]
  split_ifs
  · exact ⟨[Ev.enew (pageNew st (childs.getD 0 [])).1], pageNew_log st _⟩
  · exact appendChilds_log childs st _ idx

theorem treeInsert_log (fuel : Nat) : ∀ (st : TSt) (req : InsertReq) (node nd : Bytes)
    (req1 : InsertReq) (st2 : TSt), treeInsert fuel st req node = some (nd, req1, st2) →
    ∃ gs, st2.log = st.log ++ gs := by
  induction fuel with
  | zero => intro st req node nd req1 st2 h; simp [treeInsert] at h
  | succ fuel ih =>
    intro st req node nd req1 st2 h
    rw [treeInsert] at h
    split_ifs at h with h1 h2 h3 h4 h5
    all_goals try
      (simp only [Option.some.injEq, Prod.mk.injEq] at h
       exact ⟨[], by rw [← h.2.2]; simp⟩)
    · -- internal node (inlined nodeInsert)
      dsimp only at h
      cases hrec : treeInsert fuel (pageGet st (getPointer node (nodeLookupLE node req.Key))).2
          req (pageGet st (getPointer node (nodeLookupLE node req.Key))).1 with
      | none => rw [hrec] at h; simp at h
      | some v =>
        obtain ⟨nd1, req2, stA⟩ := v
        rw [hrec] at h
        obtain ⟨gs1, hgs1⟩ := ih _ _ _ _ _ _ hrec
        rw [pageGet_snd] at hgs1
        dsimp only at h
        split_ifs at h with h6
        · simp only [Option.some.injEq, Prod.mk.injEq] at h
          exact ⟨[Ev.eget (getPointer node (nodeLookupLE node req.Key))] ++ gs1,
            by rw [← h.2.2, hgs1]; simp⟩
        · simp only [Option.some.injEq, Prod.mk.injEq] at h
          obtain ⟨gs2, hgs2⟩ := nodeReplaceNchild_log (pageDel stA
            (getPointer node (nodeLookupLE node req.Key)))
            (List.replicate (2 * BTREE_MAX_NODE_SIZE) 0) node (nodeLookupLE node req.Key)
            (nodeSplit3 nd1).2
          refine ⟨[Ev.eget (getPointer node (nodeLookupLE node req.Key))] ++ gs1 ++
            [Ev.edel (getPointer node (nodeLookupLE node req.Key))] ++ gs2, ?_⟩
          rw [← h.2.2, hgs2]
          show (pageDel stA _).log ++ gs2 = _
          rw [pageDel]
          dsimp only
          rw [hgs1]
          simp

/-! ## Insert no-op and mutation lemmas (C3) -/

theorem ne_nil_of_length_eq (b : Bytes) (n : Nat) (h : b.length = n) (hn : n ≠ 0) :
    b ≠ [] := by
  intro hc
  subst hc
  simp at h
  omega

/-- INSERT_ONLY on a present key, or an upsert of the byte-identical
value, is a pure no-op with the `Get` descent's final state. -/
theorem treeInsert_present_noop (fuel : Nat) : ∀ (st : TSt) (req : InsertReq)
    (node v : Bytes) (st' : TSt),
    nodeGetKey fuel st node req.Key = some (some v, st') →
    req.Mode = MODE_INSERT_ONLY ∨ req.Val = v →
    treeInsert fuel st req node = some ([], req, st') := by
  induction fuel with
  | zero => intro st req node v st' h _; simp [nodeGetKey] at h
  | succ fuel ih =>
    intro st req node v st' h hmode
    rw [nodeGetKey] at h
    rw [treeInsert]
    split_ifs at h with h1 h2 h3
    · simp only [Option.some.injEq, Prod.mk.injEq, Option.some.injEq] at h
      rw [if_pos h1, if_pos h2]
      by_cases hm : req.Mode = MODE_INSERT_ONLY
      · rw [if_pos hm, h.2]
      · rcases hmode with hm1 | hm1
        · exact absurd hm1 hm
        · rw [if_neg hm, if_pos (by rw [hm1, h.1]), h.2]
    · simp at h
    · dsimp only at h
      have hd := ih _ _ _ _ _ h hmode
      rw [if_neg h1, if_pos h3]
      dsimp only
      rw [hd]
      simp

/-- UPDATE_ONLY on an absent key is a pure no-op with the `Get` descent's
final state. -/
theorem treeInsert_absent_noop (fuel : Nat) : ∀ (st : TSt) (req : InsertReq)
    (node : Bytes) (st' : TSt),
    nodeGetKey fuel st node req.Key = some (none, st') →
    req.Mode = MODE_UPDATE_ONLY →
    treeInsert fuel st req node = some ([], req, st') := by
  induction fuel with
  | zero => intro st req node st' h _; simp [nodeGetKey] at h
  | succ fuel ih =>
    intro st req node st' h hmode
    rw [nodeGetKey] at h
    rw [treeInsert]
    split_ifs at h with h1 h2 h3
    · simp at h
    · simp only [Option.some.injEq, Prod.mk.injEq] at h
      rw [if_pos h1, if_neg h2, if_pos hmode, h.2]
    · dsimp only at h
      have hd := ih _ _ _ _ h hmode
      rw [if_neg h1, if_pos h3]
      dsimp only
      rw [hd]
      simp

/-- Replacing a present key's value (modes other than INSERT_ONLY, value
different) produces a non-empty replacement page and leaves the request —
in particular `Added` — unchanged. -/
theorem treeInsert_present_update (fuel : Nat) : ∀ (st : TSt) (req : InsertReq)
    (node v : Bytes) (st' : TSt),
    nodeGetKey fuel st node req.Key = some (some v, st') →
    ¬ req.Mode = MODE_INSERT_ONLY → ¬ req.Val = v →
    ∃ nd st2, treeInsert fuel st req node = some (nd, req, st2) ∧ nd ≠ [] := by
  induction fuel with
  | zero => intro st req node v st' h _ _; simp [nodeGetKey] at h
  | succ fuel ih =>
    intro st req node v st' h hmode hval
    rw [nodeGetKey] at h
    rw [treeInsert]
    split_ifs at h with h1 h2 h3
    · simp only [Option.some.injEq, Prod.mk.injEq, Option.some.injEq] at h
      rw [if_pos h1, if_pos h2, if_neg hmode, if_neg (by rw [h.1]; exact hval)]
      exact ⟨_, st, rfl, ne_nil_of_length_eq _ (2 * BTREE_MAX_NODE_SIZE)
        (by rw [length_leafUpdate, List.length_replicate]) (by decide)⟩
    · simp at h
    · dsimp only at h
      obtain ⟨nd1, stA, hrec, hne⟩ := ih _ _ _ _ _ h hmode hval
      rw [if_neg h1, if_pos h3]
      dsimp only
      rw [hrec]
      dsimp only
      rw [if_neg hne]
      exact ⟨_, _, rfl, ne_nil_of_length_eq _ (2 * BTREE_MAX_NODE_SIZE)
        (by rw [length_nodeReplaceNchild, List.length_replicate]) (by decide)⟩

/-- Inserting an absent key (modes other than UPDATE_ONLY) produces a
non-empty replacement page and sets `Added`. -/
theorem treeInsert_absent_insert (fuel : Nat) : ∀ (st : TSt) (req : InsertReq)
    (node : Bytes) (st' : TSt),
    nodeGetKey fuel st node req.Key = some (none, st') →
    ¬ req.Mode = MODE_UPDATE_ONLY →
    ∃ nd st2, treeInsert fuel st req node = some (nd, { req with Added := true }, st2) ∧
      nd ≠ [] := by
  induction fuel with
  | zero => intro st req node st' h _; simp [nodeGetKey] at h
  | succ fuel ih =>
    intro st req node st' h hmode
    rw [nodeGetKey] at h
    rw [treeInsert]
    split_ifs at h with h1 h2 h3
    · simp at h
    · rw [if_pos h1, if_neg h2, if_neg hmode]
      exact ⟨_, st, rfl, ne_nil_of_length_eq _ (2 * BTREE_MAX_NODE_SIZE)
        (by rw [length_leafInsert, List.length_replicate]) (by decide)⟩
    · dsimp only at h
      obtain ⟨nd1, stA, hrec, hne⟩ := ih _ _ _ _ h hmode
      rw [if_neg h1, if_pos h3]
      dsimp only
      rw [hrec]
      dsimp only
      rw [if_neg hne]
      exact ⟨_, _, rfl, ne_nil_of_length_eq _ (2 * BTREE_MAX_NODE_SIZE)
        (by rw [length_nodeReplaceNchild, List.length_replicate]) (by decide)⟩

theorem pageDel_log (st : TSt) (p : Nat) :
    (pageDel st p).log = st.log ++ [Ev.edel p] := rfl

/-- C3 (counterexample): with an empty tree (`root = 0`), `InsertImpl` in
UPDATE_ONLY mode on the (necessarily absent) key still creates the first
leaf and reports `Added = true` — not the claimed no-op with
`Added = false`. -/
theorem c3_update_only_on_empty_tree_inserts :
    resultAdded (btreeInsertRoot 1 emptySt
      { Key := [107], Val := [118], Mode := MODE_UPDATE_ONLY }) = some true := by
  rfl

/-- C3 (amended): on a tree with a non-zero root, `InsertImpl` with mode
INSERT_ONLY on an existing key, with mode UPDATE_ONLY on an absent key,
or with any mode when the new value is byte-identical to the stored
value, is a no-op: no page allocated or freed, request (hence `Added`)
unchanged, log extended by `get` events only. Otherwise the mutation is
applied — the final root is a freshly `new`-allocated page — and `Added`
is set exactly when the key was previously absent. (With root = 0 the
code instead creates the first leaf regardless of mode, with
`Added = true`.) -/
theorem c3_insert_modes (fuel : Nat) (st : TSt) (req : InsertReq) (res : Option Bytes)
    (st' : TSt) (hroot : ¬ st.root = 0)
    (hget : btreeGet fuel st req.Key = some (res, st')) :
    ((∃ v, res = some v ∧ (req.Mode = MODE_INSERT_ONLY ∨ req.Val = v)) →
      btreeInsertRoot fuel st req = some (req, st') ∧
      st'.root = st.root ∧ st'.updates = st.updates ∧
      ∃ gs, st'.log = st.log ++ gs ∧ ∀ e ∈ gs, ∃ p, e = Ev.eget p) ∧
    (res = none → req.Mode = MODE_UPDATE_ONLY →
      btreeInsertRoot fuel st req = some (req, st') ∧
      st'.root = st.root ∧ st'.updates = st.updates ∧
      ∃ gs, st'.log = st.log ++ gs ∧ ∀ e ∈ gs, ∃ p, e = Ev.eget p) ∧
    ((∃ v, res = some v ∧ ¬ req.Mode = MODE_INSERT_ONLY ∧ ¬ req.Val = v) →
      ∃ st2, btreeInsertRoot fuel st req = some (req, st2) ∧
        Ev.enew st2.root ∈ st2.log) ∧
    (res = none → ¬ req.Mode = MODE_UPDATE_ONLY →
      ∃ st2, btreeInsertRoot fuel st req = some ({ req with Added := true }, st2) ∧
        Ev.enew st2.root ∈ st2.log) := by
  rw [btreeGet, if_neg hroot] at hget
  dsimp only at hget
  have hframe := nodeGetKey_frame fuel _ _ _ _ _ hget
  refine ⟨?_, ?_, ?_, ?_⟩
  · rintro ⟨v, rfl, hmode⟩
    have hni := treeInsert_present_noop fuel _ req _ v _ hget hmode
    rw [btreeInsertRoot, if_neg hroot]
    dsimp only
    rw [hni]
    dsimp only
    rw [if_pos rfl]
    obtain ⟨gs, hst, hgs⟩ := hframe
    rw [pageGet_snd] at hst
    refine ⟨rfl, by rw [hst], by rw [hst], Ev.eget st.root :: gs, by rw [hst]; simp, ?_⟩
    intro e he
    rcases List.mem_cons.mp he with rfl | he
    · exact ⟨_, rfl⟩
    · exact hgs e he
  · rintro rfl hmode
    have hni := treeInsert_absent_noop fuel _ req _ _ hget hmode
    rw [btreeInsertRoot, if_neg hroot]
    dsimp only
    rw [hni]
    dsimp only
    rw [if_pos rfl]
    obtain ⟨gs, hst, hgs⟩ := hframe
    rw [pageGet_snd] at hst
    refine ⟨rfl, by rw [hst], by rw [hst], Ev.eget st.root :: gs, by rw [hst]; simp, ?_⟩
    intro e he
    rcases List.mem_cons.mp he with rfl | he
    · exact ⟨_, rfl⟩
    · exact hgs e he
  · rintro ⟨v, rfl, hmode, hval⟩
    obtain ⟨nd, stA, heq, hne⟩ := treeInsert_present_update fuel _ req _ v _ hget hmode hval
    rw [btreeInsertRoot, if_neg hroot]
    dsimp only
    rw [heq]
    dsimp only
    rw [if_neg hne]
    by_cases hs : 1 < (nodeSplit3 nd).1
    · rw [if_pos hs]
      refine ⟨_, rfl, ?_⟩
      show Ev.enew _ ∈ (pageNew _ _).2.log
      rw [pageNew_log]
      exact List.mem_append_right _ (List.mem_singleton_self _)
    · rw [if_neg hs]
      refine ⟨_, rfl, ?_⟩
      show Ev.enew _ ∈ (pageNew _ _).2.log
      rw [pageNew_log]
      exact List.mem_append_right _ (List.mem_singleton_self _)
  · rintro rfl hmode
    obtain ⟨nd, stA, heq, hne⟩ := treeInsert_absent_insert fuel _ req _ _ hget hmode
    rw [btreeInsertRoot, if_neg hroot]
    dsimp only
    rw [heq]
    dsimp only
    rw [if_neg hne]
    by_cases hs : 1 < (nodeSplit3 nd).1
    · rw [if_pos hs]
      refine ⟨_, rfl, ?_⟩
      show Ev.enew _ ∈ (pageNew _ _).2.log
      rw [pageNew_log]
      exact List.mem_append_right _ (List.mem_singleton_self _)
    · rw [if_neg hs]
      refine ⟨_, rfl, ?_⟩
      show Ev.enew _ ∈ (pageNew _ _).2.log
      rw [pageNew_log]
      exact List.mem_append_right _ (List.mem_singleton_self _)

/-- C3 witness: INSERT_ONLY on the existing key `[10]` of the one-key
store is the claimed no-op. -/
theorem c3_insert_modes_witness :
    btreeInsertRoot 2 oneKeySt { Key := [10], Val := [99], Mode := MODE_INSERT_ONLY } =
      some ({ Key := [10], Val := [99], Mode := MODE_INSERT_ONLY },
        { oneKeySt with log := oneKeySt.log ++ [Ev.eget 1] }) ∧
    ({ oneKeySt with log := oneKeySt.log ++ [Ev.eget 1] } : TSt).root = oneKeySt.root ∧
    ({ oneKeySt with log := oneKeySt.log ++ [Ev.eget 1] } : TSt).updates = oneKeySt.updates ∧
    ∃ gs, ({ oneKeySt with log := oneKeySt.log ++ [Ev.eget 1] } : TSt).log =
      oneKeySt.log ++ gs ∧ ∀ e ∈ gs, ∃ p, e = Ev.eget p :=
  (c3_insert_modes 2 oneKeySt { Key := [10], Val := [99], Mode := MODE_INSERT_ONLY }
    (some [20]) { oneKeySt with log := oneKeySt.log ++ [Ev.eget 1] }
    (by decide) (by rfl)).1 ⟨[20], rfl, Or.inl rfl⟩

/-! ## Byte-buffer toolkit: slice reads against writes -/

theorem getElem?_readBytes (b : Bytes) (loc n j : Nat) :
    (readBytes b loc n)[j]? = if j < n then b[loc + j]? else none := by
  unfold readBytes
  rcases Nat.lt_or_ge j n with hj | hj
  · rw [if_pos hj, List.getElem?_take_of_lt hj, List.getElem?_drop]
  · rw [if_neg (by omega), List.getElem?_eq_none]
    simp only [List.length_take, List.length_drop]
    omega

theorem length_readBytes (b : Bytes) (loc n : Nat) :
    (readBytes b loc n).length = min n (b.length - loc) := by
  simp [readBytes]

theorem getD_readBytes (b : Bytes) (loc n j : Nat) :
    (readBytes b loc n).getD j 0 = if j < n then b.getD (loc + j) 0 else 0 := by
  simp only [List.getD_eq_getElem?_getD, getElem?_readBytes]
  split <;> rfl

/-- `readU16` only looks at the 2-byte slice. -/
theorem readU16_as_slice (b : Bytes) (loc : Nat) :
    readU16 b loc = readU16 (readBytes b loc 2) 0 := by
  unfold readU16
  rw [getD_readBytes, getD_readBytes]
  norm_num

/-- `readU64` only looks at the 8-byte slice. -/
theorem readU64_as_slice (b : Bytes) (loc : Nat) :
    readU64 b loc = readU64 (readBytes b loc 8) 0 := by
  unfold readU64
  rw [getD_readBytes, getD_readBytes, getD_readBytes, getD_readBytes,
    getD_readBytes, getD_readBytes, getD_readBytes, getD_readBytes]
  norm_num

/-- Reads entirely outside a write are unaffected. -/
theorem readBytes_writeBytes_disjoint (b : Bytes) (loc : Nat) (src : Bytes)
    (loc2 n : Nat) (h : loc2 + n ≤ loc ∨ loc + src.length ≤ loc2) :
    readBytes (writeBytes b loc src) loc2 n = readBytes b loc2 n := by
  apply List.ext_getElem?
  intro j
  rw [getElem?_readBytes, getElem?_readBytes]
  rcases Nat.lt_or_ge j n with hj | hj
  · rw [if_pos hj, if_pos hj, getElem?_writeBytes, if_neg (by omega)]
  · rw [if_neg (by omega), if_neg (by omega)]

/-- Reading back exactly the written range. -/
theorem readBytes_writeBytes_same (b : Bytes) (loc : Nat) (src : Bytes)
    (h : loc + src.length ≤ b.length) :
    readBytes (writeBytes b loc src) loc src.length = src := by
  apply List.ext_getElem?
  intro j
  rw [getElem?_readBytes]
  rcases Nat.lt_or_ge j src.length with hj | hj
  · rw [if_pos hj, getElem?_writeBytes, if_pos (by omega)]
    congr 1
    omega
  · rw [if_neg (by omega), Eq.comm, List.getElem?_eq_none hj]

/-- A sub-slice of a slice. -/
theorem readBytes_of_readBytes (b : Bytes) (base s a c : Nat) (h : a + c ≤ s) :
    readBytes (readBytes b base s) a c = readBytes b (base + a) c := by
  apply List.ext_getElem?
  intro j
  rw [getElem?_readBytes, getElem?_readBytes, getElem?_readBytes]
  split_ifs with h1 h2
  · congr 1
    omega
  · omega
  · rfl

/-- Splitting a slice read. -/
theorem readBytes_add (b : Bytes) (loc m n : Nat) :
    readBytes b loc (m + n) = readBytes b loc m ++ readBytes b (loc + m) n := by
  unfold readBytes
  rw [List.take_add, List.drop_drop]

theorem readU16_writeBytes_disjoint (b : Bytes) (loc : Nat) (src : Bytes)
    (loc2 : Nat) (h : loc2 + 2 ≤ loc ∨ loc + src.length ≤ loc2) :
    readU16 (writeBytes b loc src) loc2 = readU16 b loc2 := by
  rw [readU16_as_slice, readBytes_writeBytes_disjoint _ _ _ _ _ h, ← readU16_as_slice]

theorem readU64_writeBytes_disjoint (b : Bytes) (loc : Nat) (src : Bytes)
    (loc2 : Nat) (h : loc2 + 8 ≤ loc ∨ loc + src.length ≤ loc2) :
    readU64 (writeBytes b loc src) loc2 = readU64 b loc2 := by
  rw [readU64_as_slice, readBytes_writeBytes_disjoint _ _ _ _ _ h, ← readU64_as_slice]

theorem readU16_u16Bytes (v : Nat) : readU16 (u16Bytes v) 0 = u16 v := by
  simp only [readU16, u16Bytes, u16, List.getD]
  simp [List.getElem?_cons]
  omega

theorem readU64_u64Bytes (v : Nat) : readU64 (u64Bytes v) 0 = u64 v := by
  simp only [readU64, u64Bytes, u64, List.getD]
  simp [List.getElem?_cons]
  omega

theorem readU16_writeU16_same (b : Bytes) (loc v : Nat) (h : loc + 2 ≤ b.length) :
    readU16 (writeU16 b loc v) loc = u16 v := by
  rw [readU16_as_slice]
  unfold writeU16
  have h2 : (u16Bytes v).length = 2 := rfl
  rw [show (2 : Nat) = (u16Bytes v).length from rfl,
    readBytes_writeBytes_same _ _ _ (by omega), readU16_u16Bytes]

theorem readU64_writeU64_same (b : Bytes) (loc v : Nat) (h : loc + 8 ≤ b.length) :
    readU64 (writeU64 b loc v) loc = u64 v := by
  rw [readU64_as_slice]
  unfold writeU64
  have h8 : (u64Bytes v).length = 8 := rfl
  rw [show (8 : Nat) = (u64Bytes v).length from rfl,
    readBytes_writeBytes_same _ _ _ (by omega), readU64_u64Bytes]

/-- Reads at the start of an append. -/
theorem readBytes_append_left (a b : Bytes) (n : Nat) (h : n ≤ a.length) :
    readBytes (a ++ b) 0 n = a.take n := by
  apply List.ext_getElem?
  intro j
  rw [getElem?_readBytes]
  rcases Nat.lt_or_ge j n with hj | hj
  · rw [if_pos hj, Nat.zero_add, List.getElem?_append_left (by omega),
      List.getElem?_take_of_lt hj]
  · rw [if_neg (by omega), Eq.comm, List.getElem?_eq_none]
    simp only [List.length_take]
    omega

/-- Reads past a prefix of an append. -/
theorem readBytes_append_right (a b : Bytes) (loc n : Nat) (h : a.length ≤ loc) :
    readBytes (a ++ b) loc n = readBytes b (loc - a.length) n := by
  apply List.ext_getElem?
  intro j
  rw [getElem?_readBytes, getElem?_readBytes]
  rcases Nat.lt_or_ge j n with hj | hj
  · rw [if_pos hj, if_pos hj, List.getElem?_append_right (by omega)]
    congr 1
    omega
  · rw [if_neg (by omega), if_neg (by omega)]

/-! ## Entry-list arithmetic -/

theorem offAt_zero (es : List Entry) : offAt es 0 = 0 := rfl

theorem offAt_full (es : List Entry) : offAt es es.length = (es.map esize).sum := by
  simp [offAt]

theorem offAt_of_le (es : List Entry) (i : Nat) (h : es.length ≤ i) :
    offAt es i = offAt es es.length := by
  simp [offAt, List.take_of_length_le h, List.take_of_length_le (Nat.le_refl _)]

theorem offAt_add (es : List Entry) (i k : Nat) :
    offAt es (i + k) = offAt es i + offAt (es.drop i) k := by
  simp [offAt, List.take_add]

theorem offAt_take (es : List Entry) (i j : Nat) (h : i ≤ j) :
    offAt (es.take j) i = offAt es i := by
  simp [offAt, List.take_take, Nat.min_eq_left h]

theorem offAt_mono (es : List Entry) (i j : Nat) (h : i ≤ j) :
    offAt es i ≤ offAt es j := by
  rcases Nat.exists_eq_add_of_le h with ⟨k, rfl⟩
  rw [offAt_add]
  omega

theorem offAt_succ (es : List Entry) (i : Nat) (h : i < es.length) :
    offAt es (i + 1) = offAt es i + esize (es.getD i dEntry) := by
  rw [offAt_add]
  congr 1
  have hd : es.drop i = es.getD i dEntry :: es.drop (i + 1) := by
    rw [List.getD_eq_getElem?_getD, List.getElem?_eq_getElem h]
    exact List.drop_eq_getElem_cons h
  rw [hd]
  simp [offAt]

theorem length_encEntry (e : Entry) : (encEntry e).length = esize e := by
  simp [encEntry, esize, u16Bytes, KEY_LENGTH_SIZE, VAL_LENGTH_SIZE]
  omega

theorem encKVs_cons (e : Entry) (es : List Entry) :
    encKVs (e :: es) = encEntry e ++ encKVs es := by
  simp [encKVs]

theorem encKVs_append (a b : List Entry) :
    encKVs (a ++ b) = encKVs a ++ encKVs b := by
  simp [encKVs]

theorem length_encKVs (es : List Entry) : (encKVs es).length = offAt es es.length := by
  induction es with
  | nil => rfl
  | cons e es ih =>
    rw [encKVs_cons, List.length_append, length_encEntry, ih, offAt_full, offAt_full]
    simp

/-- The packed KV bytes of a middle segment of `es`, as a slice. -/
theorem readBytes_encKVs (es : List Entry) (i k : Nat) (h : i + k ≤ es.length) :
    readBytes (encKVs es) (offAt es i) (offAt es (i + k) - offAt es i) =
      encKVs ((es.drop i).take k) := by
  have hsplit : encKVs es = encKVs (es.take i) ++ encKVs (es.drop i) := by
    rw [← encKVs_append, List.take_append_drop]
  have hlen1 : (encKVs (es.take i)).length = offAt es i := by
    rw [length_encKVs, List.length_take, Nat.min_eq_left (by omega), offAt_take _ _ _ (Nat.le_refl i)]
  have hsplit2 : encKVs (es.drop i) =
      encKVs ((es.drop i).take k) ++ encKVs ((es.drop i).drop k) := by
    rw [← encKVs_append, List.take_append_drop]
  have hlen2 : (encKVs ((es.drop i).take k)).length = offAt es (i + k) - offAt es i := by
    rw [length_encKVs, List.length_take, List.length_drop,
      Nat.min_eq_left (by omega), offAt_take _ _ _ (Nat.le_refl k), offAt_add]
    omega
  rw [hsplit, readBytes_append_right _ _ _ _ (by omega), hlen1, Nat.sub_self,
    hsplit2, ← hlen2]
  unfold readBytes
  rw [List.drop_zero, List.take_left]

/-! ## Reads through truncation and the u16/u64 write wrappers -/

theorem readBytes_take (b : Bytes) (m loc c : Nat) (h : loc + c ≤ m) :
    readBytes (b.take m) loc c = readBytes b loc c := by
  apply List.ext_getElem?
  intro j
  rw [getElem?_readBytes, getElem?_readBytes]
  split_ifs with h1
  · exact List.getElem?_take_of_lt (by omega)
  · rfl

theorem readU16_take (b : Bytes) (m loc : Nat) (h : loc + 2 ≤ m) :
    readU16 (b.take m) loc = readU16 b loc := by
  rw [readU16_as_slice, readBytes_take _ _ _ _ h, ← readU16_as_slice]

theorem readU64_take (b : Bytes) (m loc : Nat) (h : loc + 8 ≤ m) :
    readU64 (b.take m) loc = readU64 b loc := by
  rw [readU64_as_slice, readBytes_take _ _ _ _ h, ← readU64_as_slice]

theorem readU16_writeU16_disjoint (b : Bytes) (loc v loc2 : Nat)
    (h : loc2 + 2 ≤ loc ∨ loc + 2 ≤ loc2) :
    readU16 (writeU16 b loc v) loc2 = readU16 b loc2 := by
  unfold writeU16
  exact readU16_writeBytes_disjoint _ _ _ _ h

theorem readU16_writeU64_disjoint (b : Bytes) (loc v loc2 : Nat)
    (h : loc2 + 2 ≤ loc ∨ loc + 8 ≤ loc2) :
    readU16 (writeU64 b loc v) loc2 = readU16 b loc2 := by
  unfold writeU64
  exact readU16_writeBytes_disjoint _ _ _ _ h

theorem readU64_writeU16_disjoint (b : Bytes) (loc v loc2 : Nat)
    (h : loc2 + 8 ≤ loc ∨ loc + 2 ≤ loc2) :
    readU64 (writeU16 b loc v) loc2 = readU64 b loc2 := by
  unfold writeU16
  exact readU64_writeBytes_disjoint _ _ _ _ h

theorem readU64_writeU64_disjoint (b : Bytes) (loc v loc2 : Nat)
    (h : loc2 + 8 ≤ loc ∨ loc + 8 ≤ loc2) :
    readU64 (writeU64 b loc v) loc2 = readU64 b loc2 := by
  unfold writeU64
  exact readU64_writeBytes_disjoint _ _ _ _ h

theorem readBytes_writeU16_disjoint (b : Bytes) (loc v loc2 n : Nat)
    (h : loc2 + n ≤ loc ∨ loc + 2 ≤ loc2) :
    readBytes (writeU16 b loc v) loc2 n = readBytes b loc2 n := by
  unfold writeU16
  exact readBytes_writeBytes_disjoint _ _ _ _ _ h

theorem readBytes_writeU64_disjoint (b : Bytes) (loc v loc2 n : Nat)
    (h : loc2 + n ≤ loc ∨ loc + 8 ≤ loc2) :
    readBytes (writeU64 b loc v) loc2 n = readBytes b loc2 n := by
  unfold writeU64
  exact readBytes_writeBytes_disjoint _ _ _ _ _ h


/-! ## Reading a represented node -/

theorem rep_kvLocation {node : Bytes} {t n : Nat} {es : List Entry}
    (h : PartialRep node t n es) (i : Nat) (hi : i ≤ es.length) :
    kvLocation node i = HEADER + 10 * n + offAt es i := by
  unfold kvLocation u16
  rw [h.hnk, h.hoff i hi]
  have h1 := h.hroom
  have h2 := h.hsmall
  have hm := offAt_mono es i es.length hi
  simp only [HEADER, POINTER_SIZE, OFFSET_SIZE] at *
  omega

theorem rep_nbytes {node : Bytes} {t : Nat} {es : List Entry}
    (h : PartialRep node t es.length es) :
    nbytes node = leftSize es es.length := by
  unfold nbytes leftSize
  rw [h.hnk, rep_kvLocation h es.length (Nat.le_refl _)]

theorem rep_leftBytes {node : Bytes} {t n : Nat} {es : List Entry}
    (h : PartialRep node t n es) (k : Nat) (hk : k ≤ es.length) :
    leftBytes node k = leftSize es k := by
  unfold leftBytes leftSize u16
  rw [h.hoff k hk]
  have h1 := h.hroom
  have h2 := h.hsmall
  have hm := offAt_mono es k es.length hk
  have hl := h.hlen
  simp only [HEADER] at *
  omega

theorem rep_rightBytes {node : Bytes} {t : Nat} {es : List Entry}
    (h : PartialRep node t es.length es) (k : Nat) (hk : k ≤ es.length) :
    rightBytes node k = rightSize es k := by
  unfold rightBytes rightSize
  rw [rep_nbytes h, rep_leftBytes h k hk]
  unfold leftSize u16
  have h1 := h.hroom
  have h2 := h.hsmall
  have hm := offAt_mono es k es.length hk
  simp only [HEADER] at *
  omega

/-- The packed bytes of entry `i` of a represented node. -/
theorem rep_readEntry {node : Bytes} {t n : Nat} {es : List Entry}
    (h : PartialRep node t n es) (i : Nat) (hi : i < es.length) :
    readBytes node (HEADER + 10 * n + offAt es i) (esize (es.getD i dEntry)) =
      encEntry (es.getD i dEntry) := by
  have hstep := offAt_succ es i hi
  have hmono := offAt_mono es (i + 1) es.length hi
  have hd : es.drop i = es.getD i dEntry :: es.drop (i + 1) := by
    rw [List.getD_eq_getElem?_getD, List.getElem?_eq_getElem hi]
    exact List.drop_eq_getElem_cons hi
  have h1 : readBytes node (HEADER + 10 * n + offAt es i) (esize (es.getD i dEntry)) =
      readBytes (encKVs es) (offAt es i) (esize (es.getD i dEntry)) := by
    rw [← h.hkv, readBytes_of_readBytes _ _ _ _ _ (by omega)]
  rw [h1]
  have h2 := readBytes_encKVs es i 1 (by omega)
  rw [hd] at h2
  have h3 : encKVs ((es.getD i dEntry :: es.drop (i + 1)).take 1) =
      encEntry (es.getD i dEntry) := by
    simp [encKVs]
  rw [h3] at h2
  rw [show esize (es.getD i dEntry) = offAt es (i + 1) - offAt es i by omega]
  exact h2

theorem readBytes_zero (b : Bytes) (n : Nat) : readBytes b 0 n = b.take n := by
  unfold readBytes
  rw [List.drop_zero]

/-- A represented node decodes entry `i` to `es[i]`. -/
theorem rep_entryAt {node : Bytes} {t n : Nat} {es : List Entry}
    (h : PartialRep node t n es) (i : Nat) (hi : i < es.length) :
    entryAt node i = es.getD i dEntry := by
  have he := rep_readEntry h i hi
  have hkloc := rep_kvLocation h i (by omega)
  have hstep := offAt_succ es i hi
  have hmono := offAt_mono es (i + 1) es.length hi
  have hroom := h.hroom
  have hsmall := h.hsmall
  set e := es.getD i dEntry with hedef
  set B := HEADER + 10 * n + offAt es i with hBdef
  have hes : esize e = 4 + e.key.length + e.val.length := by
    unfold esize KEY_LENGTH_SIZE VAL_LENGTH_SIZE
    omega
  have hklt : e.key.length < 65536 := by omega
  have hvlt : e.val.length < 65536 := by omega
  have h2a : (u16Bytes e.key.length).length = 2 := rfl
  have h2b : (u16Bytes e.val.length).length = 2 := rfl
  have henc : encEntry e =
      u16Bytes e.key.length ++ (u16Bytes e.val.length ++ (e.key ++ e.val)) := by
    simp [encEntry]
  have hsub : ∀ a c : Nat, a + c ≤ esize e →
      readBytes node (B + a) c = readBytes (encEntry e) a c := by
    intro a c hac
    rw [← he, readBytes_of_readBytes _ _ _ _ _ hac]
  -- the key-length field
  have hklen : readU16 node B = e.key.length := by
    have hb : readBytes node (B + 0) 2 = readBytes (encEntry e) 0 2 :=
      hsub 0 2 (by omega)
    rw [Nat.add_zero] at hb
    rw [readU16_as_slice, hb, readBytes_zero, henc, ← h2a, List.take_left,
      readU16_u16Bytes]
    exact Nat.mod_eq_of_lt hklt
  -- the value-length field
  have hvlen : readU16 node (B + 2) = e.val.length := by
    rw [readU16_as_slice, hsub 2 2 (by omega), henc,
      readBytes_append_right _ _ _ _ (by omega), h2a, Nat.sub_self, readBytes_zero,
      ← h2b, List.take_left, readU16_u16Bytes]
    exact Nat.mod_eq_of_lt hvlt
  -- the key bytes
  have hkey : readBytes node (B + 4) e.key.length = e.key := by
    rw [hsub 4 e.key.length (by omega), henc,
      readBytes_append_right _ _ _ _ (by omega), h2a,
      readBytes_append_right _ _ _ _ (by omega), h2b,
      show (4 : Nat) - 2 - 2 = 0 by omega, readBytes_zero,
      List.take_append_of_le_length (Nat.le_refl _), List.take_length]
  -- the value bytes
  have hval : readBytes node (B + (4 + e.key.length)) e.val.length = e.val := by
    rw [hsub (4 + e.key.length) e.val.length (by omega), henc,
      readBytes_append_right _ _ _ _ (by omega), h2a,
      readBytes_append_right _ _ _ _ (by omega), h2b,
      show 4 + e.key.length - 2 - 2 = e.key.length by omega,
      readBytes_append_right _ _ _ _ (Nat.le_refl _), Nat.sub_self, readBytes_zero,
      List.take_length]
  -- assemble the decoded entry
  have hu1 : u16 (B + KEY_LENGTH_SIZE + VAL_LENGTH_SIZE) = B + 4 := by
    unfold u16 KEY_LENGTH_SIZE VAL_LENGTH_SIZE
    simp only [hBdef, HEADER] at *
    omega
  have hu2 : u16 (B + KEY_LENGTH_SIZE) = B + 2 := by
    unfold u16 KEY_LENGTH_SIZE
    simp only [hBdef, HEADER] at *
    omega
  have hu3 : u16 (B + KEY_LENGTH_SIZE + VAL_LENGTH_SIZE + e.key.length) =
      B + (4 + e.key.length) := by
    unfold u16 KEY_LENGTH_SIZE VAL_LENGTH_SIZE
    simp only [hBdef, HEADER] at *
    omega
  have hptr := h.hptr i hi
  show Entry.mk (getPointer node i) (getKey node i) (getVal node i) = e
  have hgk : getKey node i = e.key := by
    unfold getKey
    rw [hkloc]
    dsimp only
    rw [hklen, hu1]
    exact hkey
  have hgv : getVal node i = e.val := by
    unfold getVal
    rw [hkloc]
    dsimp only
    rw [hklen, hu2, hvlen, hu3]
    exact hval
  rw [hgk, hgv, hptr, ← hedef]

/-- A fully represented node decodes to exactly its entry list. -/
theorem rep_entriesOf {node : Bytes} {t : Nat} {es : List Entry}
    (h : PartialRep node t es.length es) : entriesOf node = es := by
  unfold entriesOf
  rw [h.hnk]
  apply List.ext_getElem
  · simp
  · intro i h1 h2
    simp only [List.getElem_map, List.getElem_range]
    rw [rep_entryAt h i h2, List.getD_eq_getElem?_getD, List.getElem?_eq_getElem h2]
    rfl

/-! ## Building represented nodes -/

/-- `setHeader` on a zeroed scratch buffer establishes the empty
partial representation. -/
theorem rep_setHeader (b : Bytes) (t n : Nat) (hb : HEADER + 10 * n ≤ b.length)
    (hsmall : b.length < 65536) (ht : t < 65536) :
    PartialRep (setHeader b t n) t n [] := by
  have hlen : (setHeader b t n).length = b.length := length_setHeader b t n
  have hH : HEADER = 4 := rfl
  constructor
  · exact ht
  · exact Nat.zero_le n
  · rw [hlen]
    exact hb
  · rw [hlen]
    exact hsmall
  · unfold btype setHeader
    rw [readU16_writeU16_disjoint _ _ _ _ (Or.inl (by omega)),
      readU16_writeU16_same _ _ _ (by omega)]
    exact Nat.mod_eq_of_lt ht
  · unfold nkeys setHeader
    rw [readU16_writeU16_same _ _ _ (by rw [length_writeU16]; omega)]
    exact Nat.mod_eq_of_lt (by omega)
  · intro i hi
    have h0 : i = 0 := by simpa using hi
    subst h0
    rfl
  · intro i hi
    simp at hi
  · rfl
  · intro e he
    simp at he

/-- Truncating a fully represented node at or above its packed size
preserves the representation. -/
theorem rep_take {node : Bytes} {t : Nat} {es : List Entry}
    (h : PartialRep node t es.length es) (m : Nat)
    (hm : HEADER + 10 * es.length + offAt es es.length ≤ m) :
    PartialRep (node.take m) t es.length es := by
  have hroom := h.hroom
  have hsmall := h.hsmall
  simp only [HEADER] at hroom hm
  have hlen : (node.take m).length = min m node.length := List.length_take _ _
  have hnk2 : nkeys (node.take m) = es.length := by
    unfold nkeys
    rw [readU16_take _ _ _ (by omega)]
    exact h.hnk
  constructor
  · exact h.htlt
  · exact Nat.le_refl _
  · rw [hlen]
    simp only [HEADER]
    omega
  · rw [hlen]
    omega
  · unfold btype
    rw [readU16_take _ _ _ (by omega)]
    exact h.hty
  · exact hnk2
  · intro i hi
    by_cases h0 : i = 0
    · subst h0
      rfl
    · have hloc : offsetLocation (node.take m) i =
          4 + 8 * es.length + 2 * (i - 1) := by
        unfold offsetLocation
        rw [hnk2]
        unfold u16 HEADER POINTER_SIZE OFFSET_SIZE
        apply Nat.mod_eq_of_lt
        omega
      have hloc2 : offsetLocation node i = 4 + 8 * es.length + 2 * (i - 1) := by
        unfold offsetLocation
        rw [h.hnk]
        unfold u16 HEADER POINTER_SIZE OFFSET_SIZE
        apply Nat.mod_eq_of_lt
        omega
      have hh := h.hoff i hi
      unfold getOffset at hh ⊢
      rw [if_neg h0] at hh ⊢
      rw [hloc, readU16_take _ _ _ (by omega), ← hloc2]
      exact hh
  · intro i hi
    have hl := h.hlen
    have hloc : u16 (HEADER + POINTER_SIZE * i) = 4 + 8 * i := by
      unfold u16 HEADER POINTER_SIZE
      apply Nat.mod_eq_of_lt
      omega
    unfold getPointer
    rw [hloc, readU64_take _ _ _ (by omega)]
    have hh := h.hptr i hi
    unfold getPointer at hh
    rw [hloc] at hh
    exact hh
  · simp only [HEADER]
    rw [readBytes_take _ _ _ _ (by omega)]
    have hh := h.hkv
    simp only [HEADER] at hh
    exact hh
  · exact h.hwfp

/-- Soundness of the executable `repCheck`. -/
theorem rep_of_repCheck (node : Bytes) (t : Nat) (es : List Entry)
    (h : repCheck node t es = true) : PartialRep node t es.length es := by
  unfold repCheck at h
  simp only [Bool.and_eq_true, decide_eq_true_eq, List.all_eq_true,
    List.mem_range] at h
  obtain ⟨⟨⟨⟨⟨⟨⟨⟨h1, h2⟩, h3⟩, h4⟩, h5⟩, h6⟩, h7⟩, h8⟩, h9⟩ := h
  constructor
  · exact h1
  · exact Nat.le_refl _
  · exact h2
  · exact h3
  · exact h4
  · exact h5
  · intro i hi
    exact h6 i (by omega)
  · intro i hi
    exact h7 i hi
  · exact h8
  · exact h9

/-! ## Write effects on node regions -/

theorem ptrLoc_eq (i : Nat) (h : i < 8192) :
    u16 (HEADER + POINTER_SIZE * i) = 4 + 8 * i := by
  unfold u16 HEADER POINTER_SIZE
  apply Nat.mod_eq_of_lt
  omega

theorem offLoc_eq (b : Bytes) (n i : Nat) (hnk : nkeys b = n)
    (hi : 4 + 8 * n + 2 * (i - 1) < 65536) :
    offsetLocation b i = 4 + 8 * n + 2 * (i - 1) := by
  unfold offsetLocation u16 HEADER POINTER_SIZE OFFSET_SIZE
  rw [hnk]
  exact Nat.mod_eq_of_lt hi

/-- Element access into a `(fs.drop srcOld).take cnt` slice. -/
theorem getD_slice (fs : List Entry) (srcOld cnt j : Nat) (h1 : j < cnt)
    (h2 : srcOld + j < fs.length) :
    ((fs.drop srcOld).take cnt).getD j dEntry = fs.getD (srcOld + j) dEntry := by
  rw [List.getD_eq_getElem?_getD, List.getD_eq_getElem?_getD,
    List.getElem?_take_of_lt h1, List.getElem?_drop]

/-- Members of a slice are members. -/
theorem mem_slice {fs : List Entry} {e : Entry} {srcOld cnt : Nat}
    (h : e ∈ (fs.drop srcOld).take cnt) : e ∈ fs :=
  List.mem_of_mem_drop (List.mem_of_mem_take h)

/-- Writing pointer slot `idx < n` of a node with `n` announced keys:
everything except that pointer is unchanged, and the slot reads back. -/
theorem setPointer_effects (b : Bytes) (n idx v : Nat) (hnk : nkeys b = n)
    (hroom : 4 + 10 * n ≤ b.length) (hsmall : b.length < 65536) (hidx : idx < n) :
    (setPointer b idx v).length = b.length ∧
    btype (setPointer b idx v) = btype b ∧
    nkeys (setPointer b idx v) = n ∧
    (∀ i, i ≤ n → getOffset (setPointer b idx v) i = getOffset b i) ∧
    (∀ m, readBytes (setPointer b idx v) (4 + 10 * n) m =
      readBytes b (4 + 10 * n) m) ∧
    (∀ i, i < 8192 → i ≠ idx →
      getPointer (setPointer b idx v) i = getPointer b i) ∧
    getPointer (setPointer b idx v) idx = u64 v := by
  have hn8 : n < 8192 := by omega
  have hloc : u16 (HEADER + POINTER_SIZE * idx) = 4 + 8 * idx :=
    ptrLoc_eq idx (by omega)
  unfold setPointer
  rw [hloc]
  refine ⟨length_writeU64 _ _ _, ?_, ?_, ?_, ?_, ?_, ?_⟩
  · unfold btype
    exact readU16_writeU64_disjoint _ _ _ _ (Or.inl (by omega))
  · unfold nkeys
    rw [readU16_writeU64_disjoint _ _ _ _ (Or.inl (by omega))]
    exact hnk
  · intro i hi
    by_cases h0 : i = 0
    · subst h0
      rfl
    · unfold getOffset
      rw [if_neg h0, if_neg h0]
      have hnk2 : nkeys (writeU64 b (4 + 8 * idx) v) = n := by
        unfold nkeys
        rw [readU16_writeU64_disjoint _ _ _ _ (Or.inl (by omega))]
        exact hnk
      rw [offLoc_eq _ n i hnk2 (by omega), offLoc_eq _ n i hnk (by omega)]
      exact readU16_writeU64_disjoint _ _ _ _ (Or.inr (by omega))
  · intro m
    exact readBytes_writeU64_disjoint _ _ _ _ _ (Or.inr (by omega))
  · intro i hi hne
    unfold getPointer
    rw [ptrLoc_eq i hi]
    apply readU64_writeU64_disjoint
    rcases Nat.lt_or_ge i idx with hlt | hge
    · exact Or.inl (by omega)
    · exact Or.inr (by omega)
  · unfold getPointer
    rw [hloc]
    exact readU64_writeU64_same _ _ _ (by omega)

/-- Writing offset slot `1 ≤ idx ≤ n`: everything except that offset is
unchanged, and the slot reads back. -/
theorem setOffset_effects (b : Bytes) (n idx v : Nat) (hnk : nkeys b = n)
    (hroom : 4 + 10 * n ≤ b.length) (hsmall : b.length < 65536)
    (hidx1 : 1 ≤ idx) (hidx2 : idx ≤ n) :
    (setOffset b idx v).length = b.length ∧
    btype (setOffset b idx v) = btype b ∧
    nkeys (setOffset b idx v) = n ∧
    (∀ i, i ≤ n → i ≠ idx → getOffset (setOffset b idx v) i = getOffset b i) ∧
    (∀ m, readBytes (setOffset b idx v) (4 + 10 * n) m =
      readBytes b (4 + 10 * n) m) ∧
    (∀ i, i < n → getPointer (setOffset b idx v) i = getPointer b i) ∧
    getOffset (setOffset b idx v) idx = u16 v := by
  have hn8 : n < 8192 := by omega
  have hloc : offsetLocation b idx = 4 + 8 * n + 2 * (idx - 1) :=
    offLoc_eq b n idx hnk (by omega)
  unfold setOffset
  rw [hloc]
  have hnk2 : nkeys (writeU16 b (4 + 8 * n + 2 * (idx - 1)) v) = n := by
    unfold nkeys
    rw [readU16_writeU16_disjoint _ _ _ _ (Or.inl (by omega))]
    exact hnk
  refine ⟨length_writeU16 _ _ _, ?_, hnk2, ?_, ?_, ?_, ?_⟩
  · unfold btype
    exact readU16_writeU16_disjoint _ _ _ _ (Or.inl (by omega))
  · intro i hi hne
    by_cases h0 : i = 0
    · subst h0
      rfl
    · unfold getOffset
      rw [if_neg h0, if_neg h0]
      rw [offLoc_eq _ n i hnk2 (by omega), offLoc_eq _ n i hnk (by omega)]
      apply readU16_writeU16_disjoint
      rcases Nat.lt_or_ge i idx with hlt | hge
      · exact Or.inl (by omega)
      · exact Or.inr (by omega)
  · intro m
    exact readBytes_writeU16_disjoint _ _ _ _ _ (Or.inr (by omega))
  · intro i hi
    unfold getPointer
    rw [ptrLoc_eq i (by omega)]
    exact readU64_writeU16_disjoint _ _ _ _ (Or.inl (by omega))
  · unfold getOffset
    rw [if_neg (by omega), offLoc_eq _ n idx hnk2 (by omega)]
    exact readU16_writeU16_same _ _ _ (by omega)

/-- The pointer-copying loop of `nodeAppendRange`, at destination
`es.length`, copies pointers and touches nothing else. -/
theorem appendRangePtrs_spec {newNode oldNode : Bytes} {t t2 n : Nat}
    {es fs : List Entry} (hn : PartialRep newNode t n es)
    (ho : PartialRep oldNode t2 fs.length fs) (srcOld : Nat) :
    ∀ k, srcOld + k ≤ fs.length → es.length + k ≤ n →
    (appendRangePtrs newNode oldNode es.length srcOld k).length = newNode.length ∧
    btype (appendRangePtrs newNode oldNode es.length srcOld k) = t ∧
    nkeys (appendRangePtrs newNode oldNode es.length srcOld k) = n ∧
    (∀ i, i ≤ n → getOffset (appendRangePtrs newNode oldNode es.length srcOld k) i =
      getOffset newNode i) ∧
    (∀ m, readBytes (appendRangePtrs newNode oldNode es.length srcOld k)
      (4 + 10 * n) m = readBytes newNode (4 + 10 * n) m) ∧
    (∀ i, i < es.length + k →
      getPointer (appendRangePtrs newNode oldNode es.length srcOld k) i =
        ((es ++ (fs.drop srcOld).take k).getD i dEntry).ptr) := by
  have hroom : 4 + 10 * n ≤ newNode.length := by
    have := hn.hroom
    simp only [HEADER] at this
    omega
  have hsmall := hn.hsmall
  have hn8 : n < 8192 := by omega
  intro k
  induction k with
  | zero =>
    intro hsrc hcnt
    refine ⟨rfl, hn.hty, hn.hnk, fun i hi => rfl, fun m => rfl, ?_⟩
    intro i hi
    rw [List.take_zero, List.append_nil]
    exact hn.hptr i (by omega)
  | succ k ih =>
    intro hsrc hcnt
    obtain ⟨ihlen, ihty, ihnk, ihoff, ihkv, ihptr⟩ := ih (by omega) (by omega)
    have hold : getPointer oldNode (srcOld + k) = (fs.getD (srcOld + k) dEntry).ptr :=
      ho.hptr (srcOld + k) (by omega)
    have heff := setPointer_effects (appendRangePtrs newNode oldNode es.length srcOld k)
      n (es.length + k) (getPointer oldNode (srcOld + k)) ihnk (by omega) (by omega)
      (by omega)
    obtain ⟨elen, ety, enk, eoff, ekv, eptr, esame⟩ := heff
    have hstep : appendRangePtrs newNode oldNode es.length srcOld (k + 1) =
        setPointer (appendRangePtrs newNode oldNode es.length srcOld k)
          (es.length + k) (getPointer oldNode (srcOld + k)) := rfl
    rw [hstep]
    refine ⟨by rw [elen, ihlen], by rw [ety, ihty], enk, ?_, ?_, ?_⟩
    · intro i hi
      rw [eoff i hi, ihoff i hi]
    · intro m
      rw [ekv m, ihkv m]
    · intro i hi
      by_cases he : i = es.length + k
      · subst he
        rw [esame, hold]
        have hwf : (fs.getD (srcOld + k) dEntry).ptr < 18446744073709551616 := by
          apply ho.hwfp
          rw [List.getD_eq_getElem?_getD, List.getElem?_eq_getElem (by omega)]
          exact List.getElem_mem _
        rw [show u64 ((fs.getD (srcOld + k) dEntry).ptr) =
          (fs.getD (srcOld + k) dEntry).ptr from Nat.mod_eq_of_lt hwf]
        rw [List.getD_append_right _ _ _ _ (by omega),
          show es.length + k - es.length = k from by omega,
          getD_slice fs srcOld (k + 1) k (by omega) (by omega)]
      · rw [eptr i (by omega) he, ihptr i (by omega)]
        by_cases hi2 : i < es.length
        · rw [List.getD_append _ _ _ _ hi2, List.getD_append _ _ _ _ hi2]
        · rw [List.getD_append_right _ _ _ _ (by omega),
            List.getD_append_right _ _ _ _ (by omega),
            getD_slice fs srcOld (k + 1) (i - es.length) (by omega) (by omega),
            getD_slice fs srcOld k (i - es.length) (by omega) (by omega)]

/-! ## The offset-copying loop and the KV copy -/

theorem offAt_append_le (es sl : List Entry) (i : Nat) (h : i ≤ es.length) :
    offAt (es ++ sl) i = offAt es i := by
  unfold offAt
  rw [List.take_append_of_le_length h]

theorem offAt_append_add (es sl : List Entry) (j : Nat) :
    offAt (es ++ sl) (es.length + j) = offAt es es.length + offAt sl j := by
  rw [offAt_add, List.drop_left, offAt_append_le _ _ _ (Nat.le_refl _)]

/-- Offsets within a contiguous slice of `fs`. -/
theorem offAt_slice (fs : List Entry) (srcOld cnt j : Nat) (hj : j ≤ cnt)
    (hsrc : srcOld + cnt ≤ fs.length) :
    offAt ((fs.drop srcOld).take cnt) j = offAt fs (srcOld + j) - offAt fs srcOld := by
  rw [offAt_take _ _ _ hj, offAt_add]
  omega

theorem length_encKVs_slice (fs : List Entry) (srcOld cnt : Nat)
    (hsrc : srcOld + cnt ≤ fs.length) :
    (encKVs ((fs.drop srcOld).take cnt)).length =
      offAt fs (srcOld + cnt) - offAt fs srcOld := by
  rw [length_encKVs]
  have hl : ((fs.drop srcOld).take cnt).length = cnt := by
    rw [List.length_take, List.length_drop]
    omega
  rw [hl, offAt_slice fs srcOld cnt cnt (Nat.le_refl _) hsrc]

theorem appendRangeOffsets_spec {oldNode : Bytes} {t2 : Nat} {fs : List Entry}
    (ho : PartialRep oldNode t2 fs.length fs) (buf : Bytes) (n : Nat)
    (es : List Entry) (srcOld cnt : Nat)
    (hsrc : srcOld + cnt ≤ fs.length) (hcnt : es.length + cnt ≤ n)
    (hsm : buf.length < 65536) (hroom : 4 + 10 * n ≤ buf.length)
    (hnk : nkeys buf = n)
    (hofb : offAt es es.length +
      (offAt fs (srcOld + cnt) - offAt fs srcOld) < 65536) :
    ∀ k, k ≤ cnt →
    (appendRangeOffsets buf oldNode es.length srcOld (offAt es es.length)
      (offAt fs srcOld) k).length = buf.length ∧
    btype (appendRangeOffsets buf oldNode es.length srcOld (offAt es es.length)
      (offAt fs srcOld) k) = btype buf ∧
    nkeys (appendRangeOffsets buf oldNode es.length srcOld (offAt es es.length)
      (offAt fs srcOld) k) = n ∧
    (∀ m, readBytes (appendRangeOffsets buf oldNode es.length srcOld
      (offAt es es.length) (offAt fs srcOld) k) (4 + 10 * n) m =
      readBytes buf (4 + 10 * n) m) ∧
    (∀ i, i < n → getPointer (appendRangeOffsets buf oldNode es.length srcOld
      (offAt es es.length) (offAt fs srcOld) k) i = getPointer buf i) ∧
    (∀ i, i ≤ es.length → getOffset (appendRangeOffsets buf oldNode es.length srcOld
      (offAt es es.length) (offAt fs srcOld) k) i = getOffset buf i) ∧
    (∀ j, 1 ≤ j → j ≤ k → getOffset (appendRangeOffsets buf oldNode es.length srcOld
      (offAt es es.length) (offAt fs srcOld) k) (es.length + j) =
      offAt es es.length + (offAt fs (srcOld + j) - offAt fs srcOld)) := by
  intro k
  induction k with
  | zero =>
    intro hk
    exact ⟨rfl, rfl, hnk, fun m => rfl, fun i hi => rfl, fun i hi => rfl,
      fun j hj1 hj2 => absurd (Nat.le_trans hj1 hj2) (by omega)⟩
  | succ k ih =>
    intro hk
    obtain ⟨ihlen, ihty, ihnk, ihkv, ihptr, ihoffl, ihoffw⟩ := ih (by omega)
    have hold : getOffset oldNode (srcOld + (k + 1)) = offAt fs (srcOld + (k + 1)) :=
      ho.hoff (srcOld + (k + 1)) (by omega)
    have heff := setOffset_effects
      (appendRangeOffsets buf oldNode es.length srcOld (offAt es es.length)
        (offAt fs srcOld) k) n (es.length + (k + 1))
      (u16 (offAt es es.length + getOffset oldNode (srcOld + (k + 1)) + 65536 -
        offAt fs srcOld))
      ihnk (by omega) (by omega) (by omega) (by omega)
    obtain ⟨elen, ety, enk, eoff, ekv, eptr, esame⟩ := heff
    have hstep : appendRangeOffsets buf oldNode es.length srcOld (offAt es es.length)
        (offAt fs srcOld) (k + 1) =
      setOffset (appendRangeOffsets buf oldNode es.length srcOld (offAt es es.length)
        (offAt fs srcOld) k) (es.length + (k + 1))
        (u16 (offAt es es.length + getOffset oldNode (srcOld + (k + 1)) + 65536 -
          offAt fs srcOld)) := rfl
    rw [hstep]
    refine ⟨by rw [elen, ihlen], by rw [ety, ihty], enk, ?_, ?_, ?_, ?_⟩
    · intro m
      rw [ekv m, ihkv m]
    · intro i hi
      rw [eptr i hi, ihptr i hi]
    · intro i hi
      rw [eoff i (by omega) (by omega), ihoffl i hi]
    · intro j hj1 hj2
      by_cases hje : j = k + 1
      · subst hje
        rw [esame, hold]
        have hmono1 : offAt fs srcOld ≤ offAt fs (srcOld + (k + 1)) :=
          offAt_mono fs srcOld (srcOld + (k + 1)) (by omega)
        have hmono2 : offAt fs (srcOld + (k + 1)) ≤ offAt fs (srcOld + cnt) :=
          offAt_mono fs (srcOld + (k + 1)) (srcOld + cnt) (by omega)
        unfold u16
        omega
      · rw [eoff (es.length + j) (by omega) (by omega), ihoffw j hj1 (by omega)]

/-- Writing raw bytes at or above the KV base leaves the header, pointer
and offset regions unchanged. -/
theorem kvWrite_effects (b : Bytes) (n K : Nat) (src : Bytes) (hnk : nkeys b = n)
    (hK : 4 + 10 * n ≤ K) (hroom : 4 + 10 * n ≤ b.length) (hsm : b.length < 65536) :
    (writeBytes b K src).length = b.length ∧
    btype (writeBytes b K src) = btype b ∧
    nkeys (writeBytes b K src) = n ∧
    (∀ i, i ≤ n → getOffset (writeBytes b K src) i = getOffset b i) ∧
    (∀ i, i < n → getPointer (writeBytes b K src) i = getPointer b i) := by
  refine ⟨length_writeBytes _ _ _, ?_, ?_, ?_, ?_⟩
  · unfold btype
    exact readU16_writeBytes_disjoint _ _ _ _ (Or.inl (by omega))
  · unfold nkeys
    rw [readU16_writeBytes_disjoint _ _ _ _ (Or.inl (by omega))]
    exact hnk
  · intro i hi
    by_cases h0 : i = 0
    · subst h0
      rfl
    · have hnk2 : nkeys (writeBytes b K src) = n := by
        unfold nkeys
        rw [readU16_writeBytes_disjoint _ _ _ _ (Or.inl (by omega))]
        exact hnk
      unfold getOffset
      rw [if_neg h0, if_neg h0, offLoc_eq _ n i hnk2 (by omega),
        offLoc_eq _ n i hnk (by omega)]
      exact readU16_writeBytes_disjoint _ _ _ _ (Or.inl (by omega))
  · intro i hi
    unfold getPointer
    rw [ptrLoc_eq i (by omega)]
    exact readU64_writeBytes_disjoint _ _ _ _ (Or.inl (by omega))

/-- `nodeAppendRange` at destination `es.length` appends a slice of the
source node's entries to the partial representation. -/
theorem rep_appendRange {newNode oldNode : Bytes} {t t2 n : Nat} {es fs : List Entry}
    (hn : PartialRep newNode t n es) (ho : PartialRep oldNode t2 fs.length fs)
    (srcOld cnt : Nat) (hsrc : srcOld + cnt ≤ fs.length)
    (hcnt : es.length + cnt ≤ n)
    (hfits : HEADER + 10 * n + offAt es es.length +
      (offAt fs (srcOld + cnt) - offAt fs srcOld) ≤ newNode.length) :
    PartialRep (nodeAppendRange newNode oldNode es.length srcOld cnt) t n
      (es ++ (fs.drop srcOld).take cnt) := by
  by_cases hc0 : cnt = 0
  · subst hc0
    rw [List.take_zero, List.append_nil]
    exact hn
  · have hroomN : 4 + 10 * n ≤ newNode.length := by
      have := hn.hroom
      simp only [HEADER] at this
      omega
    have hsmN := hn.hsmall
    have hfits4 : 4 + 10 * n + offAt es es.length +
        (offAt fs (srcOld + cnt) - offAt fs srcOld) ≤ newNode.length := by
      simp only [HEADER] at hfits
      exact hfits
    have hmono1 : offAt fs srcOld ≤ offAt fs (srcOld + cnt) :=
      offAt_mono fs srcOld (srcOld + cnt) (by omega)
    have hmono2 : offAt fs (srcOld + cnt) ≤ offAt fs fs.length :=
      offAt_mono fs (srcOld + cnt) fs.length hsrc
    obtain ⟨plen, pty, pnk, poff, pkv, pptr⟩ :=
      appendRangePtrs_spec hn ho srcOld cnt hsrc hcnt
    set buf1 := appendRangePtrs newNode oldNode es.length srcOld cnt with hbuf1
    have hdstB : getOffset buf1 es.length = offAt es es.length := by
      rw [poff es.length (by omega)]
      exact hn.hoff es.length (Nat.le_refl _)
    have hsrcB : getOffset oldNode srcOld = offAt fs srcOld :=
      ho.hoff srcOld (by omega)
    obtain ⟨olen, oty, onk, okv, optr, ooffl, ooffw⟩ :=
      appendRangeOffsets_spec ho buf1 n es srcOld cnt hsrc hcnt
        (by rw [plen]; exact hsmN) (by rw [plen]; exact hroomN) pnk
        (by omega) cnt (Nat.le_refl _)
    set buf2 := appendRangeOffsets buf1 oldNode es.length srcOld
      (offAt es es.length) (offAt fs srcOld) cnt with hbuf2
    have hexp : nodeAppendRange newNode oldNode es.length srcOld cnt =
        writeBytes buf2 (kvLocation buf2 es.length)
          (readBytes oldNode (kvLocation oldNode srcOld)
            (kvLocation oldNode (srcOld + cnt) - kvLocation oldNode srcOld)) := by
      unfold nodeAppendRange
      rw [if_neg hc0]
      dsimp only
      rw [← hbuf1, hdstB, hsrcB, ← hbuf2]
    have hK : kvLocation buf2 es.length = 4 + 10 * n + offAt es es.length := by
      unfold kvLocation u16
      rw [onk, ooffl es.length (Nat.le_refl _), hdstB]
      simp only [HEADER, POINTER_SIZE, OFFSET_SIZE]
      have habs : 4 + 8 * n + 2 * n + offAt es es.length < 65536 := by omega
      omega
    have hb0 : kvLocation oldNode srcOld =
        4 + 10 * fs.length + offAt fs srcOld := by
      have := rep_kvLocation ho srcOld (by omega)
      simpa [HEADER] using this
    have he0 : kvLocation oldNode (srcOld + cnt) =
        4 + 10 * fs.length + offAt fs (srcOld + cnt) := by
      have := rep_kvLocation ho (srcOld + cnt) hsrc
      simpa [HEADER] using this
    have hslLen : ((fs.drop srcOld).take cnt).length = cnt := by
      rw [List.length_take, List.length_drop]
      omega
    have hsrcEq : readBytes oldNode (kvLocation oldNode srcOld)
        (kvLocation oldNode (srcOld + cnt) - kvLocation oldNode srcOld) =
        encKVs ((fs.drop srcOld).take cnt) := by
      rw [hb0, he0, show 4 + 10 * fs.length + offAt fs (srcOld + cnt) -
        (4 + 10 * fs.length + offAt fs srcOld) =
        offAt fs (srcOld + cnt) - offAt fs srcOld by omega]
      have hkvO := ho.hkv
      simp only [HEADER] at hkvO
      rw [← readBytes_of_readBytes oldNode (4 + 10 * fs.length) (offAt fs fs.length)
        (offAt fs srcOld) (offAt fs (srcOld + cnt) - offAt fs srcOld) (by omega),
        hkvO, readBytes_encKVs fs srcOld cnt hsrc]
    have hLlen : (encKVs ((fs.drop srcOld).take cnt)).length =
        offAt fs (srcOld + cnt) - offAt fs srcOld :=
      length_encKVs_slice fs srcOld cnt hsrc
    rw [hexp, hK, hsrcEq]
    have hb2len : buf2.length = newNode.length := by rw [olen, plen]
    obtain ⟨wlen, wty, wnk, woff, wptr⟩ := kvWrite_effects buf2 n
      (4 + 10 * n + offAt es es.length) (encKVs ((fs.drop srcOld).take cnt)) onk
      (by omega) (by rw [hb2len]; exact hroomN) (by rw [hb2len]; exact hsmN)
    have hoffull : offAt (es ++ (fs.drop srcOld).take cnt)
        (es ++ (fs.drop srcOld).take cnt).length =
        offAt es es.length + (offAt fs (srcOld + cnt) - offAt fs srcOld) := by
      rw [List.length_append, offAt_append_add,
        show ((fs.drop srcOld).take cnt).length = cnt from hslLen,
        offAt_slice fs srcOld cnt cnt (Nat.le_refl _) hsrc]
    constructor
    · exact hn.htlt
    · rw [List.length_append, hslLen]
      exact hcnt
    · rw [wlen, hb2len, hoffull]
      simp only [HEADER]
      omega
    · rw [wlen, hb2len]
      exact hsmN
    · rw [wty, oty, pty]
    · exact wnk
    · intro i hi
      rw [List.length_append, hslLen] at hi
      rcases le_or_lt i es.length with hle | hgt
      · rw [woff i (by omega), ooffl i hle, poff i (by omega), hn.hoff i hle,
          offAt_append_le _ _ _ hle]
      · have hi2 : i = es.length + (i - es.length) := by omega
        rw [woff i (by omega), hi2, ooffw (i - es.length) (by omega) (by omega),
          offAt_append_add, offAt_slice fs srcOld cnt (i - es.length) (by omega) hsrc]
    · intro i hi
      rw [List.length_append, hslLen] at hi
      rw [wptr i (by omega), optr i (by omega), pptr i (by omega)]
    · simp only [HEADER]
      rw [hoffull, readBytes_add,
        readBytes_writeBytes_disjoint _ _ _ _ _ (Or.inl (by omega)),
        okv, pkv]
      have hkvN := hn.hkv
      simp only [HEADER] at hkvN
      rw [hkvN, ← hLlen, readBytes_writeBytes_same _ _ _ (by rw [hb2len]; omega),
        encKVs_append]
    · intro e he
      rcases List.mem_append.mp he with h1 | h1
      · exact hn.hwfp e h1
      · exact ho.hwfp e (mem_slice h1)

/-! ## The split-point loops of `nodeSplit2` -/

theorem split2Dec_le (old : Bytes) (s : Nat) : split2Dec old s ≤ s := by
  induction s with
  | zero => exact Nat.le_refl _
  | succ s ih =>
    unfold split2Dec
    split_ifs with hc
    · omega
    · exact Nat.le_refl _

theorem split2Dec_fits (old : Bytes) (s : Nat) :
    split2Dec old s = 0 ∨ leftBytes old (split2Dec old s) ≤ BTREE_MAX_NODE_SIZE := by
  induction s with
  | zero => exact Or.inl rfl
  | succ s ih =>
    unfold split2Dec
    split_ifs with hc
    · exact ih
    · exact Or.inr (by omega)

theorem split2Dec_min (old : Bytes) (s : Nat) :
    ∀ j, split2Dec old s < j → j ≤ s → BTREE_MAX_NODE_SIZE < leftBytes old j := by
  induction s with
  | zero =>
    intro j h1 h2
    omega
  | succ s ih =>
    intro j h1 h2
    by_cases hc : BTREE_MAX_NODE_SIZE < leftBytes old (s + 1)
    · unfold split2Dec at h1
      rw [if_pos hc] at h1
      rcases Nat.lt_or_ge j (s + 1) with hj | hj
      · exact ih j h1 (by omega)
      · rw [show j = s + 1 by omega]
        exact hc
    · unfold split2Dec at h1
      rw [if_neg hc] at h1
      omega

theorem split2Inc_ge (old : Bytes) : ∀ (fuel base : Nat),
    base ≤ split2Inc old fuel base := by
  intro fuel
  induction fuel with
  | zero => intro base; exact Nat.le_refl _
  | succ fuel ih =>
    intro base
    unfold split2Inc
    split_ifs with hc
    · exact Nat.le_trans (by omega) (ih (base + 1))
    · exact Nat.le_refl _

theorem split2Inc_spec (old : Bytes) : ∀ (fuel base : Nat),
    (∃ j, base ≤ j ∧ j ≤ base + fuel ∧ rightBytes old j ≤ BTREE_MAX_NODE_SIZE) →
    rightBytes old (split2Inc old fuel base) ≤ BTREE_MAX_NODE_SIZE ∧
    ∀ j, base ≤ j → j < split2Inc old fuel base →
      BTREE_MAX_NODE_SIZE < rightBytes old j := by
  intro fuel
  induction fuel with
  | zero =>
    intro base hex
    obtain ⟨j, hj1, hj2, hj3⟩ := hex
    rw [show j = base by omega] at hj3
    exact ⟨hj3, fun j h1 h2 => absurd (Nat.lt_of_le_of_lt h1 h2) (by
      unfold split2Inc at h2 ⊢
      omega)⟩
  | succ fuel ih =>
    intro base hex
    have hdef : split2Inc old (fuel + 1) base =
        if BTREE_MAX_NODE_SIZE < rightBytes old base then
          split2Inc old fuel (base + 1) else base := rfl
    by_cases hc : BTREE_MAX_NODE_SIZE < rightBytes old base
    · have hstep : split2Inc old (fuel + 1) base = split2Inc old fuel (base + 1) := by
        rw [hdef, if_pos hc]
      obtain ⟨j, hj1, hj2, hj3⟩ := hex
      have hne : j ≠ base := by
        intro he
        rw [he] at hj3
        omega
      obtain ⟨hfit, hmin⟩ := ih (base + 1) ⟨j, by omega, by omega, hj3⟩
      rw [hstep]
      refine ⟨hfit, ?_⟩
      intro i h1 h2
      by_cases hi : i = base
      · rw [hi]
        exact hc
      · exact hmin i (by omega) h2
    · have hstep : split2Inc old (fuel + 1) base = base := by
        rw [hdef, if_neg hc]
      rw [hstep]
      exact ⟨by omega, fun j h1 h2 => by omega⟩

/-! ## Size arithmetic on the logical entries -/

theorem getD_mem (es : List Entry) (k : Nat) (h : k < es.length) :
    es.getD k dEntry ∈ es := by
  rw [List.getD_eq_getElem?_getD, List.getElem?_eq_getElem h]
  exact List.getElem_mem _

theorem leftSize_succ (es : List Entry) (k : Nat) (h : k < es.length) :
    leftSize es (k + 1) = leftSize es k + 10 + esize (es.getD k dEntry) := by
  unfold leftSize
  rw [offAt_succ es k h]
  ring

theorem leftSize_mono (es : List Entry) (j k : Nat) (h : j ≤ k) :
    leftSize es j ≤ leftSize es k := by
  unfold leftSize
  have := offAt_mono es j k h
  omega

theorem leftSize_strict_mono (es : List Entry) (j k : Nat) (h : j < k) :
    leftSize es j < leftSize es k := by
  have h1 : leftSize es j < leftSize es (j + 1) := by
    unfold leftSize
    have := offAt_mono es j (j + 1) (by omega)
    omega
  exact Nat.lt_of_lt_of_le h1 (leftSize_mono es (j + 1) k h)

theorem left_add_right (es : List Entry) (k : Nat) (h : k ≤ es.length) :
    leftSize es k + rightSize es k = leftSize es es.length + 4 := by
  unfold leftSize rightSize
  have := offAt_mono es k es.length h
  simp only [HEADER]
  omega

theorem rightSize_last (es : List Entry) : rightSize es es.length = 4 := by
  unfold rightSize
  simp [HEADER]

theorem leftSize_take (es : List Entry) (k j : Nat) (h : j ≤ k) :
    leftSize (es.take k) j = leftSize es j := by
  unfold leftSize
  rw [offAt_take es j k h]

theorem leftSize_drop (es : List Entry) (k : Nat) (h : k ≤ es.length) :
    leftSize (es.drop k) (es.length - k) = rightSize es k := by
  unfold leftSize rightSize
  have hadd : offAt es (k + (es.length - k)) = offAt es k + offAt (es.drop k) (es.length - k) :=
    offAt_add es k (es.length - k)
  rw [show k + (es.length - k) = es.length by omega] at hadd
  have := offAt_mono es k es.length h
  omega

theorem leftSize_zero (es : List Entry) : leftSize es 0 = 4 := by
  unfold leftSize offAt HEADER
  simp

/-- The split point chosen by `nodeSplit2` on a represented oversized
node: it is in `[1, nkeys)`, the implied right half fits, the increment
loop stopped at the first fitting point at or after the decrement loop's
stop `d`, and `d` itself marks the last fitting left half below
`nkeys/2`. -/
theorem split2Nleft_spec {node : Bytes} {t : Nat} {es : List Entry}
    (h : PartialRep node t es.length es)
    (hwf : ∀ e ∈ es, esize e ≤ 4004)
    (hbig : 4096 < leftSize es es.length) :
    2 ≤ es.length ∧
    1 ≤ split2Nleft node ∧ split2Nleft node < es.length ∧
    rightSize es (split2Nleft node) ≤ 4096 ∧
    split2Dec node (es.length / 2) ≤ split2Nleft node ∧
    (∀ j, split2Dec node (es.length / 2) ≤ j → j < split2Nleft node →
      4096 < rightSize es j) ∧
    (split2Dec node (es.length / 2) = 0 ∨
      leftSize es (split2Dec node (es.length / 2)) ≤ 4096) := by
  have hmax : BTREE_MAX_NODE_SIZE = 4096 := rfl
  have hroomh := h.hroom
  have hsmallh := h.hsmall
  simp only [HEADER] at hroomh
  have hT4 : leftSize es es.length < 65536 := by
    unfold leftSize
    simp only [HEADER]
    omega
  have hstepsz : ∀ k, k < es.length →
      leftSize es (k + 1) ≤ leftSize es k + 4014 := by
    intro k hk
    rw [leftSize_succ es k hk]
    have := hwf _ (getD_mem es k hk)
    omega
  have hn2 : 2 ≤ es.length := by
    by_contra hn
    have hl0 := leftSize_zero es
    rcases Nat.lt_or_ge es.length 1 with h0 | h1
    · have he : es.length = 0 := by omega
      rw [he, hl0] at hbig
      omega
    · have he : es.length = 1 := by omega
      have hs := hstepsz 0 (by omega)
      rw [Nat.zero_add] at hs
      rw [he] at hbig
      omega
  set d := split2Dec node (es.length / 2) with hd
  have hdle : d ≤ es.length / 2 := split2Dec_le node _
  have hsplit : split2Nleft node = split2Inc node (nkeys node) d := by
    unfold split2Nleft
    rw [h.hnk]
  -- translate the loop reads on the node into entry-list sizes
  have hlb : ∀ k, k ≤ es.length → leftBytes node k = leftSize es k := by
    intro k hk
    rw [rep_leftBytes h k hk]
  have hrb : ∀ k, k ≤ es.length → rightBytes node k = rightSize es k := by
    intro k hk
    rw [rep_rightBytes h k hk]
  -- the increment loop has a stopping point: the right half at nkeys is empty
  have hrlast : rightBytes node es.length ≤ BTREE_MAX_NODE_SIZE := by
    rw [hrb es.length (Nat.le_refl _), rightSize_last, hmax]
    omega
  obtain ⟨hfit, hmin⟩ := split2Inc_spec node (nkeys node) d
    ⟨es.length, by omega, by rw [h.hnk]; omega, hrlast⟩
  rw [← hsplit] at hfit hmin
  have hge : d ≤ split2Nleft node := by
    rw [hsplit]
    exact split2Inc_ge node _ _
  -- the split point is at most nkeys
  have hle : split2Nleft node ≤ es.length := by
    by_contra hgt
    exact absurd hrlast (by
      have := hmin es.length (by omega) (by omega)
      omega)
  -- the split point is at least 1
  have h1 : 1 ≤ split2Nleft node := by
    by_contra h0
    have he0 : split2Nleft node = 0 := by omega
    rw [he0, hrb 0 (by omega)] at hfit
    have := left_add_right es 0 (by omega)
    have hl0 := leftSize_zero es
    rw [hmax] at hfit
    omega
  -- the split point is strictly below nkeys
  have hlt : split2Nleft node < es.length := by
    by_contra hge2
    have heq : split2Nleft node = es.length := by omega
    have hlast : 4096 < rightBytes node (es.length - 1) := by
      have := hmin (es.length - 1) (by omega) (by omega)
      omega
    rw [hrb (es.length - 1) (by omega)] at hlast
    have hsum := left_add_right es (es.length - 1) (by omega)
    have hstep := hstepsz (es.length - 1) (by omega)
    rw [show es.length - 1 + 1 = es.length by omega] at hstep
    omega
  refine ⟨hn2, h1, hlt, ?_, hge, ?_, ?_⟩
  · rw [← hrb _ hle, ← hmax]
    exact hfit
  · intro j hj1 hj2
    have := hmin j hj1 hj2
    rw [hrb j (by omega), hmax] at this
    exact this
  · rcases split2Dec_fits node (es.length / 2) with h0 | h0
    · exact Or.inl h0
    · right
      rw [hlb d (by omega), hmax] at h0
      exact h0

/-- The entry-level effect of `nodeSplit2` on a represented node. -/
theorem rep_nodeSplit2 {old : Bytes} {t : Nat} {fs : List Entry}
    (ho : PartialRep old t fs.length fs) (left right : Bytes)
    (hll : left.length < 65536) (hrl : right.length < 65536)
    (hnl1 : 1 ≤ split2Nleft old) (hnl2 : split2Nleft old ≤ fs.length)
    (hlfit : leftSize fs (split2Nleft old) ≤ left.length)
    (hrfit : rightSize fs (split2Nleft old) ≤ right.length) :
    PartialRep (nodeSplit2 left right old).1 t (split2Nleft old)
      (fs.take (split2Nleft old)) ∧
    PartialRep (nodeSplit2 left right old).2 t (fs.length - split2Nleft old)
      (fs.drop (split2Nleft old)) := by
  have hexp1 : (nodeSplit2 left right old).1 =
      nodeAppendRange (setHeader left (btype old) (split2Nleft old)) old 0 0
        (split2Nleft old) := rfl
  have hexp2 : (nodeSplit2 left right old).2 =
      nodeAppendRange (setHeader right (btype old) (nkeys old - split2Nleft old))
        old 0 (split2Nleft old) (nkeys old - split2Nleft old) := rfl
  have hlfit4 : 4 + 10 * split2Nleft old + offAt fs (split2Nleft old) ≤
      left.length := by
    have := hlfit
    unfold leftSize at this
    simp only [HEADER] at this
    exact this
  have hrfit4 : 4 + 10 * (fs.length - split2Nleft old) +
      (offAt fs fs.length - offAt fs (split2Nleft old)) ≤ right.length := by
    have := hrfit
    unfold rightSize at this
    simp only [HEADER] at this
    exact this
  constructor
  · rw [hexp1, ho.hty]
    have hsh := rep_setHeader left t (split2Nleft old)
      (by simp only [HEADER]; omega) hll ho.htlt
    have happ := rep_appendRange hsh ho 0 (split2Nleft old) (by omega)
      (by simp) (by
        simp only [HEADER, List.length_nil, offAt_zero, Nat.zero_add,
          length_setHeader]
        omega)
    simp only [List.length_nil, List.nil_append, List.drop_zero] at happ
    exact happ
  · rw [hexp2, ho.hty, ho.hnk]
    have hsh := rep_setHeader right t (fs.length - split2Nleft old)
      (by simp only [HEADER]; omega) hrl ho.htlt
    have happ := rep_appendRange hsh ho (split2Nleft old)
      (fs.length - split2Nleft old) (by omega) (by simp) (by
        simp only [HEADER, List.length_nil, offAt_zero, Nat.zero_add,
          length_setHeader]
        rw [show split2Nleft old + (fs.length - split2Nleft old) = fs.length by omega]
        omega)
    simp only [List.length_nil, List.nil_append] at happ
    have hdl : (fs.drop (split2Nleft old)).take (fs.length - split2Nleft old) =
        fs.drop (split2Nleft old) := by
      apply List.take_of_length_le
      rw [List.length_drop]
    rw [hdl] at happ
    exact happ

/-- C5: for every node whose entries are sorted and within the key/value
size limits, with packed size at most `2·PAGE_SIZE - 3`, `nodeSplit3`
returns 1–3 pages, each with `nbytes() ≤ PAGE_SIZE`, whose entry
sequences concatenated in order equal the original entries; when a split
happens the `nodeSplit2` split point `nleft` satisfies
`1 ≤ nleft < nkeys` (the bounds the code asserts). The original claim's
domain `nbytes ≤ 2·PAGE_SIZE` is too generous: at `nbytes ∈ {8190, 8191,
8192}` the second inner split can produce an oversized `leftleft` page
(see the counterexample). -/
theorem c5_nodeSplit3_splits (node : Bytes) (t : Nat) (es : List Entry)
    (hrep : Rep node t es)
    (hwf : ∀ e ∈ es, e.key.length ≤ BTREE_MAX_KEY_SIZE ∧
      e.val.length ≤ BTREE_MAX_VAL_SIZE)
    (hsorted : List.Chain' (fun a b => bytesCompare a.key b.key = Ordering.lt) es)
    (hsize : nbytes node ≤ 2 * BTREE_MAX_NODE_SIZE - 3) :
    1 ≤ (nodeSplit3 node).1 ∧ (nodeSplit3 node).1 ≤ 3 ∧
    (nodeSplit3 node).2.length = (nodeSplit3 node).1 ∧
    (∀ p ∈ (nodeSplit3 node).2, nbytes p ≤ BTREE_MAX_NODE_SIZE) ∧
    (nodeSplit3 node).2.flatMap entriesOf = es ∧
    (BTREE_MAX_NODE_SIZE < nbytes node →
      2 ≤ nkeys node ∧ 1 ≤ split2Nleft node ∧ split2Nleft node < nkeys node) := by
  have h : PartialRep node t es.length es := hrep
  have hmax : BTREE_MAX_NODE_SIZE = 4096 := rfl
  have hnb : nbytes node = leftSize es es.length := rep_nbytes h
  have hsz : leftSize es es.length ≤ 8189 := by
    rw [hnb] at hsize
    simp only [BTREE_MAX_NODE_SIZE] at hsize
    omega
  have hwfsz : ∀ e ∈ es, esize e ≤ 4004 := by
    intro e he
    have := hwf e he
    simp only [BTREE_MAX_KEY_SIZE, BTREE_MAX_VAL_SIZE] at this
    unfold esize KEY_LENGTH_SIZE VAL_LENGTH_SIZE
    omega
  by_cases hb : nbytes node ≤ BTREE_MAX_NODE_SIZE
  · -- one page: the node already fits
    have hdef : nodeSplit3 node = (1, [node.take BTREE_MAX_NODE_SIZE]) := by
      unfold nodeSplit3
      rw [if_pos hb]
    have hm : HEADER + 10 * es.length + offAt es es.length ≤ BTREE_MAX_NODE_SIZE := by
      have h2 : leftSize es es.length ≤ 4096 := by
        rw [hnb, hmax] at hb
        exact hb
      unfold leftSize at h2
      simp only [HEADER] at h2 ⊢
      simp only [BTREE_MAX_NODE_SIZE]
      omega
    have htk : PartialRep (node.take BTREE_MAX_NODE_SIZE) t es.length es :=
      rep_take h BTREE_MAX_NODE_SIZE hm
    rw [hdef]
    refine ⟨Nat.le_refl _, by omega, rfl, ?_, ?_, ?_⟩
    · intro q hq
      simp only [List.mem_singleton] at hq
      subst hq
      rw [rep_nbytes htk, ← hnb]
      exact hb
    · simp only [List.flatMap_cons, List.flatMap_nil, List.append_nil]
      exact rep_entriesOf htk
    · intro hcontra
      exact absurd hcontra (by omega)
  · -- a split is needed
    have hbig : 4096 < leftSize es es.length := by
      rw [hnb, hmax] at hb
      omega
    obtain ⟨hn2, hnl1, hnlt, hrfit, hdge, hincmin, hdfits⟩ :=
      split2Nleft_spec h hwfsz hbig
    have hmono := leftSize_mono es (split2Nleft node) es.length (by omega)
    obtain ⟨hrepL, hrepR⟩ := rep_nodeSplit2 h
      (List.replicate (2 * BTREE_MAX_NODE_SIZE) 0)
      (List.replicate BTREE_MAX_NODE_SIZE 0)
      (by rw [List.length_replicate]; simp only [BTREE_MAX_NODE_SIZE]; omega)
      (by rw [List.length_replicate]; simp only [BTREE_MAX_NODE_SIZE]; omega)
      hnl1 (by omega)
      (by rw [List.length_replicate]; simp only [BTREE_MAX_NODE_SIZE]; omega)
      (by rw [List.length_replicate]; simp only [BTREE_MAX_NODE_SIZE]; omega)
    set k := split2Nleft node with hk
    set p := nodeSplit2 (List.replicate (2 * BTREE_MAX_NODE_SIZE) 0)
      (List.replicate BTREE_MAX_NODE_SIZE 0) node with hpdef
    have htklen : (es.take k).length = k := by
      rw [List.length_take]
      omega
    have hrepLfull : PartialRep p.1 t (es.take k).length (es.take k) := by
      rw [htklen]
      exact hrepL
    have hrepRfull : PartialRep p.2 t (es.drop k).length (es.drop k) := by
      rw [List.length_drop]
      exact hrepR
    have hnbL : nbytes p.1 = leftSize es k := by
      rw [rep_nbytes hrepLfull, htklen, leftSize_take es k k (Nat.le_refl _)]
    have hnbR : nbytes p.2 = rightSize es k := by
      rw [rep_nbytes hrepRfull, List.length_drop, leftSize_drop es k (by omega)]
    by_cases hb2 : nbytes p.1 ≤ BTREE_MAX_NODE_SIZE
    · -- two pages
      have hdef : nodeSplit3 node = (2, [p.1.take BTREE_MAX_NODE_SIZE, p.2]) := by
        unfold nodeSplit3
        rw [if_neg (by omega)]
        dsimp only
        rw [← hpdef, if_pos hb2]
      have hm2 : HEADER + 10 * (es.take k).length + offAt (es.take k)
          (es.take k).length ≤ BTREE_MAX_NODE_SIZE := by
        have h2 : leftSize (es.take k) (es.take k).length ≤ 4096 := by
          rw [htklen, leftSize_take es k k (Nat.le_refl _), ← hnbL, ← hmax]
          exact hb2
        unfold leftSize at h2
        simp only [HEADER] at h2 ⊢
        simp only [BTREE_MAX_NODE_SIZE]
        omega
      have htkL : PartialRep (p.1.take BTREE_MAX_NODE_SIZE) t (es.take k).length
          (es.take k) := rep_take hrepLfull BTREE_MAX_NODE_SIZE hm2
      rw [hdef]
      refine ⟨by omega, by omega, rfl, ?_, ?_, ?_⟩
      · intro q hq
        simp only [List.mem_cons, List.not_mem_nil, or_false] at hq
        rcases hq with rfl | rfl
        · rw [rep_nbytes htkL, htklen, leftSize_take es k k (Nat.le_refl _), ← hnbL]
          exact hb2
        · rw [hnbR, hmax]
          exact hrfit
      · simp only [List.flatMap_cons, List.flatMap_nil, List.append_nil]
        rw [rep_entriesOf htkL, rep_entriesOf hrepRfull, List.take_append_drop]
      · intro _
        rw [h.hnk]
        exact ⟨hn2, hnl1, hnlt⟩
    · -- three pages: split the left half again
      have hbig2 : 4096 < leftSize (es.take k) (es.take k).length := by
        rw [htklen, leftSize_take es k k (Nat.le_refl _), ← hnbL, ← hmax]
        omega
      have hwfsz2 : ∀ e ∈ es.take k, esize e ≤ 4004 := by
        intro e he
        exact hwfsz e (List.mem_of_mem_take he)
      obtain ⟨hn2b, hnl1b, hnltb, hrfitb, hdgeb, hincminb, hdfitsb⟩ :=
        split2Nleft_spec hrepLfull hwfsz2 hbig2
      set k2 := split2Nleft p.1 with hk2
      rw [htklen] at hnltb
      -- the decisive bound: the leftleft page fits under nbytes ≤ 8189
      have hhard : leftSize (es.take k) k2 ≤ 4096 := by
        by_contra hq0
        push_neg at hq0
        rw [leftSize_take es k k2 (by omega)] at hq0
        rcases Nat.lt_or_ge k2 (split2Dec node (es.length / 2)) with hcase | hcase
        · rcases hdfits with h0 | h0
          · omega
          · have := leftSize_mono es k2 (split2Dec node (es.length / 2)) (by omega)
            omega
        · have hrg := hincmin k2 hcase (by omega)
          have hsum := left_add_right es k2 (by omega)
          omega
      obtain ⟨hrepLL, hrepMM⟩ := rep_nodeSplit2 hrepLfull
        (List.replicate BTREE_MAX_NODE_SIZE 0) (List.replicate BTREE_MAX_NODE_SIZE 0)
        (by rw [List.length_replicate]; simp only [BTREE_MAX_NODE_SIZE]; omega)
        (by rw [List.length_replicate]; simp only [BTREE_MAX_NODE_SIZE]; omega)
        hnl1b (by rw [htklen]; omega)
        (by rw [List.length_replicate, hmax]; exact hhard)
        (by rw [List.length_replicate, hmax]; exact hrfitb)
      set q := nodeSplit2 (List.replicate BTREE_MAX_NODE_SIZE 0)
        (List.replicate BTREE_MAX_NODE_SIZE 0) p.1 with hqdef
      have hdef : nodeSplit3 node = (3, [q.1, q.2, p.2]) := by
        unfold nodeSplit3
        rw [if_neg (by omega)]
        dsimp only
        rw [← hpdef, if_neg hb2, ← hqdef]
      have htk2len : ((es.take k).take k2).length = k2 := by
        rw [List.length_take, htklen]
        omega
      have hrepLLfull :
          PartialRep q.1 t ((es.take k).take k2).length ((es.take k).take k2) := by
        rw [htk2len]
        exact hrepLL
      have hrepMMfull :
          PartialRep q.2 t ((es.take k).drop k2).length ((es.take k).drop k2) := by
        rw [List.length_drop]
        exact hrepMM
      rw [hdef]
      refine ⟨by omega, Nat.le_refl _, rfl, ?_, ?_, ?_⟩
      · intro r hr
        simp only [List.mem_cons, List.not_mem_nil, or_false] at hr
        rcases hr with rfl | rfl | rfl
        · rw [rep_nbytes hrepLLfull, htk2len,
            leftSize_take (es.take k) k2 k2 (Nat.le_refl _), hmax]
          exact hhard
        · rw [rep_nbytes hrepMMfull, List.length_drop,
            leftSize_drop (es.take k) k2 (by rw [htklen]; omega), hmax]
          exact hrfitb
        · rw [hnbR, hmax]
          exact hrfit
      · simp only [List.flatMap_cons, List.flatMap_nil, List.append_nil]
        rw [rep_entriesOf hrepLLfull, rep_entriesOf hrepMMfull,
          rep_entriesOf hrepRfull, ← List.append_assoc, List.take_append_drop,
          List.take_append_drop]
      · intro _
        rw [h.hnk]
        exact ⟨hn2, hnl1, hnlt⟩

theorem nbytes_eq (b : Bytes) :
    nbytes b = u16 (4 + 8 * nkeys b + 2 * nkeys b + getOffset b (nkeys b)) := rfl

/-- The packed size announced by the left node built by `nodeSplit2`'s
copy phase depends only on the header and offsets, so it is
`u16 (leftSize fs k)` even when the destination buffer is too small to
hold the copied KV bytes (Go's `copy` silently truncates). -/
theorem nbytes_split_left {old : Bytes} {t2 : Nat} {fs : List Entry}
    (ho : PartialRep old t2 fs.length fs) (left : Bytes) (k : Nat)
    (hk : k ≤ fs.length) (hsm : left.length < 65536)
    (hroom : 4 + 10 * k ≤ left.length)
    (hofb : offAt fs k < 65536) :
    nbytes (nodeAppendRange (setHeader left (btype old) k) old 0 0 k) =
      u16 (leftSize fs k) := by
  have htlt : btype old < 65536 := by
    rw [ho.hty]
    exact ho.htlt
  have hsh := rep_setHeader left (btype old) k (by simp only [HEADER]; omega)
    hsm htlt
  obtain ⟨plen, pty, pnk, poff, pkv, pptr⟩ :=
    appendRangePtrs_spec hsh ho 0 k (by omega) (by simp)
  simp only [List.length_nil] at plen pnk poff pkv pptr
  obtain ⟨olen, oty, onk, okv, optr, ooffl, ooffw⟩ :=
    appendRangeOffsets_spec ho (appendRangePtrs (setHeader left (btype old) k)
      old 0 0 k) k ([] : List Entry) 0 k (by omega) (by simp)
      (by rw [plen, length_setHeader]; exact hsm)
      (by rw [plen, length_setHeader]; omega) pnk
      (by simp only [List.length_nil, offAt_zero, Nat.zero_add, Nat.sub_zero]
          exact hofb)
      k (Nat.le_refl _)
  by_cases hk0 : k = 0
  · subst hk0
    have hz : nodeAppendRange (setHeader left (btype old) 0) old 0 0 0 =
        setHeader left (btype old) 0 := rfl
    rw [hz]
    unfold nbytes
    rw [hsh.hnk]
    unfold kvLocation
    rw [hsh.hnk, show getOffset (setHeader left (btype old) 0) 0 = 0 from rfl]
    unfold leftSize u16
    simp [HEADER, POINTER_SIZE, OFFSET_SIZE, offAt_zero]
  · have hexp : nodeAppendRange (setHeader left (btype old) k) old 0 0 k =
        writeBytes (appendRangeOffsets (appendRangePtrs (setHeader left
          (btype old) k) old 0 0 k) old 0 0
          (getOffset (appendRangePtrs (setHeader left (btype old) k) old 0 0 k) 0)
          (getOffset old 0) k)
          (kvLocation (appendRangeOffsets (appendRangePtrs (setHeader left
            (btype old) k) old 0 0 k) old 0 0
            (getOffset (appendRangePtrs (setHeader left (btype old) k) old 0 0 k) 0)
            (getOffset old 0) k) 0)
          (readBytes old (kvLocation old 0)
            (kvLocation old (0 + k) - kvLocation old 0)) := by
      unfold nodeAppendRange
      rw [if_neg hk0]
    have hg0 : getOffset (appendRangePtrs (setHeader left (btype old) k)
        old 0 0 k) 0 = 0 := rfl
    have hgo0 : getOffset old 0 = 0 := rfl
    rw [hexp, hg0, hgo0]
    simp only [List.length_nil, offAt_zero, Nat.zero_add, Nat.sub_zero]
      at olen onk okv optr ooffl ooffw
    have hoffk : getOffset (appendRangeOffsets (appendRangePtrs (setHeader left
        (btype old) k) old 0 0 k) old 0 0 0 0 k) k = offAt fs k := by
      have := ooffw k (by omega) (Nat.le_refl _)
      simpa using this
    have hoff0 : getOffset (appendRangeOffsets (appendRangePtrs (setHeader left
        (btype old) k) old 0 0 k) old 0 0 0 0 k) 0 = 0 := rfl
    have honk : nkeys (appendRangeOffsets (appendRangePtrs (setHeader left
        (btype old) k) old 0 0 k) old 0 0 0 0 k) = k := onk
    have hKloc : kvLocation (appendRangeOffsets (appendRangePtrs (setHeader left
        (btype old) k) old 0 0 k) old 0 0 0 0 k) 0 = 4 + 10 * k := by
      unfold kvLocation
      rw [honk, hoff0]
      unfold u16 HEADER POINTER_SIZE OFFSET_SIZE
      omega
    rw [hKloc]
    obtain ⟨wlen, wty, wnk, woff, wptr⟩ := kvWrite_effects
      (appendRangeOffsets (appendRangePtrs (setHeader left (btype old) k)
        old 0 0 k) old 0 0 0 0 k) k (4 + 10 * k)
      (readBytes old (kvLocation old 0) (kvLocation old (0 + k) - kvLocation old 0))
      honk (Nat.le_refl _)
      (by rw [olen, plen, length_setHeader]; omega)
      (by rw [olen, plen, length_setHeader]; exact hsm)
    rw [nbytes_eq, wnk, woff k (Nat.le_refl _), hoffk]
    simp only [leftSize, HEADER]
    congr 1
    ring

/-- `nbytes` of the left piece of `nodeSplit2`, buffer size permitting
only the fixed regions. -/
theorem nbytes_nodeSplit2_left {old : Bytes} {t2 : Nat} {fs : List Entry}
    (ho : PartialRep old t2 fs.length fs) (left right : Bytes)
    (hk : split2Nleft old ≤ fs.length) (hsm : left.length < 65536)
    (hroom : 4 + 10 * split2Nleft old ≤ left.length)
    (hofb : offAt fs (split2Nleft old) < 65536) :
    nbytes (nodeSplit2 left right old).1 = u16 (leftSize fs (split2Nleft old)) := by
  have hexp : (nodeSplit2 left right old).1 =
      nodeAppendRange (setHeader left (btype old) (split2Nleft old)) old 0 0
        (split2Nleft old) := rfl
  rw [hexp]
  exact nbytes_split_left ho left (split2Nleft old) hk hsm hroom hofb

/-! ## The 8191-byte counterexample node -/

theorem offAt_cons (e : Entry) (es : List Entry) (k : Nat) :
    offAt (e :: es) (k + 1) = esize e + offAt es k := by
  simp [offAt]

theorem bigEs_esizes :
    esize ⟨0, List.replicate 1000 97, List.replicate 2992 0⟩ = 3996 ∧
    esize ⟨0, [98, 98, 98, 98], List.replicate 70 0⟩ = 78 ∧
    esize ⟨0, List.replicate 1000 99, List.replicate 3000 0⟩ = 4004 ∧
    esize ⟨0, [100], List.replicate 64 0⟩ = 69 := by
  refine ⟨?_, ?_, ?_, ?_⟩
  · unfold esize KEY_LENGTH_SIZE VAL_LENGTH_SIZE
    dsimp only
    rw [List.length_replicate, List.length_replicate]
  · unfold esize KEY_LENGTH_SIZE VAL_LENGTH_SIZE
    dsimp only
    rw [List.length_replicate]
    rfl
  · unfold esize KEY_LENGTH_SIZE VAL_LENGTH_SIZE
    dsimp only
    rw [List.length_replicate, List.length_replicate]
  · unfold esize KEY_LENGTH_SIZE VAL_LENGTH_SIZE
    dsimp only
    rw [List.length_replicate]
    rfl

theorem bigEs_cons : bigEs = ⟨0, List.replicate 1000 97, List.replicate 2992 0⟩ ::
    (⟨0, [98, 98, 98, 98], List.replicate 70 0⟩ ::
      (⟨0, List.replicate 1000 99, List.replicate 3000 0⟩ ::
        (⟨0, [100], List.replicate 64 0⟩ :: []))) := rfl

theorem bigEs_offsets : offAt bigEs 1 = 3996 ∧ offAt bigEs 2 = 4074 ∧
    offAt bigEs 3 = 8078 ∧ offAt bigEs 4 = 8147 := by
  obtain ⟨he1, he2, he3, he4⟩ := bigEs_esizes
  refine ⟨?_, ?_, ?_, ?_⟩
  · rw [bigEs_cons, show (1 : Nat) = 0 + 1 from rfl, offAt_cons, he1]
    rfl
  · rw [bigEs_cons, show (2 : Nat) = 1 + 1 from rfl, offAt_cons, he1,
      show (1 : Nat) = 0 + 1 from rfl, offAt_cons, he2]
    rfl
  · rw [bigEs_cons, show (3 : Nat) = 2 + 1 from rfl, offAt_cons, he1,
      show (2 : Nat) = 1 + 1 from rfl, offAt_cons, he2,
      show (1 : Nat) = 0 + 1 from rfl, offAt_cons, he3]
    rfl
  · rw [bigEs_cons, show (4 : Nat) = 3 + 1 from rfl, offAt_cons, he1,
      show (3 : Nat) = 2 + 1 from rfl, offAt_cons, he2,
      show (2 : Nat) = 1 + 1 from rfl, offAt_cons, he3,
      show (1 : Nat) = 0 + 1 from rfl, offAt_cons, he4]
    rfl

theorem bigNode_rep : PartialRep bigNode 2 bigEs.length bigEs := by
  have h4 : bigEs.length = 4 := rfl
  obtain ⟨hoff1, hoff2, hoff3, hoff4⟩ := bigEs_offsets
  have hkvlen : (encKVs bigEs).length = 8147 := by
    have := length_encKVs bigEs
    rw [h4, hoff4] at this
    exact this
  have hprelen : ([2, 0, 4, 0] ++ List.replicate 32 (0 : Nat) ++
      (u16Bytes 3996 ++ u16Bytes 4074 ++ u16Bytes 8078 ++ u16Bytes 8147)).length
      = 44 := by
    rw [List.length_append, List.length_append, List.length_replicate]
    rfl
  have hlen : bigNode.length = 8191 := by
    unfold bigNode
    rw [List.length_append, hprelen, hkvlen]
  constructor
  · omega
  · exact Nat.le_refl _
  · rw [hlen, h4, hoff4]
    simp only [HEADER]
    omega
  · rw [hlen]
    omega
  · decide
  · rw [h4]
    decide
  · intro i hi
    rw [h4] at hi
    interval_cases i
    · rfl
    · rw [hoff1]
      decide
    · rw [hoff2]
      decide
    · rw [hoff3]
      decide
    · rw [hoff4]
      decide
  · intro i hi
    rw [h4] at hi
    interval_cases i <;> decide
  · rw [h4, hoff4]
    rw [show HEADER + 10 * 4 = 44 from rfl]
    rw [show bigNode = ([2, 0, 4, 0] ++ List.replicate 32 (0 : Nat) ++
      (u16Bytes 3996 ++ u16Bytes 4074 ++ u16Bytes 8078 ++ u16Bytes 8147)) ++
      encKVs bigEs from rfl]
    rw [readBytes_append_right _ _ _ _ (by rw [hprelen]), hprelen, Nat.sub_self,
      readBytes_zero]
    exact List.take_of_length_le (by rw [hkvlen])
  · intro e he
    rcases List.mem_cons.mp he with rfl | he
    · decide
    rcases List.mem_cons.mp he with rfl | he
    · decide
    rcases List.mem_cons.mp he with rfl | he
    · decide
    rcases List.mem_cons.mp he with rfl | he
    · decide
    exact absurd he (List.not_mem_nil _)

theorem bigEs_wf : ∀ e ∈ bigEs, e.key.length ≤ BTREE_MAX_KEY_SIZE ∧
    e.val.length ≤ BTREE_MAX_VAL_SIZE := by
  intro e he
  rcases List.mem_cons.mp he with rfl | he
  · constructor
    · show (List.replicate 1000 97).length ≤ BTREE_MAX_KEY_SIZE
      rw [List.length_replicate]
      decide
    · show (List.replicate 2992 (0 : Nat)).length ≤ BTREE_MAX_VAL_SIZE
      rw [List.length_replicate]
      decide
  rcases List.mem_cons.mp he with rfl | he
  · constructor
    · decide
    · show (List.replicate 70 (0 : Nat)).length ≤ BTREE_MAX_VAL_SIZE
      rw [List.length_replicate]
      decide
  rcases List.mem_cons.mp he with rfl | he
  · constructor
    · show (List.replicate 1000 99).length ≤ BTREE_MAX_KEY_SIZE
      rw [List.length_replicate]
      decide
    · show (List.replicate 3000 (0 : Nat)).length ≤ BTREE_MAX_VAL_SIZE
      rw [List.length_replicate]
      decide
  rcases List.mem_cons.mp he with rfl | he
  · constructor
    · decide
    · show (List.replicate 64 (0 : Nat)).length ≤ BTREE_MAX_VAL_SIZE
      rw [List.length_replicate]
      decide
  exact absurd he (List.not_mem_nil _)

theorem bigEs_sorted :
    List.Chain' (fun a b => bytesCompare a.key b.key = Ordering.lt) bigEs := by
  rw [bigEs_cons, List.chain'_cons, List.chain'_cons, List.chain'_cons]
  refine ⟨?_, ?_, ?_, List.chain'_singleton _⟩ <;> decide

/-- C5 counterexample: `bigEs` is a sorted node whose entries respect the
key/value limits with `nbytes = 8191 ≤ 2·PAGE_SIZE`, yet `nodeSplit3`
produces a `leftleft` piece with `nbytes = 4098 > PAGE_SIZE` (the Go
code's own `"leftleft is too large"` assert fires on this node). -/
theorem c5_split_piece_oversized :
    nbytes bigNode ≤ 2 * BTREE_MAX_NODE_SIZE ∧
    (∀ e ∈ entriesOf bigNode, e.key.length ≤ BTREE_MAX_KEY_SIZE ∧
      e.val.length ≤ BTREE_MAX_VAL_SIZE) ∧
    List.Chain' (fun a b => bytesCompare a.key b.key = Ordering.lt)
      (entriesOf bigNode) ∧
    ∃ piece ∈ (nodeSplit3 bigNode).2, BTREE_MAX_NODE_SIZE < nbytes piece := by
  have h := bigNode_rep
  have h4 : bigEs.length = 4 := rfl
  obtain ⟨hoff1, hoff2, hoff3, hoff4⟩ := bigEs_offsets
  have hent : entriesOf bigNode = bigEs := rep_entriesOf h
  have hnb : nbytes bigNode = 8191 := by
    rw [rep_nbytes h]
    unfold leftSize
    rw [h4, hoff4]
    rfl
  have hk1 : split2Nleft bigNode = 3 := by decide
  obtain ⟨hrepL, hrepR⟩ := rep_nodeSplit2 h
    (List.replicate (2 * BTREE_MAX_NODE_SIZE) 0)
    (List.replicate BTREE_MAX_NODE_SIZE 0)
    (by rw [List.length_replicate]; decide)
    (by rw [List.length_replicate]; decide)
    (by rw [hk1]; omega) (by rw [hk1, h4]; omega)
    (by rw [List.length_replicate, hk1]
        unfold leftSize
        rw [hoff3]
        decide)
    (by rw [List.length_replicate, hk1]
        unfold rightSize
        rw [h4, hoff3, hoff4]
        decide)
  set p := nodeSplit2 (List.replicate (2 * BTREE_MAX_NODE_SIZE) 0)
    (List.replicate BTREE_MAX_NODE_SIZE 0) bigNode with hpdef
  rw [hk1] at hrepL
  have hlen3 : (bigEs.take 3).length = 3 := rfl
  have hrepLfull : PartialRep p.1 2 (bigEs.take 3).length (bigEs.take 3) := by
    rw [hlen3]
    exact hrepL
  have hnbL : nbytes p.1 = 8112 := by
    rw [rep_nbytes hrepLfull, hlen3, leftSize_take bigEs 3 3 (Nat.le_refl _)]
    unfold leftSize
    rw [hoff3]
    rfl
  have hnkp : nkeys p.1 = 3 := by
    have := hrepLfull.hnk
    rw [hlen3] at this
    exact this
  have hlb1 : leftBytes p.1 1 = 4010 := by
    rw [rep_leftBytes hrepLfull 1 (by rw [hlen3]; omega),
      leftSize_take bigEs 3 1 (by omega)]
    unfold leftSize
    rw [hoff1]
    rfl
  have hrb1 : rightBytes p.1 1 = 4106 := by
    rw [rep_rightBytes hrepLfull 1 (by rw [hlen3]; omega)]
    unfold rightSize
    rw [hlen3, offAt_take bigEs 3 3 (Nat.le_refl _), offAt_take bigEs 1 3 (by omega),
      hoff3, hoff1]
    decide
  have hrb2 : rightBytes p.1 2 = 4018 := by
    rw [rep_rightBytes hrepLfull 2 (by rw [hlen3]; omega)]
    unfold rightSize
    rw [hlen3, offAt_take bigEs 3 3 (Nat.le_refl _), offAt_take bigEs 2 3 (by omega),
      hoff3, hoff2]
    decide
  have hd : split2Dec p.1 1 = 1 := by
    have hstep : split2Dec p.1 1 =
        if BTREE_MAX_NODE_SIZE < leftBytes p.1 1 then split2Dec p.1 0 else 1 := rfl
    rw [hstep, hlb1, if_neg (by decide)]
  have hinc : split2Inc p.1 3 1 = 2 := by
    have h1 : split2Inc p.1 3 1 =
        if BTREE_MAX_NODE_SIZE < rightBytes p.1 1 then split2Inc p.1 2 2
        else 1 := rfl
    have h2 : split2Inc p.1 2 2 =
        if BTREE_MAX_NODE_SIZE < rightBytes p.1 2 then split2Inc p.1 1 3
        else 2 := rfl
    rw [h1, hrb1, if_pos (by decide), h2, hrb2, if_neg (by decide)]
  have hk2 : split2Nleft p.1 = 2 := by
    unfold split2Nleft
    rw [hnkp, show (3 : Nat) / 2 = 1 from rfl, hd, hinc]
  have hnbq : nbytes (nodeSplit2 (List.replicate BTREE_MAX_NODE_SIZE 0)
      (List.replicate BTREE_MAX_NODE_SIZE 0) p.1).1 = 4098 := by
    rw [nbytes_nodeSplit2_left hrepLfull (List.replicate BTREE_MAX_NODE_SIZE 0)
      (List.replicate BTREE_MAX_NODE_SIZE 0)
      (by rw [hk2, hlen3]; omega)
      (by rw [List.length_replicate]; decide)
      (by rw [hk2, List.length_replicate]; decide)
      (by rw [hk2, offAt_take bigEs 2 3 (by omega), hoff2]; decide)]
    rw [hk2, leftSize_take bigEs 3 2 (by omega)]
    unfold leftSize u16
    rw [hoff2]
    rfl
  have hdef : nodeSplit3 bigNode = (3,
      [(nodeSplit2 (List.replicate BTREE_MAX_NODE_SIZE 0)
        (List.replicate BTREE_MAX_NODE_SIZE 0) p.1).1,
       (nodeSplit2 (List.replicate BTREE_MAX_NODE_SIZE 0)
        (List.replicate BTREE_MAX_NODE_SIZE 0) p.1).2, p.2]) := by
    unfold nodeSplit3
    rw [if_neg (by rw [hnb]; decide)]
    dsimp only
    rw [← hpdef, if_neg (by rw [hnbL]; decide)]
  refine ⟨by rw [hnb]; decide, ?_, ?_, ?_⟩
  · rw [hent]
    exact bigEs_wf
  · rw [hent]
    exact bigEs_sorted
  · rw [hdef]
    refine ⟨(nodeSplit2 (List.replicate BTREE_MAX_NODE_SIZE 0)
      (List.replicate BTREE_MAX_NODE_SIZE 0) p.1).1, ?_, ?_⟩
    · exact List.mem_cons_self _ _
    · rw [hnbq]
      decide

theorem c5_nodeSplit3_splits_witness :
    repCheck leafPageLit BTREE_LEAF leafPageEs = true ∧
    nbytes leafPageLit ≤ 2 * BTREE_MAX_NODE_SIZE - 3 ∧
    (∀ p ∈ (nodeSplit3 leafPageLit).2, nbytes p ≤ BTREE_MAX_NODE_SIZE) ∧
    (nodeSplit3 leafPageLit).2.flatMap entriesOf = leafPageEs :=
  ⟨by decide, by decide,
   (c5_nodeSplit3_splits leafPageLit BTREE_LEAF leafPageEs
      (rep_of_repCheck leafPageLit BTREE_LEAF leafPageEs (by decide))
      (by decide)
      (List.chain'_cons.mpr ⟨by decide, List.chain'_singleton _⟩)
      (by decide)).2.2.2.1,
   (c5_nodeSplit3_splits leafPageLit BTREE_LEAF leafPageEs
      (rep_of_repCheck leafPageLit BTREE_LEAF leafPageEs (by decide))
      (by decide)
      (List.chain'_cons.mpr ⟨by decide, List.chain'_singleton _⟩)
      (by decide)).2.2.2.2.1⟩

/-! ## Free-list chains (C6) -/

theorem chMembers_nil : chMembers [] = [] := rfl

theorem chMembers_cons (q : Nat) (ms : List Nat) (rest : List (Nat × List Nat)) :
    chMembers ((q, ms) :: rest) = ms.reverse ++ chMembers rest := by
  simp [chMembers]

theorem chainRep_nil_of_zero (pages : List (Nat × (List Nat × Nat)))
    (ch : List (Nat × List Nat)) (h : ChainRep pages 0 ch) : ch = [] := by
  cases ch with
  | nil => rfl
  | cons pc rest =>
    obtain ⟨ms, q⟩ := pc
    obtain ⟨h1, h2, _⟩ := h
    exact absurd h1.symm h2

/-- Prepending a page whose key is not on the chain preserves the chain. -/
theorem chainRep_prepend (pages : List (Nat × (List Nat × Nat)))
    (e : Nat × (List Nat × Nat)) :
    ∀ (ch : List (Nat × List Nat)) (p : Nat), ChainRep pages p ch →
    e.1 ∉ ch.map Prod.fst → ChainRep (e :: pages) p ch := by
  intro ch
  induction ch with
  | nil =>
    intro p h _
    exact h
  | cons pc rest ih =>
    intro p h hnm
    obtain ⟨q, ms⟩ := pc
    obtain ⟨h1, h2, nxt, h3, h4⟩ := h
    simp only [List.map_cons, List.mem_cons] at hnm
    push_neg at hnm
    refine ⟨h1, h2, nxt, ?_, ih nxt h4 hnm.2⟩
    obtain ⟨k, v⟩ := e
    have hne : (q == k) = false := by
      simp only [beq_eq_false_iff_ne]
      intro he
      exact hnm.1 (by simp [he])
    simp only [List.lookup, hne]
    exact h3

/-- With enough fuel, `flFlatten` lists exactly the chain's members. -/
theorem flFlatten_eq_chMembers (pages : List (Nat × (List Nat × Nat))) :
    ∀ (ch : List (Nat × List Nat)) (p fuel : Nat), ChainRep pages p ch →
    ch.length ≤ fuel → flFlatten pages fuel p = chMembers ch := by
  intro ch
  induction ch with
  | nil =>
    intro p fuel h _
    subst h
    cases fuel <;> rfl
  | cons pc rest ih =>
    intro p fuel h hf
    obtain ⟨q, ms⟩ := pc
    obtain ⟨h1, h2, nxt, h3, h4⟩ := h
    subst h1
    cases fuel with
    | zero => simp at hf
    | succ fuel =>
      obtain ⟨m, rfl⟩ : ∃ m, p = m + 1 := ⟨p - 1, by omega⟩
      show (match List.lookup (m + 1) pages with
        | none => []
        | some (ms, nxt) => flPageTop ms ++ flFlatten pages fuel nxt) = _
      rw [h3]
      show flPageTop ms ++ flFlatten pages fuel nxt = _
      rw [chMembers_cons, ih nxt fuel h4 (by simpa using hf)]
      rfl

/-- With any fuel, `flFlatten` only lists chain members. -/
theorem mem_flFlatten_of_chainRep (pages : List (Nat × (List Nat × Nat))) :
    ∀ (fuel : Nat) (ch : List (Nat × List Nat)) (p x : Nat), ChainRep pages p ch →
    x ∈ flFlatten pages fuel p → x ∈ chMembers ch := by
  intro fuel
  induction fuel with
  | zero =>
    intro ch p x _ hx
    simp [flFlatten] at hx
  | succ fuel ih =>
    intro ch p x h hx
    cases ch with
    | nil =>
      subst h
      simp [flFlatten] at hx
    | cons pc rest =>
      obtain ⟨q, ms⟩ := pc
      obtain ⟨h1, h2, nxt, h3, h4⟩ := h
      subst h1
      obtain ⟨m, rfl⟩ : ∃ m, p = m + 1 := ⟨p - 1, by omega⟩
      have hflat : flFlatten pages (fuel + 1) (m + 1) =
          flPageTop ms ++ flFlatten pages fuel nxt := by
        show (match List.lookup (m + 1) pages with
          | none => []
          | some (ms, nxt) => flPageTop ms ++ flFlatten pages fuel nxt) = _
        rw [h3]
      rw [hflat] at hx
      rw [chMembers_cons]
      rcases List.mem_append.mp hx with hx | hx
      · exact List.mem_append_left _ hx
      · exact List.mem_append_right _ (ih rest nxt x h4 hx)

/-- The push phase reaches exactly the pushed pointers plus the previous
chain's members. -/
theorem flPush_spec : ∀ (fuel : Nat) (st : FLSt) (freed reuse : List Nat)
    (ch : List (Nat × List Nat)),
    ChainRep st.pages st.head ch →
    freed.length ≤ fuel →
    reuse.Nodup →
    (∀ r ∈ reuse, r ≠ 0 ∧ r ∉ ch.map Prod.fst ∧ r < st.fresh) →
    (∀ q ∈ ch.map Prod.fst, q < st.fresh) →
    0 < st.fresh →
    ∃ ch2, ChainRep (flPush fuel st freed reuse).pages
        (flPush fuel st freed reuse).head ch2 ∧
      ∀ x, x ∈ chMembers ch2 ↔ x ∈ freed ∨ x ∈ chMembers ch := by
  intro fuel
  induction fuel with
  | zero =>
    intro st freed reuse ch hch hlen _ _ _ _
    have hnil : freed = [] := List.eq_nil_of_length_eq_zero (by omega)
    subst hnil
    exact ⟨ch, hch, fun x => by simp⟩
  | succ fuel ih =>
    intro st freed reuse ch hch hlen hnd hr hq hf0
    have hcap : 1 ≤ FREE_LIST_CAP := by decide
    by_cases hf : freed = []
    · subst hf
      rw [show flPush (fuel + 1) st [] reuse = st from rfl]
      exact ⟨ch, hch, fun x => by simp⟩
    · have hrest : (freed.drop FREE_LIST_CAP).length ≤ fuel := by
        rw [List.length_drop]
        have hp : 0 < freed.length := List.length_pos_of_ne_nil hf
        omega
      have hfd : ∀ x, x ∈ freed ↔
          x ∈ freed.take FREE_LIST_CAP ∨ x ∈ freed.drop FREE_LIST_CAP := by
        intro x
        rw [← List.mem_append, List.take_append_drop]
      rcases reuse with _ | ⟨r, rtl⟩
      · have hstep : flPush (fuel + 1) st freed [] =
            flPush fuel { st with
              pages := (st.fresh, (freed.take FREE_LIST_CAP, st.head)) :: st.pages
              head := st.fresh
              fresh := st.fresh + 1 } (freed.drop FREE_LIST_CAP) [] := by
          rw [show flPush (fuel + 1) st freed [] =
            if freed = [] then st else
              flPush fuel { st with
                pages := (st.fresh, (freed.take FREE_LIST_CAP, st.head)) :: st.pages
                head := st.fresh
                fresh := st.fresh + 1 } (freed.drop FREE_LIST_CAP) [] from rfl,
            if_neg hf]
        have hch' : ChainRep ((st.fresh, (freed.take FREE_LIST_CAP, st.head)) ::
            st.pages) st.fresh ((st.fresh, freed.take FREE_LIST_CAP) :: ch) := by
          refine ⟨rfl, by omega, st.head, ?_, ?_⟩
          · simp [List.lookup]
          · refine chainRep_prepend st.pages _ ch st.head hch ?_
            intro hmem
            exact absurd (hq _ hmem) (by omega)
        obtain ⟨ch2, hch2, hiff⟩ := ih { st with
            pages := (st.fresh, (freed.take FREE_LIST_CAP, st.head)) :: st.pages
            head := st.fresh
            fresh := st.fresh + 1 } (freed.drop FREE_LIST_CAP) []
          ((st.fresh, freed.take FREE_LIST_CAP) :: ch) hch' hrest
          List.nodup_nil (by simp)
          (by
            intro q hq2
            simp only [List.map_cons, List.mem_cons] at hq2
            rcases hq2 with rfl | hq2
            · exact Nat.lt_succ_self _
            · exact Nat.lt_succ_of_lt (hq q hq2))
          (Nat.succ_pos _)
        refine ⟨ch2, by rw [hstep]; exact hch2, ?_⟩
        intro x
        rw [hiff x, chMembers_cons, hfd x, List.mem_append,
          List.mem_reverse]
        tauto
      · obtain ⟨hr0, hrch, hrfr⟩ := hr r (List.mem_cons_self _ _)
        have hstep : flPush (fuel + 1) st freed (r :: rtl) =
            flPush fuel { st with
              pages := (r, (freed.take FREE_LIST_CAP, st.head)) :: st.pages
              head := r } (freed.drop FREE_LIST_CAP) rtl := by
          rw [show flPush (fuel + 1) st freed (r :: rtl) =
            if freed = [] then st else
              flPush fuel { st with
                pages := (r, (freed.take FREE_LIST_CAP, st.head)) :: st.pages
                head := r } (freed.drop FREE_LIST_CAP) rtl from rfl, if_neg hf]
        have hch' : ChainRep ((r, (freed.take FREE_LIST_CAP, st.head)) :: st.pages)
            r ((r, freed.take FREE_LIST_CAP) :: ch) := by
          refine ⟨rfl, hr0, st.head, ?_, ?_⟩
          · simp [List.lookup]
          · exact chainRep_prepend st.pages _ ch st.head hch hrch
        obtain ⟨ch2, hch2, hiff⟩ := ih { st with
            pages := (r, (freed.take FREE_LIST_CAP, st.head)) :: st.pages
            head := r } (freed.drop FREE_LIST_CAP) rtl
          ((r, freed.take FREE_LIST_CAP) :: ch) hch' hrest
          (List.Nodup.of_cons hnd)
          (by
            intro r2 hr2
            obtain ⟨h0, h1, h2⟩ := hr r2 (List.mem_cons_of_mem _ hr2)
            refine ⟨h0, ?_, h2⟩
            simp only [List.map_cons, List.mem_cons]
            push_neg
            exact ⟨by
              intro he
              exact (List.nodup_cons.mp hnd).1 (he ▸ hr2), h1⟩)
          (by
            intro q hq2
            simp only [List.map_cons, List.mem_cons] at hq2
            rcases hq2 with rfl | hq2
            · exact hrfr
            · exact hq q hq2)
          hf0
        refine ⟨ch2, by rw [hstep]; exact hch2, ?_⟩
        intro x
        rw [hiff x, chMembers_cons, hfd x, List.mem_append,
          List.mem_reverse]
        tauto

theorem fl_lookup_mem (a : Nat) (b : List Nat × Nat) :
    ∀ ps : List (Nat × (List Nat × Nat)), List.lookup a ps = some b → (a, b) ∈ ps := by
  intro ps
  induction ps with
  | nil => intro h; simp [List.lookup] at h
  | cons e t ih =>
    obtain ⟨k, v⟩ := e
    intro h
    by_cases hk : a = k
    · subst hk
      simp only [List.lookup, beq_self_eq_true] at h
      simp [← Option.some_inj.mp h]
    · have hne : (a == k) = false := by
        simp only [beq_eq_false_iff_ne]
        exact hk
      simp only [List.lookup, hne] at h
      exact List.mem_cons_of_mem _ (ih h)

theorem nodup_subset_length (l l2 : List Nat) (hnd : l.Nodup) (hsub : l ⊆ l2) :
    l.length ≤ l2.length := by
  rw [← List.toFinset_card_of_nodup hnd]
  refine le_trans (Finset.card_le_card ?_) (List.toFinset_card_le l2)
  intro x hx
  rw [List.mem_toFinset] at hx ⊢
  exact hsub hx

theorem drop_append_ge (l2 : List Nat) :
    ∀ (l1 : List Nat) (n : Nat), l1.length ≤ n →
    (l1 ++ l2).drop n = l2.drop (n - l1.length) := by
  intro l1
  induction l1 with
  | nil => intro n _; simp
  | cons a t ih =>
    intro n h
    simp only [List.length_cons] at h
    obtain ⟨m, rfl⟩ : ∃ m, n = m + 1 := ⟨n - 1, by omega⟩
    simp only [List.cons_append, List.drop_succ_cons, List.length_cons]
    rw [ih m (by omega)]
    congr 1
    omega

theorem drop_append_le (l2 : List Nat) :
    ∀ (l1 : List Nat) (n : Nat), n ≤ l1.length →
    (l1 ++ l2).drop n = l1.drop n ++ l2 := by
  intro l1
  induction l1 with
  | nil =>
    intro n h
    simp only [List.length_nil, Nat.le_zero] at h
    subst h
    simp
  | cons a t ih =>
    intro n h
    cases n with
    | zero => simp
    | succ m =>
      simp only [List.cons_append, List.drop_succ_cons]
      exact ih m (by simpa using h)

theorem reverse_drop (l : List Nat) (n : Nat) (h : n ≤ l.length) :
    l.reverse.drop n = (l.take (l.length - n)).reverse := by
  rw [List.reverse_take]
  congr 1
  omega

theorem mem_drop_mono (l : List Nat) (a b : Nat) (hba : b ≤ a) (x : Nat)
    (hx : x ∈ l.drop a) : x ∈ l.drop b := by
  have : l.drop a = (l.drop b).drop (a - b) := by
    rw [List.drop_drop]
    congr 1
    omega
  rw [this] at hx
  exact List.mem_of_mem_drop hx

theorem chainRep_keys_mem (pages : List (Nat × (List Nat × Nat))) :
    ∀ (ch : List (Nat × List Nat)) (p : Nat), ChainRep pages p ch →
    ∀ q ∈ ch.map Prod.fst, q ∈ pages.map Prod.fst := by
  intro ch
  induction ch with
  | nil => intro p _ q hq; simp at hq
  | cons pc rest ih =>
    intro p h q hq
    obtain ⟨k, ms⟩ := pc
    obtain ⟨h1, h2, nxt, h3, h4⟩ := h
    simp only [List.map_cons, List.mem_cons] at hq
    rcases hq with rfl | hq
    · exact List.mem_map.mpr ⟨(q, (ms, nxt)), fl_lookup_mem q (ms, nxt) pages h3, rfl⟩
    · exact ih nxt h4 q hq

end ElkDB
